import Mathlib

/-!
Verification of the crossword generation engines of the repository:
the classic placement engine (`crosswordGenerator.ts`) and the fill-in
CSP engine (`fillinGenerator.ts`), shallowly embedded in Lean.

Conventions of the embedding:
* JS strings are `List Char`; out-of-range reads give a sentinel character
  (JS would give `undefined`, which compares unequal to every letter).
* The mutable letter grid of the classic engine is a total function
  `Int → Int → Option Char` (JS arrays accept out-of-range and negative
  indices as plain properties; reads of untouched cells give `null`-like
  values, matching `none`).
* `Math.random()` is modelled by an explicit stream of naturals `Rng`;
  `Math.floor(Math.random() * n)` becomes `next` modulo `n`.
* Scores computed with floating point in the source are modelled over an
  explicit numerator/denominator pair type `JQ` (exact rational values the
  kernel can compute with), with `Math.log` an arbitrary parameter
  function; no claim below depends on the numeric values of scores.
* A thrown TypeError (reading a property of `undefined`) is modelled by
  `Option`: `none` is an exceptional (thrown) outcome.
-/

set_option maxHeartbeats 1000000
set_option maxRecDepth 100000

namespace Crossword

/-- Words are JS strings restricted to their character sequence. -/
abbrev Wd := List Char

/-- Indexing `w[i]` on a JS string: out of range gives a sentinel that is
not a letter (standing for `undefined`). -/
def jsGet (w : Wd) (i : Nat) : Char := w.getD i (Char.ofNat 0)

/-- Word entry as parsed from the word list. -/
structure WordEntry where
  word : Wd
  definition : Wd
deriving DecidableEq, Repr

inductive Direction where
  | across
  | down
deriving DecidableEq, Repr

/-- Placed word of the final result (clue number assigned). Coordinates are
integers because the working grid of the classic engine admits negative
positions before trimming. -/
structure PlacedWord where
  word : Wd
  definition : Wd
  row : Int
  col : Int
  direction : Direction
  clueNumber : Nat
deriving DecidableEq, Repr

/-- Final result shape shared by both engines. -/
structure CrosswordData where
  grid : List (List (Option Char))
  words : List PlacedWord
  width : Nat
  height : Nat
  avgPlayability : Nat
  puzzleType : Option Wd
deriving DecidableEq, Repr

/-- Explicit random stream: `Math.random` is the source of all
nondeterminism in both engines. -/
structure Rng where
  seq : Nat → Nat
  pos : Nat

/-- Drawing `Math.floor(Math.random() * bound)`: a value `< bound`. -/
def Rng.next (g : Rng) (bound : Nat) : Nat × Rng :=
  (g.seq g.pos % bound, ⟨g.seq, g.pos + 1⟩)

/-- Unnormalised rational numbers modelling JS floating-point scores: the
kernel cannot reduce `Rat` (gcd normalisation), so scores use explicit
numerator/denominator pairs; all denominators built by the engines are
positive. -/
structure JQ where
  num : Int
  den : Int
deriving DecidableEq, Repr

instance : NatCast JQ := ⟨fun n => ⟨n, 1⟩⟩
instance : IntCast JQ := ⟨fun n => ⟨n, 1⟩⟩
instance : OfNat JQ n := ⟨⟨n, 1⟩⟩
instance : Add JQ := ⟨fun a b => ⟨a.num * b.den + b.num * a.den, a.den * b.den⟩⟩
instance : Sub JQ := ⟨fun a b => ⟨a.num * b.den - b.num * a.den, a.den * b.den⟩⟩
instance : Mul JQ := ⟨fun a b => ⟨a.num * b.num, a.den * b.den⟩⟩
instance : Div JQ := ⟨fun a b => ⟨a.num * b.den, a.den * b.num⟩⟩
instance : LE JQ := ⟨fun a b => a.num * b.den ≤ b.num * a.den⟩
instance : LT JQ := ⟨fun a b => a.num * b.den < b.num * a.den⟩

instance : DecidableRel (fun a b : JQ => a ≤ b) := fun a b =>
  inferInstanceAs (Decidable (a.num * b.den ≤ b.num * a.den))

instance : DecidableRel (fun a b : JQ => a < b) := fun a b =>
  inferInstanceAs (Decidable (a.num * b.den < b.num * a.den))

def JQ.abs (a : JQ) : JQ := ⟨|a.num|, |a.den|⟩

/-- Playability lookup `getPlayabilityScore`; the underlying map is data,
so it is a parameter of the whole development. -/
abbrev Play := Wd → Nat

/-- Model of `Math.log(x)`; its numeric behaviour is irrelevant to every
claim, so it is kept abstract as a parameter. -/
abbrev LogFn := JQ → JQ

/-- Swap two positions of a list (used by the Fisher–Yates shuffles). -/
def swapL (l : List α) (i j : Nat) : List α :=
  match l.get? i, l.get? j with
  | some a, some b => (l.set i b).set j a
  | _, _ => l

/-- Fisher–Yates step: `for i = k downto 1: j = rand(i+1); swap i j`. -/
def fyAux (l : List α) (g : Rng) : Nat → List α × Rng
  | 0 => (l, g)
  | Nat.succ i =>
      let (j, g1) := g.next (i + 2)
      fyAux (swapL l (i + 1) j) g1 i

/-- Fisher–Yates shuffle of a whole list, as written in the source. -/
def fyShuffle (l : List α) (g : Rng) : List α × Rng :=
  match l.length with
  | 0 => (l, g)
  | Nat.succ n => fyAux l g n

/-- Stable insertion preserving earlier elements among equal keys. -/
def insertByDesc [LE β] [DecidableRel (fun a b : β => a ≤ b)]
    (key : α → β) (x : α) : List α → List α
  | [] => [x]
  | y :: ys => if key y ≤ key x then x :: y :: ys else y :: insertByDesc key x ys

/-- Stable descending sort by a key; models `Array.prototype.sort` with the
comparator `(a, b) => key(b) - key(a)` (stable per the JS spec). -/
def sortByDesc [LE β] [DecidableRel (fun a b : β => a ≤ b)]
    (key : α → β) : List α → List α
  | [] => []
  | x :: xs => insertByDesc key x (sortByDesc key xs)

/-- Membership-preserving removal from a JS `Set` held as a list. -/
def setRemove (l : List Wd) (w : Wd) : List Wd :=
  l.filter (fun x => decide (x ≠ w))

/-- Insertion into a JS `Set` held as a duplicate-free list. -/
def setAdd (l : List Wd) (w : Wd) : List Wd :=
  if w ∈ l then l else l ++ [w]

/-! Fill-in template generation (`fillinGenerator.ts`). The template grid is
a total function; `true` is white/fillable, `false` is black, exactly as in
the source.  The width/height arguments mirror the source signatures. -/

abbrev FGrid := Nat → Nat → Bool

def MAX_SLOT_LENGTH : Nat := 8
def MIN_SLOT_LENGTH : Nat := 3

def makeWhiteGrid (_w _h : Nat) : FGrid := fun _ _ => true

def fsetCell (g : FGrid) (r c : Nat) (v : Bool) : FGrid :=
  fun x y => if x = r ∧ y = c then v else g x y

/-- Direction of a line scan in `findRuns`. -/
inductive LineDir where
  | row
  | col
deriving DecidableEq, Repr

/-- Maximal runs of `true` cells of one line, as `(start, length)` pairs, in
scan order; the scan runs one step past the end, mirroring `j <= secondary`
in the source. -/
def lineRuns (f : Nat → Bool) (n : Nat) : List (Nat × Nat) :=
  (((List.range (n + 1)).foldl (fun (st : Option Nat × List (Nat × Nat)) j =>
    let isWhite := decide (j < n) && f j
    match st.1, isWhite with
    | none, true => (some j, st.2)
    | none, false => (none, st.2)
    | some s, true => (some s, st.2)
    | some s, false => (none, st.2 ++ [(s, j - s)])) (none, []))).2

structure Run where
  line : Nat
  start : Nat
  length : Nat
deriving DecidableEq, Repr

/-- All horizontal (`row`) or vertical (`col`) white runs of the grid. -/
def findRuns (g : FGrid) (width height : Nat) (d : LineDir) : List Run :=
  let primary := match d with | .row => height | .col => width
  let secondary := match d with | .row => width | .col => height
  (List.range primary).foldl (fun acc i =>
    acc ++ (lineRuns (fun j => match d with | .row => g i j | .col => g j i) secondary).map
      (fun run => ⟨i, run.1, run.2⟩)) []

/-- Step of the short-run scan: extend the current run or close it,
flagging lengths 1 and 2. -/
def shortStep (f : Nat → Bool) (n : Nat) (st : Nat × Bool) (j : Nat) : Nat × Bool :=
  if decide (j < n) && f j then (st.1 + 1, st.2)
  else (0, st.2 || st.1 == 1 || st.1 == 2)

/-- Scan of one line for a maximal run of length 1 or 2. -/
def lineHasShort (f : Nat → Bool) (n : Nat) : Bool :=
  ((List.range (n + 1)).foldl (shortStep f n) (0, false)).2

/-- Check for any run of length 1 or 2 (invalid slot lengths). -/
def hasInvalidSlots (g : FGrid) (width height : Nat) : Bool :=
  ((List.range height).any fun r => lineHasShort (fun c => g r c) width) ||
  ((List.range width).any fun c => lineHasShort (fun r => g r c) height)

/-- Cells of a `height` by `width` area in row-major scan order. -/
def rmCells (width height : Nat) : List (Nat × Nat) :=
  ((List.range height).map (fun r => (List.range width).map (fun c => (r, c)))).flatten

/-- White cells of the grid in row-major scan order. -/
def whiteCells (g : FGrid) (width height : Nat) : List (Nat × Nat) :=
  ((List.range height).map (fun r =>
    (List.range width).filterMap (fun c => if g r c then some (r, c) else none))).flatten

/-- In-bounds white 4-neighbours of a cell, in the probe order of the
source (`[-1,0],[1,0],[0,-1],[0,1]`). -/
def neighborsOf (g : FGrid) (width height : Nat) (p : Nat × Nat) : List (Nat × Nat) :=
  ([((-1 : Int), (0 : Int)), (1, 0), (0, -1), (0, 1)]).filterMap fun d =>
    let nr : Int := (p.1 : Int) + d.1
    let nc : Int := (p.2 : Int) + d.2
    if 0 ≤ nr ∧ nr < (height : Int) ∧ 0 ≤ nc ∧ nc < (width : Int) ∧ g nr.toNat nc.toNat then
      some (nr.toNat, nc.toNat)
    else none

/-- One BFS run: pops the queue head, visits unvisited white neighbours,
counts pops.  `fuel` dominates the pop count (each pop consumes a queue
entry and at most one entry is ever pushed per white cell), so the bound
`width * height + 1` used below always drains the queue. -/
def bfsLoop (g : FGrid) (width height : Nat) :
    Nat → List (Nat × Nat) → List (Nat × Nat) → Nat → Nat × List (Nat × Nat) × List (Nat × Nat)
  | 0, queue, visited, count => (count, visited, queue)
  | Nat.succ fuel, queue, visited, count =>
    match queue with
    | [] => (count, visited, [])
    | p :: rest =>
      let st2 := (neighborsOf g width height p).foldl
        (fun (st : List (Nat × Nat) × List (Nat × Nat)) q =>
          if q ∈ st.1 then st else (st.1 ++ [q], st.2 ++ [q]))
        (visited, rest)
      bfsLoop g width height fuel st2.2 st2.1 (count + 1)

/-- BFS connectivity check: all white cells must be reachable from the
first one (row-major order), as in the source. -/
def isConnected (g : FGrid) (width height : Nat) : Bool :=
  match whiteCells g width height with
  | [] => true
  | start :: _ =>
    let total := (whiteCells g width height).length
    let out := bfsLoop g width height (width * height + 1) [start] [start] 0
    out.1 == total

/-- Place a black cell and its 180-degree symmetric partner; reverts and
reports failure if the placement would create short slots or disconnect the
white region. -/
def placeBlackPair (g : FGrid) (r c width height : Nat) : FGrid × Bool :=
  let sr := height - 1 - r
  let sc := width - 1 - c
  let isSame : Bool := decide (r = sr) && decide (c = sc)
  if !(g r c) then (g, false)
  else if !isSame && !(g sr sc) then (g, false)
  else
    let g1 := fsetCell g r c false
    let g2 := if isSame then g1 else fsetCell g1 sr sc false
    if hasInvalidSlots g2 width height || !(isConnected g2 width height) then (g, false)
    else (g2, true)

/-- Try break positions of one long run in order until one succeeds. -/
def tryBreakPositions (g : FGrid) (width height : Nat) (mk : Nat → Nat × Nat) :
    List Nat → FGrid × Bool
  | [] => (g, false)
  | p :: rest =>
    let rc := mk p
    let out := placeBlackPair g rc.1 rc.2 width height
    if out.2 then (out.1, true) else tryBreakPositions g width height mk rest

/-- Break one over-long run: shuffle all positions at least
`MIN_SLOT_LENGTH` from each end, first success wins. -/
def breakRun (g : FGrid) (width height : Nat) (rng : Rng) (run : Run)
    (mk : Nat → Nat × Nat) : FGrid × Bool × Rng :=
  if run.length ≤ MAX_SLOT_LENGTH then (g, false, rng)
  else
    let minPos := run.start + MIN_SLOT_LENGTH
    let maxPos := run.start + run.length - MIN_SLOT_LENGTH - 1
    if maxPos < minPos then (g, false, rng)
    else
      let positions := (List.range (maxPos + 1 - minPos)).map (fun k => minPos + k)
      let sh := fyShuffle positions rng
      let out := tryBreakPositions g width height mk sh.1
      (out.1, out.2, sh.2)

/-- Process a run list, breaking each over-long run, tracking progress. -/
def breakRuns (width height : Nat) (mkOf : Run → Nat → Nat × Nat)
    (runs : List Run) (st : FGrid × Bool × Rng) : FGrid × Bool × Rng :=
  runs.foldl (fun st0 run =>
    let out := breakRun st0.1 width height st0.2.2 run (mkOf run)
    (out.1, st0.2.1 || out.2.1, out.2.2)) st

/-- One pass of phase 1: horizontal runs from the pass-start grid, then
vertical runs from the updated grid. -/
def templatePass (width height : Nat) (g : FGrid) (rng : Rng) : FGrid × Bool × Rng :=
  let hRuns := findRuns g width height .row
  let st1 := breakRuns width height (fun run p => (run.line, p)) hRuns (g, false, rng)
  let vRuns := findRuns st1.1 width height .col
  breakRuns width height (fun run p => (p, run.line)) vRuns st1

/-- Up to 20 passes of run breaking, stopping early when a pass changes
nothing. -/
def templatePhase1 (width height : Nat) : Nat → FGrid → Rng → FGrid × Rng
  | 0, g, rng => (g, rng)
  | Nat.succ n, g, rng =>
    let out := templatePass width height g rng
    if out.2.1 then templatePhase1 width height n out.1 out.2.2 else (out.1, out.2.2)

def countBlack (g : FGrid) (width height : Nat) : Nat :=
  ((List.range height).map (fun r => ((List.range width).filter (fun c => !(g r c))).length)).sum

/-- Interior white cells in row-major order (scatter candidates). -/
def interiorWhites (g : FGrid) (width height : Nat) : List (Nat × Nat) :=
  (((List.range (height - 2)).map (fun k => k + 1)).map (fun r =>
    ((List.range (width - 2)).map (fun k => k + 1)).filterMap (fun c =>
      if g r c then some (r, c) else none))).flatten

/-- Step of the phase 2 scatter at one candidate cell. -/
def scatterStep (width height budget : Nat) (st : FGrid × Nat) (rc : Nat × Nat) :
    FGrid × Nat :=
  if budget ≤ st.2 then st
  else if !(st.1 rc.1 rc.2) then st
  else
    let sr := height - 1 - rc.1
    let sc := width - 1 - rc.2
    let isSame : Bool := decide (rc.1 = sr) && decide (rc.2 = sc)
    let out := placeBlackPair st.1 rc.1 rc.2 width height
    if out.2 then (out.1, st.2 + (if isSame then 1 else 2)) else (out.1, st.2)

/-- Phase 2 scatter: greedily add symmetric black pairs until the budget is
spent or candidates are exhausted. -/
def scatterFold (width height budget : Nat) (cands : List (Nat × Nat)) (g : FGrid) : FGrid :=
  (cands.foldl (scatterStep width height budget) (g, 0)).1

/-- Generate a fill-in grid template (phase 1 run breaking followed by
phase 2 scatter toward 18 percent black density); the advanced random
stream is returned for the caller. -/
def generateTemplate (width height : Nat) (rng : Rng) : FGrid × Rng :=
  let g0 := makeWhiteGrid width height
  let ph1 := templatePhase1 width height 20 g0 rng
  let totalCells := width * height
  let bc := countBlack ph1.1 width height
  let targetBlack := totalCells * 18 / 100
  let scatterBudget := targetBlack - bc
  if 0 < scatterBudget then
    let cands := interiorWhites ph1.1 width height
    let sh := fyShuffle cands ph1.2
    (scatterFold width height scatterBudget sh.1 ph1.1, sh.2)
  else (ph1.1, ph1.2)

/-! Slot extraction (`extractSlots`). -/

structure Crossing where
  indexInSlot : Nat
  otherSlotIdx : Nat
  indexInOtherSlot : Nat
deriving DecidableEq, Repr

structure Slot where
  row : Nat
  col : Nat
  direction : Direction
  length : Nat
  crossings : List Crossing
deriving DecidableEq, Repr

instance : Inhabited Slot := ⟨⟨0, 0, .across, 0, []⟩⟩

/-- Registration of one covered cell in the `cellMap` of `extractSlots`. -/
structure RegEntry where
  slotIdx : Nat
  pos : Nat
  dir : Direction
deriving DecidableEq, Repr

/-- The `cellMap` of `extractSlots`: a JS `Map` keyed by the cell, holding
the registrations of the slots covering it, in insertion order. -/
abbrev CellMap := List ((Nat × Nat) × List RegEntry)

def cmReg : CellMap → Nat × Nat → RegEntry → CellMap
  | [], k, e => [(k, [e])]
  | (k0, es) :: rest, k, e =>
      if k0 = k then (k0, es ++ [e]) :: rest else (k0, es) :: cmReg rest k e

/-- Extract the across slots row by row, registering each covered cell. -/
def extractAcross (g : FGrid) (width height : Nat) : List Slot × CellMap :=
  (List.range height).foldl (fun st r =>
    (lineRuns (fun c => g r c) width).foldl (fun (st2 : List Slot × CellMap) run =>
      if MIN_SLOT_LENGTH ≤ run.2 then
        let idx := st2.1.length
        let slots2 := st2.1 ++ [⟨r, run.1, .across, run.2, []⟩]
        let cm2 := (List.range run.2).foldl (fun cm i =>
          cmReg cm (r, run.1 + i) ⟨idx, i, .across⟩) st2.2
        (slots2, cm2)
      else st2) st) ([], [])

/-- Extract the down slots column by column, continuing the across state. -/
def extractDown (g : FGrid) (width height : Nat) (st0 : List Slot × CellMap) :
    List Slot × CellMap :=
  (List.range width).foldl (fun st c =>
    (lineRuns (fun r => g r c) height).foldl (fun (st2 : List Slot × CellMap) run =>
      if MIN_SLOT_LENGTH ≤ run.2 then
        let idx := st2.1.length
        let slots2 := st2.1 ++ [⟨run.1, c, .down, run.2, []⟩]
        let cm2 := (List.range run.2).foldl (fun cm i =>
          cmReg cm (run.1 + i, c) ⟨idx, i, .down⟩) st2.2
        (slots2, cm2)
      else st2) st) st0

/-- Append a crossing to the slot at index `i`. -/
def addCrossing (slots : List Slot) (i : Nat) (cr : Crossing) : List Slot :=
  match slots.get? i with
  | some s => slots.set i { s with crossings := s.crossings ++ [cr] }
  | none => slots

/-- Wire the crossings: every cell covered by exactly one across and one
down slot yields a mirrored pair of crossings. -/
def wireCrossings (slots : List Slot) (m : CellMap) : List Slot :=
  m.foldl (fun sl kv =>
    match kv.2 with
    | [a, b] =>
      if a.dir ≠ b.dir then
        let sl1 := addCrossing sl a.slotIdx ⟨a.pos, b.slotIdx, b.pos⟩
        addCrossing sl1 b.slotIdx ⟨b.pos, a.slotIdx, a.pos⟩
      else sl
    | _ => sl) slots

def extractSlots (g : FGrid) (width height : Nat) : List Slot :=
  let st1 := extractAcross g width height
  let st2 := extractDown g width height st1
  wireCrossings st2.1 st2.2

/-! Fill-in dictionary (`getWordsByLength`). -/

def MAX_WORD_LENGTH : Nat := 15
def MAX_PER_LENGTH : Nat := 2000

/-- Words of the list grouped by length, each bucket sorted by playability
descending and capped at `MAX_PER_LENGTH`; lengths outside
`[MIN_SLOT_LENGTH, MAX_WORD_LENGTH]` give an empty bucket.  The JS `Set`
built per bucket is the identity here because buckets are consumed by
membership and order only. -/
def getWordsByLength (allWords : List WordEntry) (play : Play) : Nat → List Wd := fun n =>
  let bucket := (allWords.map (fun e => e.word)).filter (fun w =>
    decide (MIN_SLOT_LENGTH ≤ w.length) && decide (w.length ≤ MAX_WORD_LENGTH) &&
    decide (w.length = n))
  (sortByDesc play bucket).take MAX_PER_LENGTH

/-! CSP solver (`solve` with forward checking and MRV). -/

structure SolverState where
  assignments : List (Option Wd)
  domains : List (List Wd)
deriving DecidableEq, Repr

/-- Removal record of one forward-check prune. -/
structure Pruned where
  otherSlotIdx : Nat
  removed : List Wd
deriving DecidableEq, Repr

/-- Forward-check step at one crossing: for an unassigned neighbour, remove
from its domain all words whose crossing letter disagrees with the word
just placed; record the removal when it is non-trivial. -/
def fcStep (word : Wd) (acc : List Pruned × SolverState) (crossing : Crossing) :
    List Pruned × SolverState :=
  if (acc.2.assignments.getD crossing.otherSlotIdx none).isSome then acc
  else
    let requiredLetter := jsGet word crossing.indexInSlot
    let pos := crossing.indexInOtherSlot
    let domain := acc.2.domains.getD crossing.otherSlotIdx []
    let removed := domain.filter (fun w => decide (jsGet w pos ≠ requiredLetter))
    let newDom := domain.filter (fun w => decide (jsGet w pos = requiredLetter))
    let st2 : SolverState :=
      { acc.2 with domains := acc.2.domains.set crossing.otherSlotIdx newDom }
    if 0 < removed.length then (acc.1 ++ [⟨crossing.otherSlotIdx, removed⟩], st2)
    else (acc.1, st2)

/-- Forward check over every crossing of the slot just assigned. -/
def forwardCheck (slotIdx : Nat) (word : Wd) (slots : List Slot) (st : SolverState) :
    List Pruned × SolverState :=
  ((slots.getD slotIdx default).crossings).foldl (fcStep word) ([], st)

/-- Restore the removals of a forward check. -/
def restoreDomains (pruned : List Pruned) (st : SolverState) : SolverState :=
  pruned.foldl (fun s p =>
    let dom := p.removed.foldl setAdd (s.domains.getD p.otherSlotIdx [])
    { s with domains := s.domains.set p.otherSlotIdx dom }) st

/-- MRV slot selection: unassigned slot with the smallest domain, ties
broken by most crossings; `none` when all slots are assigned. -/
def selectSlot (st : SolverState) (slots : List Slot) : Option Nat :=
  (((List.range st.assignments.length).foldl (fun (best : Option (Nat × Nat × Nat)) i =>
    if (st.assignments.getD i none).isSome then best
    else
      let size := (st.domains.getD i []).length
      let cross := (slots.getD i default).crossings.length
      match best with
      | none => some (i, size, cross)
      | some b =>
        if size < b.2.1 ∨ (size = b.2.1 ∧ b.2.2 < cross) then some (i, size, cross)
        else some b) none)).map (fun b => b.1)

/-- Domain words not used elsewhere and consistent with every assigned
crossing neighbour; the first (up to) 30 are shuffled for variety. -/
def getOrderedCandidates (slotIdx : Nat) (slots : List Slot) (st : SolverState)
    (usedWords : List Wd) (rng : Rng) : List Wd × Rng :=
  let candidates := (st.domains.getD slotIdx []).filter (fun w =>
    decide (w ∉ usedWords) &&
    (slots.getD slotIdx default).crossings.all (fun crossing =>
      match st.assignments.getD crossing.otherSlotIdx none with
      | none => true
      | some other =>
          decide (jsGet w crossing.indexInSlot = jsGet other crossing.indexInOtherSlot)))
  match min candidates.length 30 with
  | 0 => (candidates, rng)
  | Nat.succ n => fyAux candidates rng n

/-- Best partial solution snapshot. -/
structure BestPartial where
  assignments : List (Option Wd)
  filledCount : Nat
deriving DecidableEq, Repr

/-- Result bundle of the recursive solver: found flag, state, used-word
set, backtrack count, best partial, random stream. -/
structure SolveOut where
  found : Bool
  st : SolverState
  used : List Wd
  bt : Nat
  best : BestPartial
  rng : Rng

mutual

/-- Recursive backtracking solver; `fuel` bounds the recursion depth (the
source recursion assigns one slot per level, so `slots.length + 1` always
suffices). -/
def solveF (slots : List Slot) (maxBacktracks : Nat) :
    Nat → SolverState → List Wd → Nat → BestPartial → Nat → Rng → SolveOut
  | 0, st, used, bt, best, _depth, rng => ⟨false, st, used, bt, best, rng⟩
  | Nat.succ fuel, st, used, bt, best, depth, rng =>
    let best1 := if best.filledCount < depth then ⟨st.assignments, depth⟩ else best
    match selectSlot st slots with
    | none => ⟨true, st, used, bt, best1, rng⟩
    | some idx =>
      let cands := getOrderedCandidates idx slots st used rng
      solveLoopF slots maxBacktracks fuel idx cands.1 st used bt best1 depth cands.2

/-- Candidate loop of the solver at one slot. -/
def solveLoopF (slots : List Slot) (maxBacktracks : Nat) (fuel : Nat) (idx : Nat) :
    List Wd → SolverState → List Wd → Nat → BestPartial → Nat → Rng → SolveOut
  | [], st, used, bt, best, _depth, rng => ⟨false, st, used, bt, best, rng⟩
  | word :: rest, st, used, bt, best, depth, rng =>
    let st1 : SolverState := { st with assignments := st.assignments.set idx (some word) }
    let used1 := setAdd used word
    let fc := forwardCheck idx word slots st1
    let wipeout := fc.1.any (fun p => (fc.2.domains.getD p.otherSlotIdx []).length = 0)
    if wipeout then
      let st3 : SolverState := { fc.2 with assignments := fc.2.assignments.set idx none }
      let used2 := setRemove used1 word
      let st4 := restoreDomains fc.1 st3
      let bt1 := bt + 1
      if maxBacktracks ≤ bt1 then ⟨false, st4, used2, bt1, best, rng⟩
      else solveLoopF slots maxBacktracks fuel idx rest st4 used2 bt1 best depth rng
    else
      let out := solveF slots maxBacktracks fuel fc.2 used1 bt best (depth + 1) rng
      if out.found then out
      else
        let st6 : SolverState := { out.st with assignments := out.st.assignments.set idx none }
        let used6 := setRemove out.used word
        let st7 := restoreDomains fc.1 st6
        let bt6 := out.bt + 1
        if maxBacktracks ≤ bt6 then ⟨false, st7, used6, bt6, out.best, out.rng⟩
        else solveLoopF slots maxBacktracks fuel idx rest st7 used6 bt6 out.best depth out.rng

end

/-- The solver as invoked by the driver: recursion depth is bounded by the
slot count. -/
def solve (slots : List Slot) (st : SolverState) (used : List Wd)
    (maxBacktracks : Nat) (best : BestPartial) (rng : Rng) : SolveOut :=
  solveF slots maxBacktracks (slots.length + 1) st used 0 best 0 rng

/-! Greedy patch (`greedyPatch`). -/

/-- Constraint pattern of a slot from the already-filled crossing words. -/
def buildPattern (slot : Slot) (result : List (Option Wd)) : List (Option Char) :=
  slot.crossings.foldl (fun pat crossing =>
    match result.getD crossing.otherSlotIdx none with
    | none => pat
    | some other => pat.set crossing.indexInSlot (some (jsGet other crossing.indexInOtherSlot)))
    (List.replicate slot.length none)

def wordMatchesPattern (pattern : List (Option Char)) (len : Nat) (word : Wd) : Bool :=
  (List.range len).all fun i =>
    match pattern.getD i none with
    | none => true
    | some c => decide (jsGet word i = c)

/-- First unused dictionary word matching the pattern. -/
def findGreedyWord (words : List Wd) (used : List Wd) (pattern : List (Option Char))
    (len : Nat) : Option Wd :=
  words.find? (fun word => decide (word ∉ used) && wordMatchesPattern pattern len word)

/-- Step of one greedy pass at one unfilled slot. -/
def greedyStep (slots : List Slot) (wordsByLen : Nat → List Wd)
    (acc : List (Option Wd) × List Wd × Bool) (p : Nat × Nat) :
    List (Option Wd) × List Wd × Bool :=
  if (acc.1.getD p.1 none).isSome then acc
  else
    let slot := slots.getD p.1 default
    let words := wordsByLen slot.length
    let pattern := buildPattern slot acc.1
    match findGreedyWord words acc.2.1 pattern slot.length with
    | some word => (acc.1.set p.1 (some word), setAdd acc.2.1 word, true)
    | none => acc

/-- One pass of the greedy patch: unfilled slots ordered by number of fixed
crossing letters (descending), each filled with the first matching unused
word, reporting whether any slot was filled. -/
def greedyPass (slots : List Slot) (wordsByLen : Nat → List Wd)
    (result0 : List (Option Wd)) (used0 : List Wd) : List (Option Wd) × List Wd × Bool :=
  let unfilled := ((List.range result0.length).filter
      (fun i => (result0.getD i none).isNone)).map (fun i =>
    (i, ((slots.getD i default).crossings.filter
        (fun c => (result0.getD c.otherSlotIdx none).isSome)).length))
  let ordered := sortByDesc (fun p => p.2) unfilled
  ordered.foldl (greedyStep slots wordsByLen) (result0, used0, false)

/-- Repeat greedy passes until one makes no progress; every productive
pass fills at least one slot, so `assignments.length + 1` passes always
reach the fixed point. -/
def greedyLoop (slots : List Slot) (wordsByLen : Nat → List Wd) :
    Nat → List (Option Wd) → List Wd → List (Option Wd)
  | 0, result, _ => result
  | Nat.succ fuel, result, used =>
    let out := greedyPass slots wordsByLen result used
    if out.2.2 then greedyLoop slots wordsByLen fuel out.1 out.2.1 else out.1

def greedyPatch (slots : List Slot) (assignments : List (Option Wd))
    (wordsByLen : Nat → List Wd) : List (Option Wd) :=
  let used := assignments.foldl (fun u a => match a with | some w => setAdd u w | none => u) []
  greedyLoop slots wordsByLen (assignments.length + 1) assignments used

/-! Assembly: clue numbering in reading order, shared by `finalize`
(classic) and `assembleResult` (fill-in), which duplicate the same scan in
the source. -/

/-- Entry of the `starts` map: at most one across and one down word share a
start cell. -/
structure StartsEntry (α : Type) where
  across : Option α
  down : Option α
deriving Repr

/-- Starts map update for one word, keyed by its start cell. -/
def startsUpsert (key : α → Int × Int) (dirOf : α → Direction) (w : α) :
    List ((Int × Int) × StartsEntry α) → List ((Int × Int) × StartsEntry α)
  | [] =>
      [(key w, match dirOf w with
        | .across => ⟨some w, none⟩
        | .down => ⟨none, some w⟩)]
  | (k, e) :: rest =>
      if k = key w then
        (k, match dirOf w with
          | .across => { e with across := some w }
          | .down => { e with down := some w }) :: rest
      else (k, e) :: startsUpsert key dirOf w rest

def buildStarts (key : α → Int × Int) (dirOf : α → Direction) (ws : List α) :
    List ((Int × Int) × StartsEntry α) :=
  ws.foldl (fun m w => startsUpsert key dirOf w m) []

def findStart (m : List ((Int × Int) × StartsEntry α)) (k : Int × Int) :
    Option (StartsEntry α) :=
  (m.find? (fun kv => decide (kv.1 = k))).map (fun kv => kv.2)

/-- Numbering step at one scanned cell: pick up the across and down words
starting there, both with the shared fresh number. -/
def numberStep (mk : α → Int × Int → Nat → PlacedWord)
    (m : List ((Int × Int) × StartsEntry α)) (st : List PlacedWord × Nat)
    (rc : Nat × Nat) : List PlacedWord × Nat :=
  match findStart m ((rc.1 : Int), (rc.2 : Int)) with
  | none => st
  | some e =>
    let num := st.2
    let l1 := match e.across with
      | some w => st.1 ++ [mk w ((rc.1 : Int), (rc.2 : Int)) num]
      | none => st.1
    let l2 := match e.down with
      | some w => l1 ++ [mk w ((rc.1 : Int), (rc.2 : Int)) num]
      | none => l1
    (l2, num + 1)

/-- Row-major scan over `[0,height) × [0,width)` assigning clue numbers:
one number per hit cell, shared by the across and down entries of the
cell. -/
def scanNumbers (mk : α → Int × Int → Nat → PlacedWord)
    (m : List ((Int × Int) × StartsEntry α)) (width height : Nat) : List PlacedWord :=
  ((rmCells width height).foldl (numberStep mk m) ([], 1)).1

/-- JS `Math.round(total / count)` on non-negative operands. -/
def jsRound (total count : Nat) : Nat := (2 * total + count) / (2 * count)

/-! Fill-in assembly (`assembleResult`). -/

/-- Working cell of the assembly grid: black (`null`), empty white (`""`)
or a written letter. -/
inductive ACell where
  | black
  | empty
  | letter (c : Char)
deriving DecidableEq, Repr

def asetCell (g : Nat → Nat → ACell) (r c : Nat) (v : ACell) : Nat → Nat → ACell :=
  fun x y => if x = r ∧ y = c then v else g x y

/-- Placed record of `assembleResult` before numbering. -/
structure PlacedSlot where
  word : Wd
  row : Nat
  col : Nat
  direction : Direction
deriving DecidableEq, Repr

/-- Write one letter of one slot word onto the assembly grid. -/
def writeCellStep (s : Slot) (word : Wd) (g : Nat → Nat → ACell) (j : Nat) :
    Nat → Nat → ACell :=
  let r := if s.direction = .across then s.row else s.row + j
  let c := if s.direction = .across then s.col + j else s.col
  asetCell g r c (.letter (jsGet word j))

/-- Write one assigned slot onto the assembly grid and record it. -/
def writeSlotStep (slots : List Slot) (assignments : List (Option Wd))
    (st : (Nat → Nat → ACell) × List PlacedSlot) (i : Nat) :
    (Nat → Nat → ACell) × List PlacedSlot :=
  match assignments.getD i none with
  | none => st
  | some word =>
    let s := slots.getD i default
    let g2 := (List.range s.length).foldl (writeCellStep s word) st.1
    (g2, st.2 ++ [⟨word, s.row, s.col, s.direction⟩])

/-- Letter grid and placed list from writing every assigned slot word onto
the template. -/
def assembleWrite (template : FGrid) (slots : List Slot)
    (assignments : List (Option Wd)) : (Nat → Nat → ACell) × List PlacedSlot :=
  let g0 : Nat → Nat → ACell := fun r c => if template r c then .empty else .black
  (List.range slots.length).foldl (writeSlotStep slots assignments) (g0, [])

/-- Fill-in result assembly: write assigned words, blacken leftover empty
white cells, number clues in reading order, average the playability. -/
def assembleResult (template : FGrid) (width height : Nat) (slots : List Slot)
    (assignments : List (Option Wd)) (play : Play) : CrosswordData :=
  let wr := assembleWrite template slots assignments
  let grid := (List.range height).map (fun r => (List.range width).map (fun c =>
    match wr.1 r c with
    | .letter ch => some ch
    | _ => none))
  let starts := buildStarts (fun (p : PlacedSlot) => ((p.row : Int), (p.col : Int)))
    (fun p => p.direction) wr.2
  let words := scanNumbers (fun p cell num =>
    ⟨p.word, [], cell.1, cell.2, p.direction, num⟩) starts width height
  let totalPlay := (words.map (fun w => play w.word)).sum
  let avgPlayability := if 0 < words.length then jsRound totalPlay words.length else 0
  ⟨grid, words, width, height, avgPlayability, some ("fillin".toList)⟩

/-! Fill-in driver (`generateFillinSmart`). -/

def FILLIN_GRID_SIZE : Nat := 13
def FILLIN_NUM_ATTEMPTS : Nat := 8
def FILLIN_MAX_BACKTRACKS : Nat := 20000
def FILLIN_RESTARTS : Nat := 3

/-- Driver accumulator: best result so far, its score, random stream. -/
structure DriverSt where
  best : Option CrosswordData
  bestScore : JQ
  rng : Rng

/-- Take a candidate result if its score beats the best so far
(`bestScore` starts at negative infinity: an absent best always loses). -/
def driverTake (d : DriverSt) (result : CrosswordData) (score : JQ) (rng : Rng) : DriverSt :=
  match d.best with
  | none => ⟨some result, score, rng⟩
  | some _ => if d.bestScore < score then ⟨some result, score, rng⟩ else { d with rng := rng }

/-- One solver restart on a fixed template; the returned flag reports a
complete fill (which stops further restarts). -/
def fillinOneRestart (wordsByLen : Nat → List Wd) (play : Play) (template : FGrid)
    (slots : List Slot) (d : DriverSt) : DriverSt × Bool :=
  let state : SolverState :=
    ⟨List.replicate slots.length none, slots.map (fun s => (wordsByLen s.length).foldl setAdd [])⟩
  let out := solve slots state [] FILLIN_MAX_BACKTRACKS ⟨List.replicate slots.length none, 0⟩ d.rng
  let baseAssignments := if out.found then out.st.assignments else out.best.assignments
  let baseFilledCount := if out.found then slots.length else out.best.filledCount
  if 0 < baseFilledCount then
    let patched := if out.found then baseAssignments
      else greedyPatch slots baseAssignments wordsByLen
    let patchedFilledCount := (patched.filter (fun a => a.isSome)).length
    let allFilled : Bool := decide (patchedFilledCount = slots.length)
    let result := assembleResult template FILLIN_GRID_SIZE FILLIN_GRID_SIZE slots patched play
    let completeness : JQ := (patchedFilledCount : JQ) / (slots.length : JQ)
    let lengthsSize := ((result.words.map (fun w => w.word.length)).foldl
      (fun (acc : List Nat) n => if n ∈ acc then acc else acc ++ [n]) []).length
    let score : JQ := (if allFilled then 5000 else 0) + completeness * 2000 +
      (patchedFilledCount : JQ) * 100 + (result.avgPlayability : JQ) * (1 / 10) +
      (lengthsSize : JQ) * 50
    (driverTake d result score out.rng, allFilled)
  else ({ d with rng := out.rng }, false)

/-- One driver attempt: fresh template, slot extraction, coverage check,
up to `FILLIN_RESTARTS` solver restarts with early stop on a full fill. -/
def fillinOneAttempt (wordsByLen : Nat → List Wd) (play : Play) (d : DriverSt) : DriverSt :=
  let tpl := generateTemplate FILLIN_GRID_SIZE FILLIN_GRID_SIZE d.rng
  let slots := extractSlots tpl.1 FILLIN_GRID_SIZE FILLIN_GRID_SIZE
  let d1 : DriverSt := { d with rng := tpl.2 }
  if slots.length = 0 then d1
  else if !(slots.all (fun s => 0 < (wordsByLen s.length).length)) then d1
  else
    ((List.range FILLIN_RESTARTS).foldl (fun (st : DriverSt × Bool) _ =>
      if st.2 then st
      else fillinOneRestart wordsByLen play tpl.1 slots st.1) (d1, false)).1

/-- Fill-in generation: multiple template attempts, best scored result,
early exit on a complete fill (score at least 5000). -/
def generateFillinSmart (allWords : List WordEntry) (play : Play) (rng : Rng) : CrosswordData :=
  let wordsByLen := getWordsByLength allWords play
  let final := (List.range FILLIN_NUM_ATTEMPTS).foldl (fun (st : DriverSt × Bool) _ =>
    if st.2 then st
    else
      let d2 := fillinOneAttempt wordsByLen play st.1
      (d2, decide ((5000 : JQ) ≤ d2.bestScore) && d2.best.isSome)) (⟨none, 0, rng⟩, false)
  match final.1.best with
  | some r => r
  | none => ⟨[[]], [], 0, 0, 0, some ("fillin".toList)⟩

/-! Classic placement engine (`crosswordGenerator.ts`).  The working grid
is a total function on integer coordinates: JS arrays accept negative and
oversized column indices as plain properties, and all reads the algorithms
perform are either bounds-guarded or on previously written cells. -/

abbrev CGrid := Int → Int → Option Char

def makeGrid (_size : Nat) : CGrid := fun _ _ => none

/-- Grids are persistent values here, so `cloneGrid` is the identity. -/
def cloneGrid (g : CGrid) : CGrid := g

def csetCell (g : CGrid) (r c : Int) (v : Option Char) : CGrid :=
  fun x y => if x = r ∧ y = c then v else g x y

/-- Write each letter of the word onto the grid (no validation, as in the
source). -/
def placeWord (g : CGrid) (word : Wd) (row col : Int) (direction : Direction) : CGrid :=
  (List.range word.length).foldl (fun g2 (i : Nat) =>
    if direction = .across then csetCell g2 row (col + (i : Int)) (some (jsGet word i))
    else csetCell g2 (row + (i : Int)) col (some (jsGet word i))) g

/-- Word of the classic working grid, before clue numbering. -/
structure GridWord where
  word : Wd
  definition : Wd
  row : Int
  col : Int
  direction : Direction
deriving DecidableEq, Repr

structure BBox where
  minRow : Nat
  maxRow : Nat
  minCol : Nat
  maxCol : Nat
  width : Nat
  height : Nat
deriving DecidableEq, Repr

/-- Step of the bounding-box scan at one cell. -/
def bboxStep (g : CGrid) (a : Nat × Nat × Nat × Nat) (rc : Nat × Nat) :
    Nat × Nat × Nat × Nat :=
  if (g (rc.1 : Int) (rc.2 : Int)).isSome then
    (min a.1 rc.1, max a.2.1 rc.1, min a.2.2.1 rc.2, max a.2.2.2 rc.2)
  else a

/-- Minimal rectangle containing every non-empty cell of the working area,
or the degenerate zero box. -/
def getBoundingBox (g : CGrid) (size : Nat) : BBox :=
  let acc := (rmCells size size).foldl (bboxStep g) (size, 0, size, 0)
  if acc.2.1 < acc.1 then ⟨0, 0, 0, 0, 0, 0⟩
  else ⟨acc.1, acc.2.1, acc.2.2.1, acc.2.2.2,
    acc.2.2.2 - acc.2.2.1 + 1, acc.2.1 - acc.1 + 1⟩

/-- Filled-cell fraction of a bounding box; 0 for a zero-area box. -/
def calculateDensity (g : CGrid) (b : BBox) : JQ :=
  if b.width = 0 ∨ b.height = 0 then 0
  else
    let filled := ((List.range b.height).map (fun dr =>
      ((List.range b.width).filter (fun dc =>
        (g ((b.minRow + dr : Nat) : Int) ((b.minCol + dc : Nat) : Int)).isSome)).length)).sum
    (filled : JQ) / ((b.width * b.height : Nat) : JQ)

def countIntersections (g : CGrid) (word : Wd) (row col : Int) (direction : Direction) : Nat :=
  ((List.range word.length).filter (fun (i : Nat) =>
    let r := if direction = .across then row else row + (i : Int)
    let c := if direction = .across then col + (i : Int) else col
    decide (g r c = some (jsGet word i)))).length

/-- Walk backwards to the start of the perpendicular run; the walk strictly
decreases one coordinate inside `[0, gridSize)`, so `gridSize` steps always
reach the start. -/
def perpBackAux (g : CGrid) (gridSize : Nat) (dr dc : Int) :
    Nat → Int × Int → Int × Int
  | 0, p => p
  | Nat.succ fuel, p =>
    let prevR := p.1 - dr
    let prevC := p.2 - dc
    if prevR < 0 ∨ prevC < 0 ∨ (gridSize : Int) ≤ prevR ∨ (gridSize : Int) ≤ prevC then p
    else if g prevR prevC = none then p
    else perpBackAux g gridSize dr dc fuel (prevR, prevC)

/-- Walk forwards collecting the run, substituting `letter` at the probe
cell; the walk strictly increases inside `[0, gridSize)`. -/
def perpForwardAux (g : CGrid) (gridSize : Nat) (r c : Int) (letter : Char) (dr dc : Int) :
    Nat → Int × Int → Wd → Wd
  | 0, _, acc => acc
  | Nat.succ fuel, p, acc =>
    if p.1 < 0 ∨ p.2 < 0 ∨ (gridSize : Int) ≤ p.1 ∨ (gridSize : Int) ≤ p.2 then acc
    else
      match (if p.1 = r ∧ p.2 = c then some letter else g p.1 p.2) with
      | none => acc
      | some ch =>
          perpForwardAux g gridSize r c letter dr dc fuel (p.1 + dr, p.2 + dc) (acc ++ [ch])

/-- Full perpendicular word formed at `(r, c)` after placing `letter`
there; `none` when it is just the single letter. -/
def getPerpendicularWord (g : CGrid) (gridSize : Nat) (r c : Int) (letter : Char)
    (direction : Direction) : Option Wd :=
  let dr : Int := if direction = .across then 1 else 0
  let dc : Int := if direction = .across then 0 else 1
  let start := perpBackAux g gridSize dr dc gridSize (r, c)
  let w := perpForwardAux g gridSize r c letter dr dc (gridSize + 1) start []
  if w.length ≤ 1 then none else some w

def gridIsEmpty (g : CGrid) (gridSize : Nat) : Bool :=
  (List.range gridSize).all fun (r : Nat) =>
    (List.range gridSize).all fun (c : Nat) => (g (r : Int) (c : Int)).isNone

/-- Cell-loop step of `isValidPlacement`: intersection match or
perpendicular-word check, threading (still valid, has intersection). -/
def validStep (g : CGrid) (gridSize : Nat) (word : Wd) (row col : Int)
    (direction : Direction) (dict : List Wd) (st : Bool × Bool) (i : Nat) : Bool × Bool :=
  if !st.1 then st
  else
    let r := if direction = .across then row else row + (i : Int)
    let c := if direction = .across then col + (i : Int) else col
    match g r c with
    | some existing =>
      if decide (existing = jsGet word i) then (st.1, true) else (false, st.2)
    | none =>
      match getPerpendicularWord g gridSize r c (jsGet word i) direction with
      | none => st
      | some pw => (st.1 && decide (pw ∈ dict), st.2)

/-- Validate a word placement: bounds, empty before/after cells, cell
consistency, dictionary legality of every perpendicular word formed, and
at least one intersection unless the grid is empty. -/
def isValidPlacement (g : CGrid) (gridSize : Nat) (word : Wd) (row col : Int)
    (direction : Direction) (dict : List Wd) : Bool :=
  let len := word.length
  let boundsOk : Bool :=
    if direction = .across then
      decide (0 ≤ row) && decide (row < (gridSize : Int)) &&
      decide (0 ≤ col) && decide (col + len ≤ (gridSize : Int))
    else
      decide (0 ≤ row) && decide (row + len ≤ (gridSize : Int)) &&
      decide (0 ≤ col) && decide (col < (gridSize : Int))
  if !boundsOk then false
  else
    let beforeBad : Bool :=
      if direction = .across then decide (0 < col) && (g row (col - 1)).isSome
      else decide (0 < row) && (g (row - 1) col).isSome
    if beforeBad then false
    else
      let afterBad : Bool :=
        if direction = .across then decide (col + len < (gridSize : Int)) && (g row (col + len)).isSome
        else decide (row + len < (gridSize : Int)) && (g (row + len) col).isSome
      if afterBad then false
      else
        let step := (List.range len).foldl
          (validStep g gridSize word row col direction dict) (true, false)
        step.1 && (step.2 || gridIsEmpty g gridSize)

structure TrimOut where
  trimmedGrid : List (List (Option Char))
  offsetRow : Nat
  offsetCol : Nat
deriving Repr

/-- Crop to the bounding box, materialising the grid rows; the degenerate
empty grid crops to `[[]]` exactly as in the source. -/
def trimGrid (g : CGrid) (size : Nat) : TrimOut :=
  let bounds := getBoundingBox g size
  if bounds.width = 0 then ⟨[[]], 0, 0⟩
  else
    let rows := (List.range bounds.height).map (fun dr =>
      (List.range bounds.width).map (fun dc =>
        g ((bounds.minRow + dr : Nat) : Int) ((bounds.minCol + dc : Nat) : Int)))
    ⟨rows, bounds.minRow, bounds.minCol⟩

/-- Clue numbering of the classic engine: the numbered words keep their own
coordinates (equal to the scanned cell by construction of the map). -/
def assignClueNumbers (words : List GridWord) (width height : Nat) : List PlacedWord :=
  let starts := buildStarts (fun (w : GridWord) => (w.row, w.col)) (fun w => w.direction) words
  scanNumbers (fun w _cell num => ⟨w.word, w.definition, w.row, w.col, w.direction, num⟩)
    starts width height

/-- Classic assembly: trim, shift coordinates, number clues, average
playability. -/
def finalize (g : CGrid) (gridSize : Nat) (placed : List GridWord) (play : Play) :
    CrosswordData :=
  let t := trimGrid g gridSize
  let height := t.trimmedGrid.length
  let width := (t.trimmedGrid.headD []).length
  let adjusted := placed.map (fun w =>
    { w with row := w.row - t.offsetRow, col := w.col - t.offsetCol })
  let finalWords := assignClueNumbers adjusted width height
  let totalPlay := (finalWords.map (fun w => play w.word)).sum
  let avgPlayability := if 0 < finalWords.length then jsRound totalPlay finalWords.length else 0
  ⟨t.trimmedGrid, finalWords, width, height, avgPlayability, none⟩

structure Placement where
  row : Int
  col : Int
  direction : Direction
  intersections : Nat
  score : JQ
deriving DecidableEq, Repr

/-- Enumerate all validated intersecting placements of a candidate word
against the placed words, with the shared base score. -/
def findPlacements (log : LogFn) (play : Play) (g : CGrid) (gridSize : Nat)
    (placed : List GridWord) (word : Wd) (dict : List Wd) : List Placement :=
  let center : JQ := (gridSize : JQ) / 2
  placed.foldl (fun cands existing =>
    let newDir := match existing.direction with | .across => Direction.down | .down => .across
    (List.range existing.word.length).foldl (fun cands2 (ei : Nat) =>
      (List.range word.length).foldl (fun cands3 (wi : Nat) =>
        if jsGet existing.word ei ≠ jsGet word wi then cands3
        else
          let row := if existing.direction = .across then existing.row - (wi : Int)
            else existing.row + (ei : Int)
          let col := if existing.direction = .across then existing.col + (ei : Int)
            else existing.col - (wi : Int)
          if isValidPlacement g gridSize word row col newDir dict then
            let inter := countIntersections g word row col newDir
            let midRow : JQ := (row : JQ) + (if newDir = .down then (word.length : JQ) / 2 else 0)
            let midCol : JQ := (col : JQ) + (if newDir = .across then (word.length : JQ) / 2 else 0)
            let dist := JQ.abs (midRow - center) + JQ.abs (midCol - center)
            let score := (inter : JQ) * 10 - dist + log ((play word : JQ) + 1) * 2
            cands3 ++ [⟨row, col, newDir, inter, score⟩]
          else cands3) cands2) cands) []

/-! Placement strategies.  Each strategy threads `(grid, placed)` through
the shared pass/retry skeleton of the source, differing in scoring. -/

/-- Working state of a strategy: the grid and the placed words. -/
abbrev PlaceSt := CGrid × List GridWord

/-- Commit the chosen placement: write the word and record it. -/
def commitPlacement (st : PlaceSt) (entry : WordEntry) (best : Placement) : PlaceSt :=
  (placeWord st.1 entry.word best.row best.col best.direction,
   st.2 ++ [⟨entry.word, entry.definition, best.row, best.col, best.direction⟩])

/-- One pass over a list of entries: place what fits, queue the rest. -/
def processPass (tryPlace : PlaceSt → WordEntry → PlaceSt × Bool)
    (entries : List WordEntry) (st : PlaceSt) : PlaceSt × List WordEntry :=
  entries.foldl (fun acc e =>
    let out := tryPlace acc.1 e
    (out.1, if out.2 then acc.2 else acc.2 ++ [e])) (st, [])

/-- Retry passes over the unplaced queue, stopping early when a pass
places everything (`if (stillUnplaced.length === 0) break`). -/
def retryPasses (tryPlace : PlaceSt → WordEntry → PlaceSt × Bool) :
    Nat → PlaceSt → List WordEntry → PlaceSt × List WordEntry
  | 0, st, unplaced => (st, unplaced)
  | Nat.succ n, st, unplaced =>
    let out := processPass tryPlace unplaced st
    if out.2.length = 0 then out
    else retryPasses tryPlace n out.1 out.2

def GRID_ORIGINAL : Nat := 80
def GRID_COMPACT : Nat := 50
def GRID_DENSE : Nat := 40
def GRID_FITTED : Nat := 30
def GRID_SMART : Nat := 30

/-- Seed position of the first word: centered horizontally, computed with
floor division as `Math.floor` (toward negative infinity for oversized
words). -/
def seedState (gridSize : Nat) (first : WordEntry) : PlaceSt :=
  let centerRow : Int := Int.fdiv (gridSize : Int) 2
  let centerCol : Int := Int.fdiv ((gridSize : Int) - first.word.length) 2
  (placeWord (makeGrid gridSize) first.word centerRow centerCol .across,
   [⟨first.word, first.definition, centerRow, centerCol, .across⟩])

/-- Original strategy step: best base-scored candidate. -/
def originalTry (log : LogFn) (play : Play) (dict : List Wd) (st : PlaceSt)
    (entry : WordEntry) : PlaceSt × Bool :=
  let cands := findPlacements log play st.1 GRID_ORIGINAL st.2 entry.word dict
  match sortByDesc (fun c : Placement => c.score) cands with
  | [] => (st, false)
  | best :: _ => (commitPlacement st entry best, true)

/-- Original strategy (`generateOriginal`); `none` models the TypeError
thrown on an empty word list (`sorted[0]` is `undefined`). -/
def generateOriginal (allWords : List WordEntry) (play : Play) (log : LogFn)
    (words : List WordEntry) : Option CrosswordData :=
  let dict := allWords.map (fun e => e.word)
  match sortByDesc (fun e : WordEntry => e.word.length) words with
  | [] => none
  | first :: rest =>
    let st0 := seedState GRID_ORIGINAL first
    let mainOut := processPass (originalTry log play dict) rest st0
    let final := retryPasses (originalTry log play dict) 3 mainOut.1 mainOut.2
    some (finalize final.1.1 GRID_ORIGINAL final.1.2 play)

/-- Compact strategy step: candidates re-scored for density and low
bounding-box expansion. -/
def compactTry (log : LogFn) (play : Play) (dict : List Wd) (st : PlaceSt)
    (entry : WordEntry) : PlaceSt × Bool :=
  let cands := findPlacements log play st.1 GRID_COMPACT st.2 entry.word dict
  if cands.length = 0 then (st, false)
  else
    let currentBounds := getBoundingBox st.1 GRID_COMPACT
    let area0 := currentBounds.width * currentBounds.height
    let currentArea := if area0 = 0 then 1 else area0
    let rescored := cands.map (fun c =>
      let testGrid := placeWord (cloneGrid st.1) entry.word c.row c.col c.direction
      let newBounds := getBoundingBox testGrid GRID_COMPACT
      let newArea := newBounds.width * newBounds.height
      let expansion : JQ := (newArea : JQ) - (currentArea : JQ)
      let density := calculateDensity testGrid newBounds
      { c with score := (c.intersections : JQ) * 5 + density * 20 - expansion * 3 })
    match sortByDesc (fun c : Placement => c.score) rescored with
    | [] => (st, false)
    | best :: _ => (commitPlacement st entry best, true)

/-- Compact strategy (`generateCompact`). -/
def generateCompact (allWords : List WordEntry) (play : Play) (log : LogFn)
    (words : List WordEntry) : Option CrosswordData :=
  let dict := allWords.map (fun e => e.word)
  match sortByDesc (fun e : WordEntry => e.word.length) words with
  | [] => none
  | first :: rest =>
    let st0 := seedState GRID_COMPACT first
    let mainOut := processPass (compactTry log play dict) rest st0
    let final := retryPasses (compactTry log play dict) 2 mainOut.1 mainOut.2
    some (finalize final.1.1 GRID_COMPACT final.1.2 play)

/-- Greedy count of letters shared between two words (multiset overlap). -/
def sharedLetterScore (a b : Wd) : Nat :=
  ((a.foldl (fun (st : List Char × Nat) ch =>
    if ch ∈ st.1 then (st.1.erase ch, st.2 + 1) else st) (b, 0))).2

/-- Seed selection of the dense strategy: the `seedCount` words with the
highest total pairwise shared-letter score (index-wise, as the source
compares array positions). -/
def selectSeedWords (words : List WordEntry) (seedCount : Nat) : List WordEntry :=
  let n := words.length
  let scores := (List.range n).map (fun i =>
    let w := words.getD i ⟨[], []⟩
    (w, ((List.range n).map (fun j =>
      if i = j then 0 else sharedLetterScore w.word (words.getD j ⟨[], []⟩).word)).sum))
  ((sortByDesc (fun p => p.2) scores).take seedCount).map (fun p => p.1)

/-- Dense seed step: intersections against expansion, no queueing. -/
def denseSeedTry (log : LogFn) (play : Play) (dict : List Wd) (st : PlaceSt)
    (entry : WordEntry) : PlaceSt :=
  let cands := findPlacements log play st.1 GRID_DENSE st.2 entry.word dict
  if cands.length = 0 then st
  else
    let currentBounds := getBoundingBox st.1 GRID_DENSE
    let rescored := cands.map (fun c =>
      let testGrid := placeWord (cloneGrid st.1) entry.word c.row c.col c.direction
      let newBounds := getBoundingBox testGrid GRID_DENSE
      let expansion : JQ := (newBounds.width * newBounds.height : JQ) -
        (currentBounds.width * currentBounds.height : JQ)
      { c with score := (c.intersections : JQ) * 15 - expansion * 5 })
    match sortByDesc (fun c : Placement => c.score) rescored with
    | [] => st
    | best :: _ => commitPlacement st entry best

/-- Dense grow step: only candidates with at least two intersections are
accepted; rejected entries go to the skipped queue. -/
def denseGrowTry (log : LogFn) (play : Play) (dict : List Wd) (st : PlaceSt)
    (entry : WordEntry) : PlaceSt × Bool :=
  let cands := findPlacements log play st.1 GRID_DENSE st.2 entry.word dict
  let good := cands.filter (fun c => decide (2 ≤ c.intersections))
  if good.length = 0 then (st, false)
  else
    let currentBounds := getBoundingBox st.1 GRID_DENSE
    let rescored := good.map (fun c =>
      let testGrid := placeWord (cloneGrid st.1) entry.word c.row c.col c.direction
      let newBounds := getBoundingBox testGrid GRID_DENSE
      let density := calculateDensity testGrid newBounds
      let expansion : JQ := (newBounds.width * newBounds.height : JQ) -
        (currentBounds.width * currentBounds.height : JQ)
      { c with score := (c.intersections : JQ) * 10 + density * 30 - expansion * 4 })
    match sortByDesc (fun c : Placement => c.score) rescored with
    | [] => (st, false)
    | best :: _ => (commitPlacement st entry best, true)

/-- Dense final step for skipped entries: one intersection accepted when
the bounding-box expansion is at most 20 (larger expansions score
negative infinity and are filtered out). -/
def denseFinalTry (log : LogFn) (play : Play) (dict : List Wd) (st : PlaceSt)
    (entry : WordEntry) : PlaceSt :=
  let cands := findPlacements log play st.1 GRID_DENSE st.2 entry.word dict
  if cands.length = 0 then st
  else
    let currentBounds := getBoundingBox st.1 GRID_DENSE
    let currentArea := currentBounds.width * currentBounds.height
    let scored := cands.map (fun c =>
      let testGrid := placeWord (cloneGrid st.1) entry.word c.row c.col c.direction
      let newBounds := getBoundingBox testGrid GRID_DENSE
      let expansion : JQ := (newBounds.width * newBounds.height : JQ) - (currentArea : JQ)
      (c, expansion))
    let valid := (scored.filter (fun p => decide (p.2 ≤ 20))).map (fun p =>
      { p.1 with score := (p.1.intersections : JQ) * 10 - p.2 * 5 })
    match sortByDesc (fun c : Placement => c.score) valid with
    | [] => st
    | best :: _ => commitPlacement st entry best

/-- Dense strategy (`generateDense`). -/
def generateDense (allWords : List WordEntry) (play : Play) (log : LogFn)
    (words : List WordEntry) : Option CrosswordData :=
  let dict := allWords.map (fun e => e.word)
  let seeds0 := selectSeedWords words 6
  let remaining := words.filter (fun w => decide (w ∉ seeds0))
  match sortByDesc (fun e : WordEntry => e.word.length) seeds0 with
  | [] => none
  | first :: restSeeds =>
    let st0 := seedState GRID_DENSE first
    let st1 := restSeeds.foldl (denseSeedTry log play dict) st0
    let sortedRemaining := sortByDesc (fun e : WordEntry => e.word.length) remaining
    let grow := processPass (denseGrowTry log play dict) sortedRemaining st1
    let final := grow.2.foldl (denseFinalTry log play dict) grow.1
    some (finalize final.1 GRID_DENSE final.2 play)

/-! Gap filling (`findBestFiller` and the scan loops of `generateFitted`
and `generateSmartAttempt`). -/

/-- Candidate collection of `findBestFiller`: scan the word list in order,
keeping qualifying candidates, stopping once 50 are collected. -/
def fillerCandsAux (placedWords : List Wd) (pattern : List (Option Char)) (len : Nat)
    (g : CGrid) (gridSize : Nat) (row col : Int) (direction : Direction) (dict : List Wd) :
    List WordEntry → List WordEntry → List WordEntry
  | [], acc => acc
  | w :: rest, acc =>
    let patOk := (List.range len).all (fun i =>
      match pattern.getD i none with
      | none => true
      | some pc => decide (pc = jsGet w.word i))
    if decide (w.word.length = len) && decide (w.word ∉ placedWords) && patOk &&
        isValidPlacement g gridSize w.word row col direction dict then
      let acc2 := acc ++ [w]
      if 50 ≤ acc2.length then acc2
      else fillerCandsAux placedWords pattern len g gridSize row col direction dict rest acc2
    else fillerCandsAux placedWords pattern len g gridSize row col direction dict rest acc

/-- Best filler: most playable of the collected candidates. -/
def findBestFiller (play : Play) (allWords : List WordEntry) (placedWords : List Wd)
    (pattern : List (Option Char)) (len : Nat) (g : CGrid) (gridSize : Nat)
    (row col : Int) (direction : Direction) (dict : List Wd) : Option WordEntry :=
  let cands := fillerCandsAux placedWords pattern len g gridSize row col direction dict allWords []
  match sortByDesc (fun w : WordEntry => play w.word) cands with
  | [] => none
  | best :: _ => some best

/-- Length loop of one gap-fill cell: lengths 3 up to
`min(15, pattern.length)`, first acceptable filler wins.  The `accept`
predicate is trivial for `fitted` and the playability floor for `smart`
(a found but unacceptable filler does not stop the loop, as in the
source). -/
def gapTryLens (play : Play) (accept : WordEntry → Bool) (fillerWords : List WordEntry)
    (st : PlaceSt) (gridSize : Nat) (r c : Int) (direction : Direction) (dict : List Wd)
    (pattern : List (Option Char)) : List Nat → Option WordEntry
  | [] => none
  | len :: rest =>
    let afterBad :=
      if direction = .across then
        decide (c + len < (gridSize : Int)) && (st.1 r (c + len)).isSome
      else
        decide (r + len < (gridSize : Int)) && (st.1 (r + len) c).isSome
    if afterBad then
      gapTryLens play accept fillerWords st gridSize r c direction dict pattern rest
    else
      let crossings := ((List.range len).filter (fun ci => (pattern.getD ci none).isSome)).length
      if crossings < 2 then
        gapTryLens play accept fillerWords st gridSize r c direction dict pattern rest
      else
        match findBestFiller play fillerWords (st.2.map (fun p => p.word)) pattern len
            st.1 gridSize r c direction dict with
        | some filler =>
          if accept filler then some filler
          else gapTryLens play accept fillerWords st gridSize r c direction dict pattern rest
        | none => gapTryLens play accept fillerWords st gridSize r c direction dict pattern rest

/-- One cell of the gap-fill scan: skip filled cells and cells with a
letter immediately before; otherwise read the pattern to the box edge and
try the length loop, placing the found filler.  The placed-word set of the
source always equals the placed word strings, so it is read off `st`. -/
def gapFillCell (play : Play) (accept : WordEntry → Bool) (fillerWords : List WordEntry)
    (gridSize : Nat) (direction : Direction) (bounds : BBox) (dict : List Wd)
    (st : PlaceSt) (rc : Nat × Nat) : PlaceSt :=
  let r := rc.1
  let c := rc.2
  if (st.1 (r : Int) (c : Int)).isSome then st
  else
    let beforeBad :=
      if direction = .across then decide (0 < c) && (st.1 (r : Int) ((c : Int) - 1)).isSome
      else decide (0 < r) && (st.1 ((r : Int) - 1) (c : Int)).isSome
    if beforeBad then st
    else
      let pattern :=
        if direction = .across then
          (List.range (bounds.maxCol + 1 - c)).map (fun k => st.1 (r : Int) ((c + k : Nat) : Int))
        else
          (List.range (bounds.maxRow + 1 - r)).map (fun k => st.1 ((r + k : Nat) : Int) (c : Int))
      let lens := (List.range (min 15 pattern.length + 1 - 3)).map (fun k => k + 3)
      match gapTryLens play accept fillerWords st gridSize (r : Int) (c : Int) direction dict
          pattern lens with
      | some filler =>
        (placeWord st.1 filler.word (r : Int) (c : Int) direction,
         st.2 ++ [⟨filler.word, filler.definition, (r : Int), (c : Int), direction⟩])
      | none => st

/-- Bounding-box cells in the scan order of the horizontal pass (rows
outer); ranges are inclusive as in the source loops. -/
def boxCellsAcross (b : BBox) : List (Nat × Nat) :=
  ((List.range (b.maxRow + 1 - b.minRow)).map (fun dr =>
    (List.range (b.maxCol + 1 - b.minCol)).map (fun dc =>
      (b.minRow + dr, b.minCol + dc)))).flatten

/-- Bounding-box cells in the scan order of the vertical pass (columns
outer). -/
def boxCellsDown (b : BBox) : List (Nat × Nat) :=
  ((List.range (b.maxCol + 1 - b.minCol)).map (fun dc =>
    (List.range (b.maxRow + 1 - b.minRow)).map (fun dr =>
      (b.minRow + dr, b.minCol + dc)))).flatten

/-- Shared rescoring step of the retry passes of `fitted` and `smart`
(identical in the source): density and expansion, no bonuses. -/
def retryTry30 (log : LogFn) (play : Play) (dict : List Wd) (st : PlaceSt)
    (entry : WordEntry) : PlaceSt × Bool :=
  let cands := findPlacements log play st.1 GRID_FITTED st.2 entry.word dict
  if cands.length = 0 then (st, false)
  else
    let currentBounds := getBoundingBox st.1 GRID_FITTED
    let rescored := cands.map (fun c =>
      let testGrid := placeWord (cloneGrid st.1) entry.word c.row c.col c.direction
      let newBounds := getBoundingBox testGrid GRID_FITTED
      let density := calculateDensity testGrid newBounds
      let expansion : JQ := (newBounds.width * newBounds.height : JQ) -
        (currentBounds.width * currentBounds.height : JQ)
      { c with score := (c.intersections : JQ) * 8 + density * 25 - expansion * 4 })
    match sortByDesc (fun c : Placement => c.score) rescored with
    | [] => (st, false)
    | best :: _ => (commitPlacement st entry best, true)

/-- Fitted main step: bonus for staying within the current bounding box. -/
def fittedTryMain (log : LogFn) (play : Play) (dict : List Wd) (st : PlaceSt)
    (entry : WordEntry) : PlaceSt × Bool :=
  let cands := findPlacements log play st.1 GRID_FITTED st.2 entry.word dict
  if cands.length = 0 then (st, false)
  else
    let currentBounds := getBoundingBox st.1 GRID_FITTED
    let rescored := cands.map (fun c =>
      let testGrid := placeWord (cloneGrid st.1) entry.word c.row c.col c.direction
      let newBounds := getBoundingBox testGrid GRID_FITTED
      let withinBounds : Bool :=
        decide ((currentBounds.minRow : Int) ≤ c.row) &&
        decide ((currentBounds.minCol : Int) ≤ c.col) &&
        (if c.direction = .across then
          decide (c.col + entry.word.length - 1 ≤ (currentBounds.maxCol : Int))
         else
          decide (c.row + entry.word.length - 1 ≤ (currentBounds.maxRow : Int)))
      let density := calculateDensity testGrid newBounds
      let expansion : JQ := (newBounds.width * newBounds.height : JQ) -
        (currentBounds.width * currentBounds.height : JQ)
      let sc := (c.intersections : JQ) * 8 + density * 25 +
        (if withinBounds then 15 else 0) - expansion * 4
      { c with score := sc })
    match sortByDesc (fun c : Placement => c.score) rescored with
    | [] => (st, false)
    | best :: _ => (commitPlacement st entry best, true)

/-- Fitted strategy (`generateFitted`) with its dictionary gap-filling
pass. -/
def generateFitted (allWords : List WordEntry) (play : Play) (log : LogFn)
    (words : List WordEntry) : Option CrosswordData :=
  let dict := allWords.map (fun e => e.word)
  match sortByDesc (fun e : WordEntry => e.word.length) words with
  | [] => none
  | first :: rest =>
    let st0 := seedState GRID_FITTED first
    let mainOut := processPass (fittedTryMain log play dict) rest st0
    let final := retryPasses (retryTry30 log play dict) 2 mainOut.1 mainOut.2
    let bounds := getBoundingBox final.1.1 GRID_FITTED
    let acceptAll : WordEntry → Bool := fun _ => true
    let st2 := (boxCellsAcross bounds).foldl
      (gapFillCell play acceptAll allWords GRID_FITTED .across bounds dict) final.1
    let st3 := (boxCellsDown bounds).foldl
      (gapFillCell play acceptAll allWords GRID_FITTED .down bounds dict) st2
    some (finalize st3.1 GRID_FITTED st3.2 play)

/-- Smart main step: fitted scoring plus a log-playability bonus. -/
def smartTryMain (log : LogFn) (play : Play) (dict : List Wd) (st : PlaceSt)
    (entry : WordEntry) : PlaceSt × Bool :=
  let cands := findPlacements log play st.1 GRID_SMART st.2 entry.word dict
  if cands.length = 0 then (st, false)
  else
    let currentBounds := getBoundingBox st.1 GRID_SMART
    let rescored := cands.map (fun c =>
      let testGrid := placeWord (cloneGrid st.1) entry.word c.row c.col c.direction
      let newBounds := getBoundingBox testGrid GRID_SMART
      let withinBounds : Bool :=
        decide ((currentBounds.minRow : Int) ≤ c.row) &&
        decide ((currentBounds.minCol : Int) ≤ c.col) &&
        (if c.direction = .across then
          decide (c.col + entry.word.length - 1 ≤ (currentBounds.maxCol : Int))
         else
          decide (c.row + entry.word.length - 1 ≤ (currentBounds.maxRow : Int)))
      let density := calculateDensity testGrid newBounds
      let expansion : JQ := (newBounds.width * newBounds.height : JQ) -
        (currentBounds.width * currentBounds.height : JQ)
      let sc := (c.intersections : JQ) * 8 + density * 25 +
        (if withinBounds then 15 else 0) - expansion * 4 +
        log ((play entry.word : JQ) + 1) * 3
      { c with score := sc })
    match sortByDesc (fun c : Placement => c.score) rescored with
    | [] => (st, false)
    | best :: _ => (commitPlacement st entry best, true)

/-- One attempt of the smart strategy on a pre-ordered word list, with its
playability-floored gap-filling pass. -/
def generateSmartAttempt (allWords : List WordEntry) (play : Play) (log : LogFn)
    (sortedWords : List WordEntry) : Option CrosswordData :=
  let dict := allWords.map (fun e => e.word)
  match sortedWords with
  | [] => none
  | first :: rest =>
    let st0 := seedState GRID_SMART first
    let mainOut := processPass (smartTryMain log play dict) rest st0
    let final := retryPasses (retryTry30 log play dict) 2 mainOut.1 mainOut.2
    let bounds := getBoundingBox final.1.1 GRID_SMART
    let sortedByPlayability := sortByDesc (fun w : WordEntry => play w.word) allWords
    let acceptFloor : WordEntry → Bool := fun w => decide (100 ≤ play w.word)
    let st2 := (boxCellsAcross bounds).foldl
      (gapFillCell play acceptFloor sortedByPlayability GRID_SMART .across bounds dict) final.1
    let st3 := (boxCellsDown bounds).foldl
      (gapFillCell play acceptFloor sortedByPlayability GRID_SMART .down bounds dict) st2
    some (finalize st3.1 GRID_SMART st3.2 play)

/-- Word ordering of one smart attempt: Fisher–Yates shuffle followed by
the length/playability sort.  The source sorts with a comparator that adds
fresh random noise per comparison, whose result order the JS specification
leaves undefined; it is modelled by drawing one noise term per element and
sorting stably by the perturbed key. -/
def smartOrder (play : Play) (words : List WordEntry) (rng : Rng) :
    List WordEntry × Rng :=
  let sh := fyShuffle words rng
  let keyed := sh.1.foldl (fun (st : List (WordEntry × JQ) × Rng) e =>
    let d := st.2.next 50
    (st.1 ++ [(e, (e.word.length : JQ) * 100 + (play e.word : JQ) * (1 / 1000) + (d.1 : JQ))],
     d.2)) ([], sh.2)
  ((sortByDesc (fun p => p.2) keyed.1).map (fun p => p.1), keyed.2)

/-- Smart strategy (`generateSmart`): five attempts with randomized word
order, best by the aggregate score; a thrown attempt (empty word list)
propagates. -/
def generateSmart (allWords : List WordEntry) (play : Play) (log : LogFn)
    (words : List WordEntry) (rng : Rng) : Option CrosswordData :=
  let res := (List.range 5).foldl (fun (acc : Option ((Option CrosswordData × JQ) × Rng)) _ =>
    match acc with
    | none => none
    | some st =>
      let ord := smartOrder play words st.2
      match generateSmartAttempt allWords play log ord.1 with
      | none => none
      | some result =>
        let area0 := result.width * result.height
        let area := if area0 = 0 then 1 else area0
        let filled := (result.grid.map (fun row => (row.filter (fun cell => cell.isSome)).length)).sum
        let density : JQ := (filled : JQ) / (area : JQ)
        let score := (result.words.length : JQ) * 1000 + density * 500 +
          log ((result.avgPlayability : JQ) + 1) * 100 - (area : JQ) * 2
        let newBest := match st.1.1 with
          | none => (some result, score)
          | some _ => if st.1.2 < score then (some result, score) else st.1
        some (newBest, ord.2)) (some ((none, 0), rng))
  match res with
  | none => none
  | some st =>
    match st.1.1 with
    | some r => some r
    | none => some ⟨[[]], [], 0, 0, 0, none⟩

/-- Synchronous dispatcher (`generateCrossword`): switch over the
algorithm tag, defaulting to the smart strategy. -/
def generateCrossword (allWords : List WordEntry) (play : Play) (log : LogFn)
    (words : List WordEntry) (algorithm : String) (rng : Rng) : Option CrosswordData :=
  if algorithm = "original" then generateOriginal allWords play log words
  else if algorithm = "compact" then generateCompact allWords play log words
  else if algorithm = "dense" then generateDense allWords play log words
  else if algorithm = "fitted" then generateFitted allWords play log words
  else if algorithm = "smart" then generateSmart allWords play log words rng
  else generateSmart allWords play log words rng

/-! Specification predicates: the properties of the claims, stated
independently of the computation wherever the claims state them
mathematically. -/

/-- Cell covered by offset `i` of a word starting at `(row, col)`. -/
def cellOf (row col : Int) (direction : Direction) (i : Nat) : Int × Int :=
  (if direction = .across then row else row + (i : Int),
   if direction = .across then col + (i : Int) else col)

/-- Grid/word consistency of a final result: every letter cell of every
placed word is in `[0,width) × [0,height)` and matches the grid. -/
def resultConsistent (d : CrosswordData) : Prop :=
  ∀ pw ∈ d.words, ∀ i < pw.word.length,
    0 ≤ (cellOf pw.row pw.col pw.direction i).1 ∧
    (cellOf pw.row pw.col pw.direction i).1 < (d.height : Int) ∧
    0 ≤ (cellOf pw.row pw.col pw.direction i).2 ∧
    (cellOf pw.row pw.col pw.direction i).2 < (d.width : Int) ∧
    (d.grid.getD (cellOf pw.row pw.col pw.direction i).1.toNat []).getD
      (cellOf pw.row pw.col pw.direction i).2.toNat none = some (jsGet pw.word i)

/-- A placed word written on the working grid of the classic engine,
within the working area. -/
def wordOnGrid (g : CGrid) (gridSize : Nat) (w : GridWord) : Prop :=
  ∀ i < w.word.length,
    0 ≤ (cellOf w.row w.col w.direction i).1 ∧
    (cellOf w.row w.col w.direction i).1 < (gridSize : Int) ∧
    0 ≤ (cellOf w.row w.col w.direction i).2 ∧
    (cellOf w.row w.col w.direction i).2 < (gridSize : Int) ∧
    g (cellOf w.row w.col w.direction i).1 (cellOf w.row w.col w.direction i).2 =
      some (jsGet w.word i)

/-- Cell covered by offset `j` of a slot. -/
def slotCell (s : Slot) (j : Nat) : Nat × Nat :=
  (if s.direction = .across then s.row else s.row + j,
   if s.direction = .across then s.col + j else s.col)

/-- Every cell of every slot lies inside the template area. -/
def slotsInBounds (slots : List Slot) (width height : Nat) : Prop :=
  ∀ s ∈ slots, ∀ j < s.length, (slotCell s j).1 < height ∧ (slotCell s j).2 < width

/-- Every slot covers only white template cells. -/
def slotsOnWhite (template : FGrid) (slots : List Slot) : Prop :=
  ∀ s ∈ slots, ∀ j < s.length, template (slotCell s j).1 (slotCell s j).2 = true

/-- Assignment array indexed like the slots and length-matched to them. -/
def asgLengthsOk (slots : List Slot) (asg : List (Option Wd)) : Prop :=
  ∀ i < slots.length, ∀ w, asg.getD i none = some w → w.length = (slots.getD i default).length

/-- Assigned words of any two slots agree on every shared cell. -/
def asgConsistent (slots : List Slot) (asg : List (Option Wd)) : Prop :=
  ∀ i < slots.length, ∀ j < slots.length, ∀ wi wj,
    asg.getD i none = some wi → asg.getD j none = some wj →
    ∀ a < (slots.getD i default).length, ∀ b < (slots.getD j default).length,
      slotCell (slots.getD i default) a = slotCell (slots.getD j default) b →
      jsGet wi a = jsGet wj b

/-- 180-degree rotational symmetry of a template. -/
def specSymmetric (g : FGrid) (width height : Nat) : Prop :=
  ∀ r < height, ∀ c < width, g r c = g (height - 1 - r) (width - 1 - c)

/-- No maximal white run of length 1 or 2: every run start continues for
at least two more white cells, horizontally and vertically. -/
def specNoShortRuns (g : FGrid) (width height : Nat) : Prop :=
  (∀ r < height, ∀ c < width, g r c = true → (c = 0 ∨ g r (c - 1) = false) →
    c + 2 < width ∧ g r (c + 1) = true ∧ g r (c + 2) = true) ∧
  (∀ c < width, ∀ r < height, g r c = true → (r = 0 ∨ g (r - 1) c = false) →
    r + 2 < height ∧ g (r + 1) c = true ∧ g (r + 2) c = true)

/-- 4-neighbour adjacency between in-bounds white cells. -/
def adjW (g : FGrid) (width height : Nat) (p q : Nat × Nat) : Prop :=
  p.1 < height ∧ p.2 < width ∧ q.1 < height ∧ q.2 < width ∧
  g p.1 p.2 = true ∧ g q.1 q.2 = true ∧
  ((q.1 = p.1 + 1 ∧ q.2 = p.2) ∨ (p.1 = q.1 + 1 ∧ q.2 = p.2) ∨
   (q.2 = p.2 + 1 ∧ q.1 = p.1) ∨ (p.2 = q.2 + 1 ∧ q.1 = p.1))

/-- The white cells form one 4-neighbour connected component. -/
def specConnected (g : FGrid) (width height : Nat) : Prop :=
  ∀ p q : Nat × Nat, p.1 < height → p.2 < width → g p.1 p.2 = true →
    q.1 < height → q.2 < width → g q.1 q.2 = true →
    Relation.ReflTransGen (adjW g width height) p q

/-- The three template invariants of the fill-in engine. -/
def templateInv (g : FGrid) (width height : Nat) : Prop :=
  specSymmetric g width height ∧ specNoShortRuns g width height ∧
  specConnected g width height

/-- Reachable template states: the untouched all-white grid, or a grid
whose last committed black pair passed both validity checks; symmetry is
carried alongside. -/
def templateReach (width height : Nat) (g : FGrid) : Prop :=
  specSymmetric g width height ∧
  (g = makeWhiteGrid width height ∨
    (hasInvalidSlots g width height = false ∧ isConnected g width height = true))

/-- Same word membership of every domain of two solver states, with the
domain list lengths preserved. -/
def domainsEq (a b : SolverState) : Prop :=
  a.domains.length = b.domains.length ∧
  ∀ i, ∀ w : Wd, w ∈ a.domains.getD i [] ↔ w ∈ b.domains.getD i []

/-- No word string appears twice among the placed words of a result. -/
def wordsNodup (d : CrosswordData) : Prop := (d.words.map (fun w => w.word)).Nodup

/-- No-duplicate property through the exceptional layer. -/
def optWordsNodup : Option CrosswordData → Prop
  | none => True
  | some d => wordsNodup d

/-- The input word list carries pairwise distinct word strings. -/
def entriesDistinct (words : List WordEntry) : Prop :=
  (words.map (fun e => e.word)).Nodup

/-- Conclusion bundle of the `isValidPlacement` necessity claim. -/
def validPlacementNecessary (g : CGrid) (gridSize : Nat) (word : Wd) (row col : Int)
    (direction : Direction) (dict : List Wd) : Prop :=
  (∀ i < word.length,
    0 ≤ (cellOf row col direction i).1 ∧ (cellOf row col direction i).1 < (gridSize : Int) ∧
    0 ≤ (cellOf row col direction i).2 ∧ (cellOf row col direction i).2 < (gridSize : Int)) ∧
  (if direction = .across then
    (0 < col → g row (col - 1) = none) ∧
    (col + word.length < (gridSize : Int) → g row (col + word.length) = none)
   else
    (0 < row → g (row - 1) col = none) ∧
    (row + word.length < (gridSize : Int) → g (row + word.length) col = none)) ∧
  (∀ i < word.length,
    g (cellOf row col direction i).1 (cellOf row col direction i).2 = none ∨
    g (cellOf row col direction i).1 (cellOf row col direction i).2 = some (jsGet word i)) ∧
  (∀ i < word.length,
    g (cellOf row col direction i).1 (cellOf row col direction i).2 = none →
    ∀ pw, getPerpendicularWord g gridSize (cellOf row col direction i).1
      (cellOf row col direction i).2 (jsGet word i) direction = some pw → pw ∈ dict) ∧
  ((∃ i < word.length,
    (g (cellOf row col direction i).1 (cellOf row col direction i).2).isSome = true) ∨
    gridIsEmpty g gridSize = true)

/-- Strict row-major order on start cells. -/
def rmLt (a b : Int × Int) : Prop := a.1 < b.1 ∨ (a.1 = b.1 ∧ a.2 < b.2)

/-- Distinct start cells of a word list, in order of first appearance. -/
def startCells (ws : List PlacedWord) : List (Int × Int) :=
  ws.foldl (fun acc w => if (w.row, w.col) ∈ acc then acc else acc ++ [(w.row, w.col)]) []

/-- Clue numbering invariant: a shared number per start cell, numbers
strictly increasing in row-major cell order, and the numbers are exactly
`1 .. (number of distinct start cells)`. -/
def clueNumberingOk (ws : List PlacedWord) : Prop :=
  (∀ w1 ∈ ws, ∀ w2 ∈ ws, w1.row = w2.row → w1.col = w2.col →
    w1.clueNumber = w2.clueNumber) ∧
  (∀ w1 ∈ ws, ∀ w2 ∈ ws, rmLt (w1.row, w1.col) (w2.row, w2.col) →
    w1.clueNumber < w2.clueNumber) ∧
  (∀ w ∈ ws, 1 ≤ w.clueNumber ∧ w.clueNumber ≤ (startCells ws).length) ∧
  (∀ n < (startCells ws).length, ∃ w ∈ ws, w.clueNumber = n + 1)

/-- Numbering-scan invariant: numbers of the emitted words are shared per
cell, increase in row-major order, and fill `[1, num)` exactly, with `num`
one past the count of distinct start cells. -/
def numInv (ws : List PlacedWord) (num : Nat) : Prop :=
  (∀ w1 ∈ ws, ∀ w2 ∈ ws, w1.row = w2.row → w1.col = w2.col →
    w1.clueNumber = w2.clueNumber) ∧
  (∀ w1 ∈ ws, ∀ w2 ∈ ws, rmLt (w1.row, w1.col) (w2.row, w2.col) →
    w1.clueNumber < w2.clueNumber) ∧
  (∀ w ∈ ws, 1 ≤ w.clueNumber ∧ w.clueNumber < num) ∧
  (∀ n, 1 ≤ n → n < num → ∃ w ∈ ws, w.clueNumber = n) ∧
  num = (startCells ws).length + 1

/-- Crossing bidirectionality of a slot list. -/
def slotsBidirectional (slots : List Slot) : Prop :=
  ∀ i < slots.length, ∀ cr ∈ (slots.getD i default).crossings,
    (⟨cr.indexInOtherSlot, i, cr.indexInSlot⟩ : Crossing) ∈
      (slots.getD cr.otherSlotIdx default).crossings

/-- No empty white square in an assembled result: every cell is black or a
letter of an assigned slot word covering it. -/
def noEmptyWhite (slots : List Slot) (asg : List (Option Wd)) (d : CrosswordData) : Prop :=
  ∀ r < d.height, ∀ c < d.width,
    (d.grid.getD r []).getD c none = none ∨
    ∃ i < slots.length, ∃ w, asg.getD i none = some w ∧
      ∃ j < (slots.getD i default).length,
        slotCell (slots.getD i default) j = (r, c) ∧
        (d.grid.getD r []).getD c none = some (jsGet w j)

/-- The greedy patch keeps every already-assigned slot word. -/
def greedyPreserves (slots : List Slot) (asg : List (Option Wd))
    (wbl : Nat → List Wd) : Prop :=
  ∀ i, ∀ w, asg.getD i none = some w → (greedyPatch slots asg wbl).getD i none = some w

/-- Words recorded in one starts-map entry. -/
def entryWords (e : StartsEntry α) (wordOf : α → Wd) : List Wd :=
  (match e.across with | some w => [wordOf w] | none => []) ++
  (match e.down with | some w => [wordOf w] | none => [])

/-- All words recorded in a starts map. -/
def mapWords (m : List ((Int × Int) × StartsEntry α)) (wordOf : α → Wd) : List Wd :=
  (m.map (fun kv => entryWords kv.2 wordOf)).flatten

/-- Assignment array with pairwise-distinct assigned words. -/
def asgDistinct (asg : List (Option Wd)) : Prop :=
  ∀ i j wi wj, i ≠ j → asg.getD i none = some wi → asg.getD j none = some wj →
    wi ≠ wj

/-! Concrete instances for witnesses and counterexamples. -/

/-- Degenerate random stream. -/
def rng0 : Rng := ⟨fun _ => 0, 0⟩

/-- Trivial playability map. -/
def play0 : Play := fun _ => 0

/-- Trivial model of `Math.log`. -/
def log0 : LogFn := fun _ => 0

/-- Palindromic test word that the original strategy places twice when
given twice. -/
def anaEntry : WordEntry := ⟨"ANA".toList, []⟩

/-- Final working grid of the duplicated-`ANA` run of the original
strategy: the seed word and its best-scored crossing copy. -/
def gC5 : CGrid :=
  placeWord (placeWord (makeGrid 80) ("ANA".toList) 40 38 .across)
    ("ANA".toList) 38 40 .down

/-- Placed words of the duplicated-`ANA` run of the original strategy. -/
def placedC5 : List GridWord :=
  [⟨"ANA".toList, [], 40, 38, .across⟩, ⟨"ANA".toList, [], 38, 40, .down⟩]

/-- Bounding-box fold over the cells of one row. -/
def bboxRowFold (g : CGrid) (w r : Nat) (a : Nat × Nat × Nat × Nat) :
    Nat × Nat × Nat × Nat :=
  ((List.range w).map (fun c => (r, c))).foldl (bboxStep g) a

/-- Cross-shaped 3 by 3 template: one across and one down slot crossing at
the centre. -/
def crossT : FGrid := fun r c => decide (r = 1) || decide (c = 1)

/-- Slot pair of the cross template. -/
def crossSlots : List Slot := extractSlots crossT 3 3

/-- One unsatisfiable slot (empty domain) for the solver witness. -/
def exSlots1 : List Slot := [⟨0, 0, .across, 3, []⟩]

/-- Solver state with an empty domain at the single slot. -/
def exState1 : SolverState := ⟨[none], [[]]⟩

/-- Working grid with one seeded word, for the placement-validity
witness. -/
def exGrid6 : CGrid := placeWord (makeGrid 5) ("CAT".toList) 2 1 .across

/-! Base lemmas shared by the claim proofs. -/

theorem foldl_invariant {α β : Type} {P : β → Prop} (f : β → α → β) (l : List α)
    (init : β) (h0 : P init) (hstep : ∀ b a, a ∈ l → P b → P (f b a)) :
    P (l.foldl f init) := by
  induction l generalizing init with
  | nil => exact h0
  | cons x xs ih =>
    exact ih (f init x) (hstep init x (by simp) h0)
      (fun b a ha hb => hstep b a (by simp [ha]) hb)

theorem getD_map_range {β : Type} (f : Nat → β) (n i : Nat) (d : β) :
    ((List.range n).map f).getD i d = if i < n then f i else d := by
  by_cases h : i < n
  · simp [List.getD, List.getElem?_map, List.getElem?_range, h]
  · have hge : n ≤ i := Nat.le_of_not_lt h
    simp [List.getD, List.getElem?_eq_none, h, hge]

/-! Claim C10: unknown algorithm tags dispatch to the smart strategy. -/

/-- C10: for every word list and inputs, calling `generateCrossword` with
an algorithm tag that is none of the five known values dispatches to the
smart strategy, returning exactly the result of the smart strategy. -/
theorem c10_unknown_tag_dispatches_smart (allWords : List WordEntry) (play : Play)
    (log : LogFn) (words : List WordEntry) (algorithm : String) (rng : Rng)
    (h1 : algorithm ≠ "original") (h2 : algorithm ≠ "compact")
    (h3 : algorithm ≠ "dense") (h4 : algorithm ≠ "fitted")
    (h5 : algorithm ≠ "smart") :
    generateCrossword allWords play log words algorithm rng =
      generateSmart allWords play log words rng := by
  unfold generateCrossword
  simp [h1, h2, h3, h4, h5]

/-- Witness for C10 at the concrete tag of the fill-in engine, which the
dispatcher does not know. -/
theorem c10_witness :
    generateCrossword [] play0 log0 [] "fillin-smart" rng0 =
      generateSmart [] play0 log0 [] rng0 :=
  c10_unknown_tag_dispatches_smart [] play0 log0 [] "fillin-smart" rng0
    (by decide) (by decide) (by decide) (by decide) (by decide)

/-! Claim C1: behaviour of the five strategies on an empty word list. -/

/-- C1 counterexample: with the `original` tag and an empty word list the
dispatcher does not return any `CrosswordData` value (width 0, height 0 or
otherwise): the strategy dereferences the first element of the empty
sorted list and throws, modelled by `none`. -/
theorem c1_counterexample :
    generateCrossword [] play0 log0 [] "original" rng0 = none := by
  rfl

/-- C1 (amended): for every algorithm tag among the five, calling
`generateCrossword` with an empty word list throws a TypeError (reading
`sorted[0].word` of the empty sorted list), modelled by the exceptional
outcome `none`; no degenerate result is returned. -/
theorem c1_empty_words_throws (allWords : List WordEntry) (play : Play)
    (log : LogFn) (rng : Rng) :
    generateCrossword allWords play log [] "original" rng = none ∧
    generateCrossword allWords play log [] "compact" rng = none ∧
    generateCrossword allWords play log [] "dense" rng = none ∧
    generateCrossword allWords play log [] "fitted" rng = none ∧
    generateCrossword allWords play log [] "smart" rng = none := by
  refine ⟨rfl, rfl, rfl, rfl, ?_⟩
  rfl

/-! Claim C6: necessity of the `isValidPlacement` conditions. -/

theorem isSome_false_eq_none {γ : Type} {x : Option γ} (h : x.isSome = false) : x = none := by
  cases x
  · rfl
  · simp at h

theorem validStep_of_fst_false (g : CGrid) (gridSize : Nat) (word : Wd) (row col : Int)
    (direction : Direction) (dict : List Wd) (st : Bool × Bool) (i : Nat)
    (h : st.1 = false) : validStep g gridSize word row col direction dict st i = st := by
  simp [validStep, h]

theorem validLoop_fst_true (g : CGrid) (gridSize : Nat) (word : Wd) (row col : Int)
    (direction : Direction) (dict : List Wd) (n : Nat)
    (h : ((List.range n).foldl (validStep g gridSize word row col direction dict)
      (true, false)).1 = true) :
    ∀ i < n,
      (g (cellOf row col direction i).1 (cellOf row col direction i).2 = none ∨
        g (cellOf row col direction i).1 (cellOf row col direction i).2 =
          some (jsGet word i)) ∧
      (g (cellOf row col direction i).1 (cellOf row col direction i).2 = none →
        ∀ pw, getPerpendicularWord g gridSize (cellOf row col direction i).1
          (cellOf row col direction i).2 (jsGet word i) direction = some pw →
          pw ∈ dict) := by
  induction n with
  | zero => intro i hi; omega
  | succ n ih =>
    rw [List.range_succ, List.foldl_append, List.foldl_cons, List.foldl_nil] at h
    set st := (List.range n).foldl (validStep g gridSize word row col direction dict)
      (true, false) with hst
    have hst1 : st.1 = true := by
      cases hx : st.1
      · rw [validStep_of_fst_false g gridSize word row col direction dict st n hx] at h
        rw [hx] at h
        simp at h
      · rfl
    have e1 : (if direction = Direction.across then row else row + (n : Int)) =
        (cellOf row col direction n).1 := rfl
    have e2 : (if direction = Direction.across then col + (n : Int) else col) =
        (cellOf row col direction n).2 := rfl
    intro i hi
    rcases Nat.lt_succ_iff_lt_or_eq.mp hi with hlt | heq
    · exact ih hst1 i hlt
    · subst heq
      simp only [validStep, hst1, Bool.not_true, Bool.false_eq_true, if_false, e1, e2] at h
      rcases hcell : g (cellOf row col direction i).1 (cellOf row col direction i).2 with
        _ | existing
      · rw [hcell] at h
        rcases hperp : getPerpendicularWord g gridSize (cellOf row col direction i).1
            (cellOf row col direction i).2 (jsGet word i) direction with _ | pw
        · exact ⟨Or.inl rfl, fun _ pw2 hpw2 => by cases hpw2⟩
        · rw [hperp] at h
          change decide (pw ∈ dict) = true at h
          refine ⟨Or.inl rfl, fun _ pw2 hpw2 => ?_⟩
          injection hpw2 with hpw3
          subst hpw3
          exact of_decide_eq_true h
      · rw [hcell] at h
        change (if decide (existing = jsGet word i) = true then (true, true)
          else (false, st.2)).1 = true at h
        by_cases hmatch : existing = jsGet word i
        · exact ⟨Or.inr (congrArg some hmatch), fun hn _ _ => by cases hn⟩
        · have hdec : decide (existing = jsGet word i) = false := decide_eq_false hmatch
          rw [hdec] at h
          simp at h

theorem validLoop_snd_true (g : CGrid) (gridSize : Nat) (word : Wd) (row col : Int)
    (direction : Direction) (dict : List Wd) (n : Nat)
    (h : ((List.range n).foldl (validStep g gridSize word row col direction dict)
      (true, false)).2 = true) :
    ∃ i < n,
      (g (cellOf row col direction i).1 (cellOf row col direction i).2).isSome = true := by
  induction n with
  | zero => simp at h
  | succ n ih =>
    rw [List.range_succ, List.foldl_append, List.foldl_cons, List.foldl_nil] at h
    set st := (List.range n).foldl (validStep g gridSize word row col direction dict)
      (true, false) with hst
    have e1 : (if direction = Direction.across then row else row + (n : Int)) =
        (cellOf row col direction n).1 := rfl
    have e2 : (if direction = Direction.across then col + (n : Int) else col) =
        (cellOf row col direction n).2 := rfl
    have bump : (∃ i < n, (g (cellOf row col direction i).1
        (cellOf row col direction i).2).isSome = true) →
        ∃ i < n + 1, (g (cellOf row col direction i).1
          (cellOf row col direction i).2).isSome = true := by
      rintro ⟨i, hi, hs⟩
      exact ⟨i, Nat.lt_succ_of_lt hi, hs⟩
    cases hx : st.1
    · rw [validStep_of_fst_false g gridSize word row col direction dict st n hx] at h
      exact bump (ih h)
    · simp only [validStep, hx, Bool.not_true, Bool.false_eq_true, if_false, e1, e2] at h
      rcases hcell : g (cellOf row col direction n).1 (cellOf row col direction n).2 with
        _ | existing
      · rw [hcell] at h
        rcases hperp : getPerpendicularWord g gridSize (cellOf row col direction n).1
            (cellOf row col direction n).2 (jsGet word n) direction with _ | pw
        · rw [hperp] at h
          change st.2 = true at h
          exact bump (ih h)
        · rw [hperp] at h
          change st.2 = true at h
          exact bump (ih h)
      · rw [hcell] at h
        change (if decide (existing = jsGet word n) = true then (true, true)
          else (false, st.2)).2 = true at h
        by_cases hmatch : existing = jsGet word n
        · refine ⟨n, Nat.lt_succ_self n, ?_⟩
          rw [hcell]
          rfl
        · have hdec : decide (existing = jsGet word n) = false := decide_eq_false hmatch
          rw [hdec] at h
          simp only [Bool.false_eq_true, if_false] at h
          exact bump (ih h)

/-- C6: `isValidPlacement` returns true only if the word lies inside the
working grid, the cells immediately before and after it are empty, every
covered cell is empty or holds the same letter, every perpendicular run a
new letter creates is a dictionary word, and the placement intersects an
existing letter unless the grid is completely empty. -/
theorem c6_isValidPlacement_necessary (g : CGrid) (gridSize : Nat) (word : Wd)
    (row col : Int) (direction : Direction) (dict : List Wd)
    (h : isValidPlacement g gridSize word row col direction dict = true) :
    validPlacementNecessary g gridSize word row col direction dict := by
  cases direction with
  | across =>
    rw [isValidPlacement] at h
    simp only [reduceIte] at h
    split at h
    next => cases h
    next hbound0 =>
      split at h
      next => cases h
      next hbefore0 =>
        split at h
        next => cases h
        next hafter0 =>
          rw [Bool.and_eq_true, Bool.or_eq_true] at h
          obtain ⟨hstep1, hstep2⟩ := h
          rw [validPlacementNecessary]
          simp only [reduceIte]
          refine ⟨?_, ?_, ?_, ?_, ?_⟩
          · intro i hi
            have hb : ((0 ≤ row ∧ row < (gridSize : Int)) ∧ 0 ≤ col) ∧
                col + (word.length : Int) ≤ (gridSize : Int) := by simpa using hbound0
            simp only [cellOf, reduceIte]
            omega
          · constructor
            · intro hcol
              have hx : ¬ (0 < col ∧ (g row (col - 1)).isSome = true) := by
                simpa using hbefore0
              cases hcur : g row (col - 1)
              · rfl
              · exact absurd ⟨hcol, by rw [hcur]; rfl⟩ hx
            · intro hlen
              have hx : ¬ (col + (word.length : Int) < (gridSize : Int) ∧
                  (g row (col + (word.length : Int))).isSome = true) := by
                simpa using hafter0
              cases hcur : g row (col + (word.length : Int))
              · rfl
              · exact absurd ⟨hlen, by rw [hcur]; rfl⟩ hx
          · intro i hi
            exact (validLoop_fst_true g gridSize word row col Direction.across dict
              word.length hstep1 i hi).1
          · intro i hi
            exact (validLoop_fst_true g gridSize word row col Direction.across dict
              word.length hstep1 i hi).2
          · rcases hstep2 with hint | hempty
            · exact Or.inl (validLoop_snd_true g gridSize word row col Direction.across
                dict word.length hint)
            · exact Or.inr hempty
  | down =>
    have hne : (Direction.down = Direction.across) = False :=
      eq_false (by intro hx; cases hx)
    rw [isValidPlacement] at h
    simp only [hne, reduceIte] at h
    split at h
    next => cases h
    next hbound0 =>
      split at h
      next => cases h
      next hbefore0 =>
        split at h
        next => cases h
        next hafter0 =>
          rw [Bool.and_eq_true, Bool.or_eq_true] at h
          obtain ⟨hstep1, hstep2⟩ := h
          rw [validPlacementNecessary]
          simp only [hne, reduceIte]
          refine ⟨?_, ?_, ?_, ?_, ?_⟩
          · intro i hi
            have hb : ((0 ≤ row ∧ row + (word.length : Int) ≤ (gridSize : Int)) ∧
                0 ≤ col) ∧ col < (gridSize : Int) := by simpa using hbound0
            simp only [cellOf, hne, reduceIte]
            omega
          · constructor
            · intro hrow
              have hx : ¬ (0 < row ∧ (g (row - 1) col).isSome = true) := by
                simpa using hbefore0
              cases hcur : g (row - 1) col
              · rfl
              · exact absurd ⟨hrow, by rw [hcur]; rfl⟩ hx
            · intro hlen
              have hx : ¬ (row + (word.length : Int) < (gridSize : Int) ∧
                  (g (row + (word.length : Int)) col).isSome = true) := by
                simpa using hafter0
              cases hcur : g (row + (word.length : Int)) col
              · rfl
              · exact absurd ⟨hlen, by rw [hcur]; rfl⟩ hx
          · intro i hi
            exact (validLoop_fst_true g gridSize word row col Direction.down dict
              word.length hstep1 i hi).1
          · intro i hi
            exact (validLoop_fst_true g gridSize word row col Direction.down dict
              word.length hstep1 i hi).2
          · rcases hstep2 with hint | hempty
            · exact Or.inl (validLoop_snd_true g gridSize word row col Direction.down
                dict word.length hint)
            · exact Or.inr hempty

/-- Witness for C6: a concrete placement of `AN` crossing the seeded `CAT`
validates, and the necessary conditions hold there. -/
theorem c6_witness :
    validPlacementNecessary exGrid6 5 ("AN".toList) 2 2 Direction.down [] :=
  c6_isValidPlacement_necessary exGrid6 5 ("AN".toList) 2 2 Direction.down [] (by decide)

/-! Claim C8: crossing bidirectionality of `extractSlots`. -/

theorem getD_set_self {γ : Type} (l : List γ) (i : Nat) (x d : γ) (h : i < l.length) :
    (l.set i x).getD i d = x := by
  simp [List.getD, List.getElem?_set_self, h]

theorem getD_set_ne {γ : Type} (l : List γ) (i k : Nat) (x d : γ) (h : k ≠ i) :
    (l.set i x).getD k d = l.getD k d := by
  simp [List.getD, List.getElem?_set_ne (fun he => h he.symm)]

theorem getD_eq_of_lt {γ : Type} [Inhabited γ] (l : List γ) (i : Nat) (h : i < l.length) :
    l.getD i default = l[i] := by
  simp [List.getD, List.getElem?_eq_getElem h]

theorem addCrossing_length (slots : List Slot) (i : Nat) (cr : Crossing) :
    (addCrossing slots i cr).length = slots.length := by
  unfold addCrossing
  cases slots.get? i <;> simp

theorem addCrossing_getD_ne (slots : List Slot) (i k : Nat) (cr : Crossing)
    (h : k ≠ i) :
    (addCrossing slots i cr).getD k default = slots.getD k default := by
  unfold addCrossing
  cases slots.get? i
  · rfl
  · exact getD_set_ne _ _ _ _ _ h

theorem addCrossing_getD_self (slots : List Slot) (i : Nat) (cr : Crossing)
    (h : i < slots.length) :
    (addCrossing slots i cr).getD i default =
      { slots.getD i default with
        crossings := (slots.getD i default).crossings ++ [cr] } := by
  unfold addCrossing
  have hg : slots.get? i = some (slots.getD i default) := by
    rw [List.get?_eq_getElem?, List.getElem?_eq_getElem h, getD_eq_of_lt slots i h]
  rw [hg]
  exact getD_set_self _ _ _ _ (by simpa using h)

theorem addCrossing_getD_oob (slots : List Slot) (i : Nat) (cr : Crossing)
    (h : ¬ i < slots.length) :
    addCrossing slots i cr = slots := by
  unfold addCrossing
  have hg : slots.get? i = none := by
    rw [List.get?_eq_getElem?, List.getElem?_eq_none]
    omega
  rw [hg]

theorem mem_addCrossing_self (slots : List Slot) (i : Nat) (cr : Crossing)
    (h : i < slots.length) :
    cr ∈ ((addCrossing slots i cr).getD i default).crossings := by
  rw [addCrossing_getD_self slots i cr h]
  simp

theorem mem_addCrossing_mono (slots : List Slot) (i k : Nat) (cr c0 : Crossing)
    (h : c0 ∈ (slots.getD k default).crossings) :
    c0 ∈ ((addCrossing slots i cr).getD k default).crossings := by
  by_cases hk : k = i
  · subst hk
    by_cases hi : k < slots.length
    · rw [addCrossing_getD_self slots k cr hi]
      exact List.mem_append_left _ h
    · rw [addCrossing_getD_oob slots k cr hi]
      exact h
  · rw [addCrossing_getD_ne slots i k cr hk]
    exact h

theorem mem_addCrossing_inv (slots : List Slot) (i k : Nat) (cr c0 : Crossing)
    (h : c0 ∈ ((addCrossing slots i cr).getD k default).crossings) :
    c0 ∈ (slots.getD k default).crossings ∨ (k = i ∧ c0 = cr) := by
  by_cases hk : k = i
  · subst hk
    by_cases hi : k < slots.length
    · rw [addCrossing_getD_self slots k cr hi] at h
      simp only [List.mem_append, List.mem_singleton] at h
      rcases h with h | h
      · exact Or.inl h
      · exact Or.inr ⟨rfl, h⟩
    · rw [addCrossing_getD_oob slots k cr hi] at h
      exact Or.inl h
  · rw [addCrossing_getD_ne slots i k cr hk] at h
    exact Or.inl h

theorem bidir_add_pair (slots : List Slot) (i j pi pj : Nat)
    (hB : slotsBidirectional slots) (hi : i < slots.length) (hj : j < slots.length) :
    slotsBidirectional
      (addCrossing (addCrossing slots i ⟨pi, j, pj⟩) j ⟨pj, i, pi⟩) := by
  set sl1 := addCrossing slots i ⟨pi, j, pj⟩ with hsl1
  set sl2 := addCrossing sl1 j ⟨pj, i, pi⟩ with hsl2
  have hlen1 : sl1.length = slots.length := addCrossing_length slots i _
  have hlen2 : sl2.length = sl1.length := addCrossing_length sl1 j _
  intro k hk cr hcr
  rcases mem_addCrossing_inv sl1 j k _ cr hcr with hcr1 | ⟨hkj, hcrj⟩
  · rcases mem_addCrossing_inv slots i k _ cr hcr1 with hcr0 | ⟨hki, hcri⟩
    · have hmirror := hB k (by omega) cr hcr0
      exact mem_addCrossing_mono sl1 j cr.otherSlotIdx _ _
        (mem_addCrossing_mono slots i cr.otherSlotIdx _ _ hmirror)
    · rw [hcri, hki]
      exact mem_addCrossing_self sl1 j _ (by omega)
  · rw [hcrj, hkj]
    exact mem_addCrossing_mono sl1 j i _ _ (mem_addCrossing_self slots i _ hi)

theorem bidir_of_empty (slots : List Slot) (h0 : ∀ s ∈ slots, s.crossings = []) :
    slotsBidirectional slots := by
  intro i hi cr hcr
  have hmem : slots.getD i default ∈ slots := by
    rw [getD_eq_of_lt slots i hi]
    exact List.getElem_mem hi
  rw [h0 _ hmem] at hcr
  cases hcr

theorem wireCrossings_bidir (slots : List Slot) (m : CellMap)
    (h0 : ∀ s ∈ slots, s.crossings = [])
    (hbound : ∀ kv ∈ m, ∀ e ∈ kv.2, e.slotIdx < slots.length) :
    slotsBidirectional (wireCrossings slots m) := by
  unfold wireCrossings
  refine (@foldl_invariant _ _
    (fun sl => slotsBidirectional sl ∧ sl.length = slots.length)
    _ m slots ⟨bidir_of_empty slots h0, rfl⟩ ?_).1
  intro sl kv hkv hP
  obtain ⟨hB, hlen⟩ := hP
  rcases hkvs : kv.2 with _ | ⟨a, rest⟩
  · simpa [hkvs] using ⟨hB, hlen⟩
  · rcases hrest : rest with _ | ⟨b, rest2⟩
    · simpa [hkvs, hrest] using ⟨hB, hlen⟩
    · rcases hrest2 : rest2 with _ | ⟨c, rest3⟩
      · simp only [hkvs, hrest, hrest2]
        by_cases hdir : a.dir ≠ b.dir
        · rw [if_pos hdir]
          have ha : a.slotIdx < slots.length :=
            hbound kv hkv a (by rw [hkvs, hrest, hrest2]; simp)
          have hb : b.slotIdx < slots.length :=
            hbound kv hkv b (by rw [hkvs, hrest, hrest2]; simp)
          refine ⟨bidir_add_pair sl a.slotIdx b.slotIdx a.pos b.pos hB
            (by omega) (by omega), ?_⟩
          rw [addCrossing_length, addCrossing_length, hlen]
        · rw [if_neg hdir]
          exact ⟨hB, hlen⟩
      · simpa [hkvs, hrest, hrest2] using ⟨hB, hlen⟩

theorem cmReg_entries (m : CellMap) (k : Nat × Nat) (e : RegEntry) :
    ∀ kv ∈ cmReg m k e, ∀ e2 ∈ kv.2, (∃ kv0 ∈ m, e2 ∈ kv0.2) ∨ e2 = e := by
  induction m with
  | nil =>
    intro kv hkv e2 he2
    simp only [cmReg, List.mem_singleton] at hkv
    subst hkv
    simp only [List.mem_singleton] at he2
    exact Or.inr he2
  | cons hd tl ih =>
    intro kv hkv e2 he2
    rcases hd with ⟨k0, es⟩
    unfold cmReg at hkv
    by_cases hk : k0 = k
    · rw [if_pos hk] at hkv
      rcases List.mem_cons.mp hkv with hkv1 | hkv1
      · subst hkv1
        simp only [List.mem_append, List.mem_singleton] at he2
        rcases he2 with h | h
        · exact Or.inl ⟨(k0, es), by simp, h⟩
        · exact Or.inr h
      · exact Or.inl ⟨kv, by simp [hkv1], he2⟩
    · rw [if_neg hk] at hkv
      rcases List.mem_cons.mp hkv with hkv1 | hkv1
      · exact Or.inl ⟨kv, by rw [hkv1]; simp, he2⟩
      · rcases ih kv hkv1 e2 he2 with ⟨kv0, hkv0, h0⟩ | h0
        · exact Or.inl ⟨kv0, by simp [hkv0], h0⟩
        · exact Or.inr h0

theorem extractAcross_inv (g : FGrid) (width height : Nat) :
    (∀ s ∈ (extractAcross g width height).1, s.crossings = []) ∧
    ∀ kv ∈ (extractAcross g width height).2, ∀ e ∈ kv.2,
      e.slotIdx < (extractAcross g width height).1.length := by
  unfold extractAcross
  refine @foldl_invariant _ _
    (fun st : List Slot × CellMap => (∀ s ∈ st.1, s.crossings = []) ∧
      ∀ kv ∈ st.2, ∀ e ∈ kv.2, e.slotIdx < st.1.length) _ _ ([], [])
    ⟨by simp, by simp⟩ ?_
  intro st r _ hP
  refine @foldl_invariant _ _
    (fun st : List Slot × CellMap => (∀ s ∈ st.1, s.crossings = []) ∧
      ∀ kv ∈ st.2, ∀ e ∈ kv.2, e.slotIdx < st.1.length) _ _ st hP ?_
  intro st2 run _ hP2
  by_cases hmin : MIN_SLOT_LENGTH ≤ run.2
  · simp only [if_pos hmin]
    constructor
    · intro s hs
      rcases List.mem_append.mp hs with h | h
      · exact hP2.1 s h
      · simp only [List.mem_singleton] at h
        subst h
        rfl
    · have hbase : ∀ kv ∈ st2.2, ∀ e ∈ kv.2, e.slotIdx < st2.1.length + 1 := by
        intro kv hkv e he
        exact Nat.lt_succ_of_lt (hP2.2 kv hkv e he)
      have hfold := @foldl_invariant _ _
        (fun cm : CellMap => ∀ kv ∈ cm, ∀ e ∈ kv.2, e.slotIdx < st2.1.length + 1)
        (fun cm i => cmReg cm (r, run.1 + i) ⟨st2.1.length, i, Direction.across⟩)
        (List.range run.2) st2.2 hbase ?_
      · intro kv hkv e he
        have hlen : (st2.1 ++
            [(⟨r, run.1, Direction.across, run.2, []⟩ : Slot)]).length =
            st2.1.length + 1 := by simp
        rw [hlen]
        exact hfold kv hkv e he
      · intro cm i _ hcm kv hkv e he
        rcases cmReg_entries cm _ _ kv hkv e he with ⟨kv0, hkv0, h0⟩ | h0
        · exact hcm kv0 hkv0 e h0
        · subst h0
          simp
  · simp only [if_neg hmin]
    exact hP2

theorem extractDown_inv (g : FGrid) (width height : Nat) (st0 : List Slot × CellMap)
    (h0 : (∀ s ∈ st0.1, s.crossings = []) ∧
      ∀ kv ∈ st0.2, ∀ e ∈ kv.2, e.slotIdx < st0.1.length) :
    (∀ s ∈ (extractDown g width height st0).1, s.crossings = []) ∧
    ∀ kv ∈ (extractDown g width height st0).2, ∀ e ∈ kv.2,
      e.slotIdx < (extractDown g width height st0).1.length := by
  unfold extractDown
  refine @foldl_invariant _ _
    (fun st : List Slot × CellMap => (∀ s ∈ st.1, s.crossings = []) ∧
      ∀ kv ∈ st.2, ∀ e ∈ kv.2, e.slotIdx < st.1.length) _ _ st0 h0 ?_
  intro st c _ hP
  refine @foldl_invariant _ _
    (fun st : List Slot × CellMap => (∀ s ∈ st.1, s.crossings = []) ∧
      ∀ kv ∈ st.2, ∀ e ∈ kv.2, e.slotIdx < st.1.length) _ _ st hP ?_
  intro st2 run _ hP2
  by_cases hmin : MIN_SLOT_LENGTH ≤ run.2
  · simp only [if_pos hmin]
    constructor
    · intro s hs
      rcases List.mem_append.mp hs with h | h
      · exact hP2.1 s h
      · simp only [List.mem_singleton] at h
        subst h
        rfl
    · have hbase : ∀ kv ∈ st2.2, ∀ e ∈ kv.2, e.slotIdx < st2.1.length + 1 := by
        intro kv hkv e he
        exact Nat.lt_succ_of_lt (hP2.2 kv hkv e he)
      have hfold := @foldl_invariant _ _
        (fun cm : CellMap => ∀ kv ∈ cm, ∀ e ∈ kv.2, e.slotIdx < st2.1.length + 1)
        (fun cm i => cmReg cm (run.1 + i, c) ⟨st2.1.length, i, Direction.down⟩)
        (List.range run.2) st2.2 hbase ?_
      · intro kv hkv e he
        have hlen : (st2.1 ++
            [(⟨run.1, c, Direction.down, run.2, []⟩ : Slot)]).length =
            st2.1.length + 1 := by simp
        rw [hlen]
        exact hfold kv hkv e he
      · intro cm i _ hcm kv hkv e he
        rcases cmReg_entries cm _ _ kv hkv e he with ⟨kv0, hkv0, h0⟩ | h0
        · exact hcm kv0 hkv0 e h0
        · subst h0
          simp
  · simp only [if_neg hmin]
    exact hP2

/-- C8: in the slot list of `extractSlots`, every crossing is
bidirectional: a crossing `(posI, j, posJ)` of slot `i` is mirrored by a
crossing `(posJ, i, posI)` of slot `j`. -/
theorem c8_crossings_bidirectional (g : FGrid) (width height : Nat) :
    slotsBidirectional (extractSlots g width height) := by
  unfold extractSlots
  have hinv := extractDown_inv g width height (extractAcross g width height)
    (extractAcross_inv g width height)
  exact wireCrossings_bidir _ _ hinv.1 hinv.2

/-! Claim C7: clue numbering in reading order. -/

theorem rmLt_irrefl (a : Int × Int) : ¬ rmLt a a := by
  unfold rmLt
  omega

theorem rmLt_asymm {a b : Int × Int} (h : rmLt a b) : ¬ rmLt b a := by
  unfold rmLt at h ⊢
  omega

theorem rmLt_ne {a b : Int × Int} (h : rmLt a b) : a ≠ b := by
  intro he
  subst he
  exact rmLt_irrefl a h

theorem startCells_append (l : List PlacedWord) (w : PlacedWord) :
    startCells (l ++ [w]) =
      if (w.row, w.col) ∈ startCells l then startCells l
      else startCells l ++ [(w.row, w.col)] := by
  unfold startCells
  rw [List.foldl_append]
  rfl

theorem startCells_sub (l : List PlacedWord) :
    ∀ x ∈ startCells l, ∃ w ∈ l, x = (w.row, w.col) := by
  unfold startCells
  refine @foldl_invariant _ _
    (fun acc : List (Int × Int) => ∀ x ∈ acc, ∃ w ∈ l, x = (w.row, w.col)) _ l []
    (by simp) ?_
  intro acc w hw hP x hx
  by_cases hmem : (w.row, w.col) ∈ acc
  · rw [if_pos hmem] at hx
    exact hP x hx
  · rw [if_neg hmem] at hx
    rcases List.mem_append.mp hx with h | h
    · exact hP x h
    · simp only [List.mem_singleton] at h
      exact ⟨w, hw, h⟩

theorem findStart_mem (m : List ((Int × Int) × StartsEntry α)) (k : Int × Int)
    (e : StartsEntry α) (h : findStart m k = some e) : (k, e) ∈ m := by
  unfold findStart at h
  cases hx : m.find? (fun kv => decide (kv.1 = k)) with
  | none => rw [hx] at h; cases h
  | some kv =>
    rw [hx] at h
    injection h with he
    have hkm := List.mem_of_find?_eq_some hx
    have hkey := List.find?_some hx
    have hk1 : kv.1 = k := of_decide_eq_true hkey
    have : kv = (k, e) := by
      rcases kv with ⟨k1, e1⟩
      simp only at hk1 he
      rw [hk1, he]
    rw [← this]
    exact hkm

theorem startsUpsert_inv (key : α → Int × Int) (dirOf : α → Direction) (w : α)
    (m : List ((Int × Int) × StartsEntry α))
    (hP : ∀ kv ∈ m,
      (∀ v, kv.2.across = some v → key v = kv.1) ∧
      (∀ v, kv.2.down = some v → key v = kv.1) ∧
      (kv.2.across.isSome ∨ kv.2.down.isSome)) :
    ∀ kv ∈ startsUpsert key dirOf w m,
      (∀ v, kv.2.across = some v → key v = kv.1) ∧
      (∀ v, kv.2.down = some v → key v = kv.1) ∧
      (kv.2.across.isSome ∨ kv.2.down.isSome) := by
  induction m with
  | nil =>
    intro kv hkv
    simp only [startsUpsert, List.mem_singleton] at hkv
    subst hkv
    cases hd : dirOf w
    · simp only [hd]
      refine ⟨?_, ?_, ?_⟩
      · intro v hv
        injection hv with hv2
        rw [hv2]
      · intro v hv
        cases hv
      · exact Or.inl rfl
    · simp only [hd]
      refine ⟨?_, ?_, ?_⟩
      · intro v hv
        cases hv
      · intro v hv
        injection hv with hv2
        rw [hv2]
      · exact Or.inr rfl
  | cons hd tl ih =>
    rcases hd with ⟨k, e⟩
    intro kv hkv
    unfold startsUpsert at hkv
    by_cases hk : k = key w
    · rw [if_pos hk] at hkv
      rcases List.mem_cons.mp hkv with hkv1 | hkv1
      · subst hkv1
        have hold := hP (k, e) (by simp)
        cases hd2 : dirOf w
        · simp only [hd2]
          refine ⟨?_, ?_, ?_⟩
          · intro v hv
            injection hv with hv2
            subst hv2
            exact hk.symm
          · intro v hv
            exact hold.2.1 v hv
          · exact Or.inl rfl
        · simp only [hd2]
          refine ⟨?_, ?_, ?_⟩
          · intro v hv
            exact hold.1 v hv
          · intro v hv
            injection hv with hv2
            subst hv2
            exact hk.symm
          · exact Or.inr rfl
      · exact hP kv (by simp [hkv1])
    · rw [if_neg hk] at hkv
      rcases List.mem_cons.mp hkv with hkv1 | hkv1
      · subst hkv1
        exact hP (k, e) (by simp)
      · exact ih (fun kv2 hkv2 => hP kv2 (by simp [hkv2])) kv hkv1

theorem buildStarts_entry_inv (key : α → Int × Int) (dirOf : α → Direction)
    (ws : List α) :
    ∀ kv ∈ buildStarts key dirOf ws,
      (∀ w, kv.2.across = some w → key w = kv.1) ∧
      (∀ w, kv.2.down = some w → key w = kv.1) ∧
      (kv.2.across.isSome ∨ kv.2.down.isSome) := by
  unfold buildStarts
  refine @foldl_invariant _ _
    (fun m : List ((Int × Int) × StartsEntry α) => ∀ kv ∈ m,
      (∀ w, kv.2.across = some w → key w = kv.1) ∧
      (∀ w, kv.2.down = some w → key w = kv.1) ∧
      (kv.2.across.isSome ∨ kv.2.down.isSome)) _ ws [] (by simp) ?_
  intro m w _ hP
  exact startsUpsert_inv key dirOf w m hP

theorem rmLt_trans {a b c : Int × Int} (h1 : rmLt a b) (h2 : rmLt b c) :
    rmLt a c := by
  unfold rmLt at h1 h2 ⊢
  omega

theorem startCells_fold_const (tl : List PlacedWord) (k : Int × Int)
    (hk : ∀ w ∈ tl, ((w.row, w.col) : Int × Int) = k) :
    ∀ acc, k ∈ acc →
      tl.foldl (fun acc w => if (w.row, w.col) ∈ acc then acc
        else acc ++ [(w.row, w.col)]) acc = acc := by
  induction tl with
  | nil => intro acc _; rfl
  | cons a tl2 ih =>
    intro acc hkin
    rw [List.foldl_cons]
    have hka : ((a.row, a.col) : Int × Int) = k := hk a (by simp)
    have hmem : ((a.row, a.col) : Int × Int) ∈ acc := by rw [hka]; exact hkin
    rw [if_pos hmem]
    exact ih (fun w hw => hk w (by simp [hw])) acc hkin

theorem startCells_add (ws nws : List PlacedWord) (k : Int × Int)
    (hne : nws ≠ [])
    (hk : ∀ w ∈ nws, ((w.row, w.col) : Int × Int) = k)
    (hnotin : k ∉ startCells ws) :
    startCells (ws ++ nws) = startCells ws ++ [k] := by
  unfold startCells at hnotin ⊢
  rw [List.foldl_append]
  cases nws with
  | nil => exact absurd rfl hne
  | cons a tl =>
    rw [List.foldl_cons]
    have hka : ((a.row, a.col) : Int × Int) = k := hk a (by simp)
    have hnotin2 : ((a.row, a.col) : Int × Int) ∉
        ws.foldl (fun acc w => if (w.row, w.col) ∈ acc then acc
          else acc ++ [(w.row, w.col)]) [] := by
      rw [hka]; exact hnotin
    rw [if_neg hnotin2, hka]
    exact startCells_fold_const tl k (fun w hw => hk w (by simp [hw])) _ (by simp)

theorem numInv_nil : numInv [] 1 := by
  unfold numInv
  refine ⟨?_, ?_, ?_, ?_, rfl⟩
  · intro w1 h1; cases h1
  · intro w1 h1; cases h1
  · intro w h; cases h
  · intro n h1 h2; omega

theorem numInv_add (ws : List PlacedWord) (num : Nat) (k : Int × Int)
    (nws : List PlacedWord) (hne : nws ≠ [])
    (hk : ∀ w ∈ nws, ((w.row, w.col) : Int × Int) = k ∧ w.clueNumber = num)
    (hlow : ∀ w ∈ ws, rmLt (w.row, w.col) k)
    (hinv : numInv ws num) :
    numInv (ws ++ nws) (num + 1) := by
  unfold numInv at hinv
  obtain ⟨hA, hB, hC, hD, hE⟩ := hinv
  have hnotin : k ∉ startCells ws := by
    intro hmem
    obtain ⟨w, hw, hwk⟩ := startCells_sub ws k hmem
    have hlt := hlow w hw
    rw [← hwk] at hlt
    exact rmLt_irrefl k hlt
  unfold numInv
  refine ⟨?_, ?_, ?_, ?_, ?_⟩
  · intro w1 h1 w2 h2 hr hc
    rcases List.mem_append.mp h1 with h1 | h1 <;>
      rcases List.mem_append.mp h2 with h2 | h2
    · exact hA w1 h1 w2 h2 hr hc
    · exfalso
      have hck : ((w1.row, w1.col) : Int × Int) = k := by
        rw [hr, hc]; exact (hk w2 h2).1
      have hlt := hlow w1 h1
      rw [hck] at hlt
      exact rmLt_irrefl k hlt
    · exfalso
      have hck : ((w2.row, w2.col) : Int × Int) = k := by
        rw [← hr, ← hc]; exact (hk w1 h1).1
      have hlt := hlow w2 h2
      rw [hck] at hlt
      exact rmLt_irrefl k hlt
    · rw [(hk w1 h1).2, (hk w2 h2).2]
  · intro w1 h1 w2 h2 hlt
    rcases List.mem_append.mp h1 with h1 | h1 <;>
      rcases List.mem_append.mp h2 with h2 | h2
    · exact hB w1 h1 w2 h2 hlt
    · rw [(hk w2 h2).2]
      exact (hC w1 h1).2
    · exfalso
      have hlt2 := hlow w2 h2
      rw [(hk w1 h1).1] at hlt
      exact rmLt_asymm hlt hlt2
    · exfalso
      rw [(hk w1 h1).1, (hk w2 h2).1] at hlt
      exact rmLt_irrefl k hlt
  · intro w hw
    rcases List.mem_append.mp hw with h | h
    · have hx := hC w h
      omega
    · rw [(hk w h).2]
      omega
  · intro n h1 h2
    by_cases hn : n < num
    · obtain ⟨w, hw, hwn⟩ := hD n h1 hn
      exact ⟨w, List.mem_append_left _ hw, hwn⟩
    · have hn2 : n = num := by omega
      cases nws with
      | nil => exact absurd rfl hne
      | cons a tl =>
        refine ⟨a, List.mem_append_right _ (by simp), ?_⟩
        rw [(hk a (by simp)).2, hn2]
  · rw [startCells_add ws nws k hne (fun w hw => (hk w hw).1) hnotin]
    rw [List.length_append]
    simp only [List.length_singleton]
    omega

theorem numberStep_inv {α : Type} (mk : α → Int × Int → Nat → PlacedWord)
    (m : List ((Int × Int) × StartsEntry α))
    (hmk : ∀ k e, findStart m k = some e → ∀ w num,
      (e.across = some w ∨ e.down = some w) →
      (((mk w k num).row, (mk w k num).col) : Int × Int) = k ∧
        (mk w k num).clueNumber = num)
    (hsome : ∀ k e, findStart m k = some e →
      e.across.isSome = true ∨ e.down.isSome = true)
    (rc : Nat × Nat) (ws : List PlacedWord) (num : Nat)
    (hlow : ∀ w ∈ ws, rmLt (w.row, w.col) ((rc.1 : Int), (rc.2 : Int)))
    (hinv : numInv ws num) :
    numInv (numberStep mk m (ws, num) rc).1 (numberStep mk m (ws, num) rc).2 ∧
    ∀ w ∈ (numberStep mk m (ws, num) rc).1,
      rmLt (w.row, w.col) ((rc.1 : Int), (rc.2 : Int)) ∨
      ((w.row, w.col) : Int × Int) = ((rc.1 : Int), (rc.2 : Int)) := by
  unfold numberStep
  cases hf : findStart m ((rc.1 : Int), (rc.2 : Int)) with
  | none =>
    exact ⟨hinv, fun w hw => Or.inl (hlow w hw)⟩
  | some e =>
    have hent := hmk _ e hf
    have hs := hsome _ e hf
    cases ha : e.across with
    | none =>
      cases hd : e.down with
      | none =>
        rw [ha, hd] at hs
        simp at hs
      | some wd =>
        simp only [ha, hd]
        have hw1 := hent wd num (Or.inr hd)
        refine ⟨?_, ?_⟩
        · show numInv (ws ++ [mk wd ((rc.1 : Int), (rc.2 : Int)) num]) (num + 1)
          refine numInv_add ws num ((rc.1 : Int), (rc.2 : Int)) _ (by simp) ?_ hlow hinv
          intro w hw
          simp only [List.mem_singleton] at hw
          subst hw
          exact hw1
        · intro w hw
          rcases List.mem_append.mp hw with h | h
          · exact Or.inl (hlow w h)
          · simp only [List.mem_singleton] at h
            subst h
            exact Or.inr hw1.1
    | some wa =>
      have hw1 := hent wa num (Or.inl ha)
      cases hd : e.down with
      | none =>
        simp only [ha, hd]
        refine ⟨?_, ?_⟩
        · show numInv (ws ++ [mk wa ((rc.1 : Int), (rc.2 : Int)) num]) (num + 1)
          refine numInv_add ws num ((rc.1 : Int), (rc.2 : Int)) _ (by simp) ?_ hlow hinv
          intro w hw
          simp only [List.mem_singleton] at hw
          subst hw
          exact hw1
        · intro w hw
          rcases List.mem_append.mp hw with h | h
          · exact Or.inl (hlow w h)
          · simp only [List.mem_singleton] at h
            subst h
            exact Or.inr hw1.1
      | some wd =>
        simp only [ha, hd]
        have hw2 := hent wd num (Or.inr hd)
        refine ⟨?_, ?_⟩
        · show numInv ((ws ++ [mk wa ((rc.1 : Int), (rc.2 : Int)) num]) ++
            [mk wd ((rc.1 : Int), (rc.2 : Int)) num]) (num + 1)
          rw [List.append_assoc]
          refine numInv_add ws num ((rc.1 : Int), (rc.2 : Int)) _ (by simp) ?_ hlow hinv
          intro w hw
          rcases List.mem_append.mp hw with h | h
          · simp only [List.mem_singleton] at h
            subst h
            exact hw1
          · simp only [List.mem_singleton] at h
            subst h
            exact hw2
        · intro w hw
          show rmLt (w.row, w.col) ((rc.1 : Int), (rc.2 : Int)) ∨
            ((w.row, w.col) : Int × Int) = ((rc.1 : Int), (rc.2 : Int))
          have hw3 : w ∈ (ws ++ [mk wa ((rc.1 : Int), (rc.2 : Int)) num]) ++
              [mk wd ((rc.1 : Int), (rc.2 : Int)) num] := hw
          rcases List.mem_append.mp hw3 with h | h
          · rcases List.mem_append.mp h with h2 | h2
            · exact Or.inl (hlow w h2)
            · simp only [List.mem_singleton] at h2
              subst h2
              exact Or.inr hw1.1
          · simp only [List.mem_singleton] at h
            subst h
            exact Or.inr hw2.1

theorem scanFold_inv {α : Type} (mk : α → Int × Int → Nat → PlacedWord)
    (m : List ((Int × Int) × StartsEntry α))
    (hmk : ∀ k e, findStart m k = some e → ∀ w num,
      (e.across = some w ∨ e.down = some w) →
      (((mk w k num).row, (mk w k num).col) : Int × Int) = k ∧
        (mk w k num).clueNumber = num)
    (hsome : ∀ k e, findStart m k = some e →
      e.across.isSome = true ∨ e.down.isSome = true)
    (cs : List (Nat × Nat)) :
    List.Pairwise (fun a b : Nat × Nat =>
      rmLt ((a.1 : Int), (a.2 : Int)) ((b.1 : Int), (b.2 : Int))) cs →
    ∀ ws num,
      (∀ w ∈ ws, ∀ c ∈ cs, rmLt (w.row, w.col) ((c.1 : Int), (c.2 : Int))) →
      numInv ws num →
      numInv (cs.foldl (numberStep mk m) (ws, num)).1
        (cs.foldl (numberStep mk m) (ws, num)).2 := by
  induction cs with
  | nil =>
    intro _ ws num _ hinv
    exact hinv
  | cons a tl ih =>
    intro hpair ws num hlow hinv
    rw [List.foldl_cons]
    have hpa := List.pairwise_cons.mp hpair
    have hstep := numberStep_inv mk m hmk hsome a ws num
      (fun w hw => hlow w hw a (by simp)) hinv
    have hlow2 : ∀ w ∈ (numberStep mk m (ws, num) a).1, ∀ c ∈ tl,
        rmLt (w.row, w.col) ((c.1 : Int), (c.2 : Int)) := by
      intro w hw c hc
      rcases hstep.2 w hw with h | h
      · exact rmLt_trans h (hpa.1 c hc)
      · rw [h]
        exact hpa.1 c hc
    exact ih hpa.2 (numberStep mk m (ws, num) a).1
      (numberStep mk m (ws, num) a).2 hlow2 hstep.1

theorem rmCells_pairwise (width height : Nat) :
    List.Pairwise (fun a b : Nat × Nat =>
      rmLt ((a.1 : Int), (a.2 : Int)) ((b.1 : Int), (b.2 : Int)))
      (rmCells width height) := by
  unfold rmCells
  rw [List.pairwise_flatten]
  constructor
  · intro l hl
    simp only [List.mem_map] at hl
    obtain ⟨r, _, rfl⟩ := hl
    rw [List.pairwise_map]
    refine List.Pairwise.imp ?_ (List.pairwise_lt_range width)
    intro c1 c2 hlt
    right
    refine ⟨rfl, ?_⟩
    show (c1 : Int) < (c2 : Int)
    exact_mod_cast hlt
  · rw [List.pairwise_map]
    refine List.Pairwise.imp ?_ (List.pairwise_lt_range height)
    intro r1 r2 hlt x hx y hy
    simp only [List.mem_map] at hx hy
    obtain ⟨c1, _, rfl⟩ := hx
    obtain ⟨c2, _, rfl⟩ := hy
    left
    show (r1 : Int) < (r2 : Int)
    exact_mod_cast hlt

theorem numInv_clueNumberingOk (ws : List PlacedWord) (num : Nat)
    (h : numInv ws num) : clueNumberingOk ws := by
  unfold numInv at h
  obtain ⟨hA, hB, hC, hD, hE⟩ := h
  unfold clueNumberingOk
  refine ⟨hA, hB, ?_, ?_⟩
  · intro w hw
    have hx := hC w hw
    omega
  · intro n hn
    exact hD (n + 1) (by omega) (by omega)

theorem scanNumbers_ok {α : Type} (mk : α → Int × Int → Nat → PlacedWord)
    (m : List ((Int × Int) × StartsEntry α)) (width height : Nat)
    (hmk : ∀ k e, findStart m k = some e → ∀ w num,
      (e.across = some w ∨ e.down = some w) →
      (((mk w k num).row, (mk w k num).col) : Int × Int) = k ∧
        (mk w k num).clueNumber = num)
    (hsome : ∀ k e, findStart m k = some e →
      e.across.isSome = true ∨ e.down.isSome = true) :
    clueNumberingOk (scanNumbers mk m width height) := by
  unfold scanNumbers
  exact numInv_clueNumberingOk _
    ((rmCells width height).foldl (numberStep mk m) ([], 1)).2
    (scanFold_inv mk m hmk hsome (rmCells width height)
      (rmCells_pairwise width height) [] 1
      (fun w hw => absurd hw (List.not_mem_nil w)) numInv_nil)

theorem assignClueNumbers_ok (words : List GridWord) (width height : Nat) :
    clueNumberingOk (assignClueNumbers words width height) := by
  show clueNumberingOk (scanNumbers
    (fun w _cell num => ⟨w.word, w.definition, w.row, w.col, w.direction, num⟩)
    (buildStarts (fun (w : GridWord) => (w.row, w.col)) (fun w => w.direction) words)
    width height)
  refine scanNumbers_ok _ _ width height ?_ ?_
  · intro k e hf w num hor
    have hinv := buildStarts_entry_inv (fun (w : GridWord) => (w.row, w.col))
      (fun w => w.direction) words (k, e) (findStart_mem _ _ _ hf)
    refine ⟨?_, rfl⟩
    rcases hor with h | h
    · exact hinv.1 w h
    · exact hinv.2.1 w h
  · intro k e hf
    have hinv := buildStarts_entry_inv (fun (w : GridWord) => (w.row, w.col))
      (fun w => w.direction) words (k, e) (findStart_mem _ _ _ hf)
    exact hinv.2.2

theorem assembleResult_numbering (template : FGrid) (width height : Nat)
    (slots : List Slot) (assignments : List (Option Wd)) (play : Play) :
    clueNumberingOk
      (assembleResult template width height slots assignments play).words := by
  show clueNumberingOk (scanNumbers
    (fun p cell num => ⟨p.word, [], cell.1, cell.2, p.direction, num⟩)
    (buildStarts (fun (p : PlacedSlot) => ((p.row : Int), (p.col : Int)))
      (fun p => p.direction) (assembleWrite template slots assignments).2)
    width height)
  refine scanNumbers_ok _ _ width height ?_ ?_
  · intro k e _ w num _
    exact ⟨rfl, rfl⟩
  · intro k e hf
    exact (buildStarts_entry_inv
      (fun (p : PlacedSlot) => ((p.row : Int), (p.col : Int)))
      (fun p => p.direction) (assembleWrite template slots assignments).2
      (k, e) (findStart_mem _ _ _ hf)).2.2

/-- C7: in every result of either engine — the classic assembly `finalize`
and the fill-in assembly `assembleResult` — clue numbers form the
contiguous sequence `1, 2, ...` assigned in strictly increasing row-major
order of the start cells, and a cell starting both an across and a down
word carries one shared number for both. -/
theorem c7_clue_numbering (g : CGrid) (gridSize : Nat) (placed : List GridWord)
    (play : Play) (template : FGrid) (width height : Nat) (slots : List Slot)
    (assignments : List (Option Wd)) (play2 : Play) :
    clueNumberingOk (finalize g gridSize placed play).words ∧
    clueNumberingOk
      (assembleResult template width height slots assignments play2).words := by
  constructor
  · exact assignClueNumbers_ok _ _ _
  · exact assembleResult_numbering template width height slots assignments play2

theorem startsUpsert_words {α : Type} (key : α → Int × Int) (dirOf : α → Direction)
    (w : α) (m : List ((Int × Int) × StartsEntry α)) (S : α → Prop) (hw : S w)
    (hm : ∀ kv ∈ m, ∀ v, (kv.2.across = some v ∨ kv.2.down = some v) → S v) :
    ∀ kv ∈ startsUpsert key dirOf w m, ∀ v,
      (kv.2.across = some v ∨ kv.2.down = some v) → S v := by
  induction m with
  | nil =>
    intro kv hkv v hv
    simp only [startsUpsert, List.mem_singleton] at hkv
    subst hkv
    cases hd : dirOf w <;> simp only [hd] at hv <;> rcases hv with hv | hv <;>
      first
      | (injection hv with hv2; subst hv2; exact hw)
      | cases hv
  | cons hd tl ih =>
    rcases hd with ⟨k, e⟩
    intro kv hkv v hv
    unfold startsUpsert at hkv
    by_cases hk : k = key w
    · rw [if_pos hk] at hkv
      rcases List.mem_cons.mp hkv with hkv1 | hkv1
      · subst hkv1
        have hold := hm (k, e) (by simp)
        cases hd2 : dirOf w <;> simp only [hd2] at hv <;> rcases hv with hv | hv
        · injection hv with hv2; subst hv2; exact hw
        · exact hold v (Or.inr hv)
        · exact hold v (Or.inl hv)
        · injection hv with hv2; subst hv2; exact hw
      · exact hm kv (by simp [hkv1]) v hv
    · rw [if_neg hk] at hkv
      rcases List.mem_cons.mp hkv with hkv1 | hkv1
      · subst hkv1
        exact hm (k, e) (by simp) v hv
      · exact ih (fun kv2 hkv2 => hm kv2 (by simp [hkv2])) kv hkv1 v hv

theorem buildStarts_words {α : Type} (key : α → Int × Int) (dirOf : α → Direction)
    (ws : List α) :
    ∀ kv ∈ buildStarts key dirOf ws, ∀ v,
      (kv.2.across = some v ∨ kv.2.down = some v) → v ∈ ws := by
  unfold buildStarts
  refine @foldl_invariant _ _
    (fun m : List ((Int × Int) × StartsEntry α) => ∀ kv ∈ m, ∀ v,
      (kv.2.across = some v ∨ kv.2.down = some v) → v ∈ ws) _ ws [] (by simp) ?_
  intro m w hwmem hP
  exact startsUpsert_words key dirOf w m (· ∈ ws) hwmem hP

theorem numberStep_words {α : Type} (mk : α → Int × Int → Nat → PlacedWord)
    (m : List ((Int × Int) × StartsEntry α)) (st : List PlacedWord × Nat)
    (rc : Nat × Nat) :
    ∀ pw ∈ (numberStep mk m st rc).1, pw ∈ st.1 ∨
      ∃ k e w num, (k, e) ∈ m ∧ (e.across = some w ∨ e.down = some w) ∧
        pw = mk w k num := by
  unfold numberStep
  cases hf : findStart m ((rc.1 : Int), (rc.2 : Int)) with
  | none =>
    intro pw hpw
    exact Or.inl hpw
  | some e =>
    have hmem := findStart_mem m _ e hf
    cases ha : e.across with
    | none =>
      cases hd : e.down with
      | none =>
        intro pw hpw
        simp only [ha, hd] at hpw
        exact Or.inl hpw
      | some wd =>
        intro pw hpw
        simp only [ha, hd] at hpw
        rcases List.mem_append.mp hpw with h | h
        · exact Or.inl h
        · simp only [List.mem_singleton] at h
          exact Or.inr ⟨_, e, wd, st.2, hmem, Or.inr hd, h⟩
    | some wa =>
      cases hd : e.down with
      | none =>
        intro pw hpw
        simp only [ha, hd] at hpw
        rcases List.mem_append.mp hpw with h | h
        · exact Or.inl h
        · simp only [List.mem_singleton] at h
          exact Or.inr ⟨_, e, wa, st.2, hmem, Or.inl ha, h⟩
      | some wd =>
        intro pw hpw
        simp only [ha, hd] at hpw
        rcases List.mem_append.mp hpw with h | h
        · rcases List.mem_append.mp h with h2 | h2
          · exact Or.inl h2
          · simp only [List.mem_singleton] at h2
            exact Or.inr ⟨_, e, wa, st.2, hmem, Or.inl ha, h2⟩
        · simp only [List.mem_singleton] at h
          exact Or.inr ⟨_, e, wd, st.2, hmem, Or.inr hd, h⟩

theorem scanNumbers_words {α : Type} (mk : α → Int × Int → Nat → PlacedWord)
    (m : List ((Int × Int) × StartsEntry α)) (width height : Nat) :
    ∀ pw ∈ scanNumbers mk m width height,
      ∃ k e w num, (k, e) ∈ m ∧ (e.across = some w ∨ e.down = some w) ∧
        pw = mk w k num := by
  unfold scanNumbers
  have h := @foldl_invariant _ _
    (fun st : List PlacedWord × Nat => ∀ pw ∈ st.1,
      ∃ k e w num, (k, e) ∈ m ∧ (e.across = some w ∨ e.down = some w) ∧
        pw = mk w k num)
    (numberStep mk m) (rmCells width height) ([], 1) (by simp) ?_
  · exact h
  · intro st rc _ hP pw hpw
    rcases numberStep_words mk m st rc pw hpw with h | h
    · exact hP pw h
    · exact h

theorem mem_rmCells (width height : Nat) (p : Nat × Nat) :
    p ∈ rmCells width height ↔ p.1 < height ∧ p.2 < width := by
  unfold rmCells
  rw [List.mem_flatten]
  constructor
  · rintro ⟨l, hl, hp⟩
    simp only [List.mem_map] at hl
    obtain ⟨r, hr, rfl⟩ := hl
    simp only [List.mem_map] at hp
    obtain ⟨c, hc, rfl⟩ := hp
    simp only [List.mem_range] at hr hc
    exact ⟨hr, hc⟩
  · rintro ⟨h1, h2⟩
    refine ⟨(List.range width).map (fun c => (p.1, c)), ?_, ?_⟩
    · simp only [List.mem_map]
      exact ⟨p.1, by simp [h1], rfl⟩
    · simp only [List.mem_map]
      exact ⟨p.2, by simp [h2], rfl⟩

theorem bboxFold_bounds (g : CGrid) (size : Nat) (r c : Nat)
    (hr : r < size) (hc : c < size)
    (hs : (g (r : Int) (c : Int)).isSome = true) :
    ((rmCells size size).foldl (bboxStep g) (size, 0, size, 0)).1 ≤ r ∧
    r ≤ ((rmCells size size).foldl (bboxStep g) (size, 0, size, 0)).2.1 ∧
    ((rmCells size size).foldl (bboxStep g) (size, 0, size, 0)).2.2.1 ≤ c ∧
    c ≤ ((rmCells size size).foldl (bboxStep g) (size, 0, size, 0)).2.2.2 := by
  have hm : ((r, c) : Nat × Nat) ∈ rmCells size size :=
    (mem_rmCells size size (r, c)).mpr ⟨hr, hc⟩
  obtain ⟨l1, l2, hsplit⟩ := List.append_of_mem hm
  rw [hsplit, List.foldl_append, List.foldl_cons]
  have hstep : ∀ a : Nat × Nat × Nat × Nat,
      (bboxStep g a (r, c)).1 ≤ r ∧ r ≤ (bboxStep g a (r, c)).2.1 ∧
      (bboxStep g a (r, c)).2.2.1 ≤ c ∧ c ≤ (bboxStep g a (r, c)).2.2.2 := by
    intro a
    unfold bboxStep
    rw [if_pos hs]
    exact ⟨Nat.min_le_right _ _, Nat.le_max_right _ _,
      Nat.min_le_right _ _, Nat.le_max_right _ _⟩
  refine @foldl_invariant _ _
    (fun a : Nat × Nat × Nat × Nat =>
      a.1 ≤ r ∧ r ≤ a.2.1 ∧ a.2.2.1 ≤ c ∧ c ≤ a.2.2.2)
    (bboxStep g) l2 _ (hstep _) ?_
  intro a rc2 _ hP
  unfold bboxStep
  by_cases h2 : (g (rc2.1 : Int) (rc2.2 : Int)).isSome = true
  · rw [if_pos h2]
    refine ⟨Nat.le_trans (Nat.min_le_left _ _) hP.1,
      Nat.le_trans hP.2.1 (Nat.le_max_left _ _),
      Nat.le_trans (Nat.min_le_left _ _) hP.2.2.1,
      Nat.le_trans hP.2.2.2 (Nat.le_max_left _ _)⟩
  · rw [if_neg h2]
    exact hP

theorem bbox_bounds (g : CGrid) (size : Nat) (r c : Nat)
    (hr : r < size) (hc : c < size)
    (hs : (g (r : Int) (c : Int)).isSome = true) :
    (getBoundingBox g size).minRow ≤ r ∧ r ≤ (getBoundingBox g size).maxRow ∧
    (getBoundingBox g size).minCol ≤ c ∧ c ≤ (getBoundingBox g size).maxCol ∧
    (getBoundingBox g size).width =
      (getBoundingBox g size).maxCol - (getBoundingBox g size).minCol + 1 ∧
    (getBoundingBox g size).height =
      (getBoundingBox g size).maxRow - (getBoundingBox g size).minRow + 1 := by
  have hf := bboxFold_bounds g size r c hr hc hs
  unfold getBoundingBox
  have hne : ¬ ((rmCells size size).foldl (bboxStep g) (size, 0, size, 0)).2.1 <
      ((rmCells size size).foldl (bboxStep g) (size, 0, size, 0)).1 := by
    omega
  rw [if_neg hne]
  exact ⟨hf.1, hf.2.1, hf.2.2.1, hf.2.2.2, rfl, rfl⟩

theorem trimGrid_spec (g : CGrid) (size : Nat) (r c : Nat)
    (hr : r < size) (hc : c < size)
    (hs : (g (r : Int) (c : Int)).isSome = true) :
    (trimGrid g size).offsetRow = (getBoundingBox g size).minRow ∧
    (trimGrid g size).offsetCol = (getBoundingBox g size).minCol ∧
    (trimGrid g size).trimmedGrid.length = (getBoundingBox g size).height ∧
    ((trimGrid g size).trimmedGrid.headD []).length = (getBoundingBox g size).width ∧
    (getBoundingBox g size).minRow ≤ r ∧
    r < (getBoundingBox g size).minRow + (getBoundingBox g size).height ∧
    (getBoundingBox g size).minCol ≤ c ∧
    c < (getBoundingBox g size).minCol + (getBoundingBox g size).width ∧
    ((trimGrid g size).trimmedGrid.getD (r - (getBoundingBox g size).minRow) []).getD
      (c - (getBoundingBox g size).minCol) none = g (r : Int) (c : Int) := by
  have hb := bbox_bounds g size r c hr hc hs
  have hw0 : ¬ (getBoundingBox g size).width = 0 := by omega
  have htrim : trimGrid g size =
      ⟨(List.range (getBoundingBox g size).height).map (fun dr =>
        (List.range (getBoundingBox g size).width).map (fun dc =>
          g (((getBoundingBox g size).minRow + dr : Nat) : Int)
            (((getBoundingBox g size).minCol + dc : Nat) : Int))),
      (getBoundingBox g size).minRow, (getBoundingBox g size).minCol⟩ := by
    simp only [trimGrid]
    rw [if_neg hw0]
  refine ⟨?_, ?_, ?_, ?_, by omega, by omega, by omega, by omega, ?_⟩
  · simp [htrim]
  · simp [htrim]
  · simp [htrim]
  · obtain ⟨n, hn⟩ : ∃ n, (getBoundingBox g size).height = n + 1 :=
      ⟨(getBoundingBox g size).height - 1, by omega⟩
    simp [htrim, hn, List.range_succ_eq_map]
  · simp only [htrim]
    rw [getD_map_range, if_pos (by omega : r - (getBoundingBox g size).minRow <
      (getBoundingBox g size).height)]
    rw [getD_map_range, if_pos (by omega : c - (getBoundingBox g size).minCol <
      (getBoundingBox g size).width)]
    have h1 : (getBoundingBox g size).minRow + (r - (getBoundingBox g size).minRow) = r := by
      omega
    have h2 : (getBoundingBox g size).minCol + (c - (getBoundingBox g size).minCol) = c := by
      omega
    rw [h1, h2]

theorem cellOf_shift (row col a b : Int) (d : Direction) (i : Nat) :
    cellOf (row - a) (col - b) d i =
      ((cellOf row col d i).1 - a, (cellOf row col d i).2 - b) := by
  cases d <;> simp [cellOf, Prod.ext_iff] <;> omega

theorem finalize_consistent (g : CGrid) (gridSize : Nat) (placed : List GridWord)
    (play : Play) (hplaced : ∀ w ∈ placed, wordOnGrid g gridSize w) :
    resultConsistent (finalize g gridSize placed play) := by
  intro pw hpw i hi
  have hpw2 : pw ∈ scanNumbers
      (fun (w : GridWord) _cell num =>
        (⟨w.word, w.definition, w.row, w.col, w.direction, num⟩ : PlacedWord))
      (buildStarts (fun (w : GridWord) => (w.row, w.col)) (fun w => w.direction)
        (placed.map (fun w => { w with
          row := w.row - ((trimGrid g gridSize).offsetRow : Int),
          col := w.col - ((trimGrid g gridSize).offsetCol : Int) })))
      ((trimGrid g gridSize).trimmedGrid.headD []).length
      (trimGrid g gridSize).trimmedGrid.length := hpw
  obtain ⟨k, e, w, num, hkv, hor, hpweq⟩ := scanNumbers_words _ _ _ _ pw hpw2
  have hw := buildStarts_words _ _ _ (k, e) hkv w hor
  obtain ⟨w0, hw0, hfw⟩ := List.mem_map.mp hw
  subst hfw
  subst hpweq
  have hi2 : i < w0.word.length := hi
  obtain ⟨h0r, hltr, h0c, hltc, hg⟩ := hplaced w0 hw0 i hi2
  have hrlt : (cellOf w0.row w0.col w0.direction i).1.toNat < gridSize := by omega
  have hclt : (cellOf w0.row w0.col w0.direction i).2.toNat < gridSize := by omega
  have hsome : (g ((cellOf w0.row w0.col w0.direction i).1.toNat : Int)
      ((cellOf w0.row w0.col w0.direction i).2.toNat : Int)).isSome = true := by
    rw [Int.toNat_of_nonneg h0r, Int.toNat_of_nonneg h0c, hg]
    rfl
  obtain ⟨hOR, hOC, hH, hW, h5, h6, h7, h8, hgetD⟩ :=
    trimGrid_spec g gridSize _ _ hrlt hclt hsome
  refine ⟨?_, ?_, ?_, ?_, ?_⟩
  · show 0 ≤ (cellOf (w0.row - ((trimGrid g gridSize).offsetRow : Int))
      (w0.col - ((trimGrid g gridSize).offsetCol : Int)) w0.direction i).1
    rw [cellOf_shift]
    show 0 ≤ (cellOf w0.row w0.col w0.direction i).1 -
      ((trimGrid g gridSize).offsetRow : Int)
    rw [hOR]
    omega
  · show (cellOf (w0.row - ((trimGrid g gridSize).offsetRow : Int))
      (w0.col - ((trimGrid g gridSize).offsetCol : Int)) w0.direction i).1 <
      ((trimGrid g gridSize).trimmedGrid.length : Int)
    rw [cellOf_shift]
    show (cellOf w0.row w0.col w0.direction i).1 -
      ((trimGrid g gridSize).offsetRow : Int) <
      ((trimGrid g gridSize).trimmedGrid.length : Int)
    rw [hOR, hH]
    omega
  · show 0 ≤ (cellOf (w0.row - ((trimGrid g gridSize).offsetRow : Int))
      (w0.col - ((trimGrid g gridSize).offsetCol : Int)) w0.direction i).2
    rw [cellOf_shift]
    show 0 ≤ (cellOf w0.row w0.col w0.direction i).2 -
      ((trimGrid g gridSize).offsetCol : Int)
    rw [hOC]
    omega
  · show (cellOf (w0.row - ((trimGrid g gridSize).offsetRow : Int))
      (w0.col - ((trimGrid g gridSize).offsetCol : Int)) w0.direction i).2 <
      (((trimGrid g gridSize).trimmedGrid.headD []).length : Int)
    rw [cellOf_shift]
    show (cellOf w0.row w0.col w0.direction i).2 -
      ((trimGrid g gridSize).offsetCol : Int) <
      (((trimGrid g gridSize).trimmedGrid.headD []).length : Int)
    rw [hOC, hW]
    omega
  · show ((trimGrid g gridSize).trimmedGrid.getD
      (cellOf (w0.row - ((trimGrid g gridSize).offsetRow : Int))
        (w0.col - ((trimGrid g gridSize).offsetCol : Int)) w0.direction i).1.toNat
      []).getD
      (cellOf (w0.row - ((trimGrid g gridSize).offsetRow : Int))
        (w0.col - ((trimGrid g gridSize).offsetCol : Int)) w0.direction i).2.toNat
      none = some (jsGet w0.word i)
    rw [cellOf_shift]
    show ((trimGrid g gridSize).trimmedGrid.getD
      ((cellOf w0.row w0.col w0.direction i).1 -
        ((trimGrid g gridSize).offsetRow : Int)).toNat []).getD
      ((cellOf w0.row w0.col w0.direction i).2 -
        ((trimGrid g gridSize).offsetCol : Int)).toNat none =
      some (jsGet w0.word i)
    rw [hOR, hOC]
    have hn1 : ((cellOf w0.row w0.col w0.direction i).1 -
        ((getBoundingBox g gridSize).minRow : Int)).toNat =
        (cellOf w0.row w0.col w0.direction i).1.toNat -
        (getBoundingBox g gridSize).minRow := by omega
    have hn2 : ((cellOf w0.row w0.col w0.direction i).2 -
        ((getBoundingBox g gridSize).minCol : Int)).toNat =
        (cellOf w0.row w0.col w0.direction i).2.toNat -
        (getBoundingBox g gridSize).minCol := by omega
    rw [hn1, hn2, hgetD, Int.toNat_of_nonneg h0r, Int.toNat_of_nonneg h0c]
    exact hg

theorem slotCell_inj (s : Slot) (j1 j2 : Nat) (h : slotCell s j1 = slotCell s j2) :
    j1 = j2 := by
  unfold slotCell at h
  cases hd : s.direction <;> simp [hd, Prod.ext_iff] at h <;> omega

theorem asetCell_same (g : Nat → Nat → ACell) (r c : Nat) (v : ACell) :
    asetCell g r c v r c = v := by
  unfold asetCell
  rw [if_pos ⟨rfl, rfl⟩]

theorem asetCell_other (g : Nat → Nat → ACell) (r c : Nat) (v : ACell) (x y : Nat)
    (h : ¬ (x = r ∧ y = c)) : asetCell g r c v x y = g x y := by
  unfold asetCell
  rw [if_neg h]

theorem writeCellStep_eq (s : Slot) (w : Wd) (g : Nat → Nat → ACell) (j : Nat) :
    writeCellStep s w g j =
      asetCell g (slotCell s j).1 (slotCell s j).2 (ACell.letter (jsGet w j)) := rfl

theorem writeCells_spec (s : Slot) (w : Wd) (g1 : Nat → Nat → ACell) (n : Nat) :
    (∀ j < n, ((List.range n).foldl (writeCellStep s w) g1)
      (slotCell s j).1 (slotCell s j).2 = ACell.letter (jsGet w j)) ∧
    (∀ r c, (∀ j < n, slotCell s j ≠ (r, c)) →
      ((List.range n).foldl (writeCellStep s w) g1) r c = g1 r c) := by
  induction n with
  | zero =>
    exact ⟨fun j hj => absurd hj (Nat.not_lt_zero j), fun r c _ => rfl⟩
  | succ n ih =>
    rw [List.range_succ, List.foldl_append, List.foldl_cons, List.foldl_nil,
      writeCellStep_eq]
    constructor
    · intro j hj
      by_cases h : j < n
      · have hne : ¬ ((slotCell s j).1 = (slotCell s n).1 ∧
            (slotCell s j).2 = (slotCell s n).2) := by
          intro hco
          have hcell : slotCell s j = slotCell s n :=
            Prod.ext_iff.mpr ⟨hco.1, hco.2⟩
          have := slotCell_inj s j n hcell
          omega
        rw [asetCell_other _ _ _ _ _ _ hne]
        exact ih.1 j h
      · have he : j = n := by omega
        subst he
        rw [asetCell_same]
    · intro r c hnc
      have hne : ¬ (r = (slotCell s n).1 ∧ c = (slotCell s n).2) := by
        intro hco
        exact hnc n (Nat.lt_succ_self n) (Prod.ext_iff.mpr ⟨hco.1.symm, hco.2.symm⟩)
      rw [asetCell_other _ _ _ _ _ _ hne]
      exact ih.2 r c (fun j hj => hnc j (Nat.lt_succ_of_lt hj))

theorem assembleWrite_spec (template : FGrid) (slots : List Slot)
    (asg : List (Option Wd)) (hcons : asgConsistent slots asg) :
    ∀ n, n ≤ slots.length →
    (∀ p ∈ ((List.range n).foldl (writeSlotStep slots asg)
        ((fun r c => if template r c then ACell.empty else ACell.black), [])).2,
      ∃ i < n, asg.getD i none = some p.word ∧
        p.row = (slots.getD i default).row ∧ p.col = (slots.getD i default).col ∧
        p.direction = (slots.getD i default).direction) ∧
    (∀ i < n, ∀ w, asg.getD i none = some w →
      ∀ j < (slots.getD i default).length,
        ((List.range n).foldl (writeSlotStep slots asg)
          ((fun r c => if template r c then ACell.empty else ACell.black), [])).1
          (slotCell (slots.getD i default) j).1 (slotCell (slots.getD i default) j).2 =
          ACell.letter (jsGet w j)) ∧
    (∀ r c ch,
      ((List.range n).foldl (writeSlotStep slots asg)
        ((fun r c => if template r c then ACell.empty else ACell.black), [])).1 r c =
        ACell.letter ch →
      ∃ i < n, ∃ w, asg.getD i none = some w ∧
        ∃ j < (slots.getD i default).length,
          slotCell (slots.getD i default) j = (r, c) ∧ ch = jsGet w j) := by
  intro n
  induction n with
  | zero =>
    intro _
    refine ⟨?_, ?_, ?_⟩
    · intro p hp
      simp at hp
    · intro i hi
      exact absurd hi (Nat.not_lt_zero i)
    · intro r c ch h
      have h2 : (if template r c then ACell.empty else ACell.black) =
          ACell.letter ch := h
      split at h2 <;> simp at h2
  | succ n ih =>
    intro hle
    have hn : n < slots.length := hle
    obtain ⟨ihA, ihB, ihD⟩ := ih (Nat.le_of_succ_le hle)
    rw [List.range_succ, List.foldl_append, List.foldl_cons, List.foldl_nil]
    cases hasg : asg.getD n none with
    | none =>
      simp only [writeSlotStep, hasg]
      refine ⟨?_, ?_, ?_⟩
      · intro p hp
        obtain ⟨i, hi, rest⟩ := ihA p hp
        exact ⟨i, Nat.lt_succ_of_lt hi, rest⟩
      · intro i hi w hw j hj
        by_cases h : i < n
        · exact ihB i h w hw j hj
        · have he : i = n := by omega
          subst he
          rw [hasg] at hw
          cases hw
      · intro r c ch h
        obtain ⟨i, hi, rest⟩ := ihD r c ch h
        exact ⟨i, Nat.lt_succ_of_lt hi, rest⟩
    | some w0 =>
      simp only [writeSlotStep, hasg]
      have hwc := writeCells_spec (slots.getD n default) w0
        (((List.range n).foldl (writeSlotStep slots asg)
          ((fun r c => if template r c then ACell.empty else ACell.black), [])).1)
        (slots.getD n default).length
      refine ⟨?_, ?_, ?_⟩
      · intro p hp
        rcases List.mem_append.mp hp with h | h
        · obtain ⟨i, hi, rest⟩ := ihA p h
          exact ⟨i, Nat.lt_succ_of_lt hi, rest⟩
        · simp only [List.mem_singleton] at h
          subst h
          exact ⟨n, Nat.lt_succ_self n, hasg, rfl, rfl, rfl⟩
      · intro i hi w hw j hj
        by_cases h : i < n
        · by_cases hcov : ∃ j2 < (slots.getD n default).length,
              slotCell (slots.getD n default) j2 = slotCell (slots.getD i default) j
          · obtain ⟨j2, hj2, hceq⟩ := hcov
            rw [← hceq, hwc.1 j2 hj2]
            have hcc := hcons i (Nat.lt_trans h hn) n hn w w0 hw hasg j hj j2 hj2
              hceq.symm
            rw [hcc]
          · push_neg at hcov
            rw [hwc.2 (slotCell (slots.getD i default) j).1
              (slotCell (slots.getD i default) j).2 (fun j2 hj2 => hcov j2 hj2)]
            exact ihB i h w hw j hj
        · have he : i = n := by omega
          subst he
          rw [hasg] at hw
          injection hw with hw2
          subst hw2
          exact hwc.1 j hj
      · intro r c ch hch
        by_cases hcov : ∃ j2 < (slots.getD n default).length,
            slotCell (slots.getD n default) j2 = (r, c)
        · obtain ⟨j2, hj2, hceq⟩ := hcov
          have hval := hwc.1 j2 hj2
          have h3 : ACell.letter ch = ACell.letter (jsGet w0 j2) := by
            rw [hceq] at hval
            exact hch.symm.trans hval
          injection h3 with h4
          exact ⟨n, Nat.lt_succ_self n, w0, hasg, j2, hj2, hceq, h4⟩
        · push_neg at hcov
          rw [hwc.2 r c hcov] at hch
          obtain ⟨i, hi, rest⟩ := ihD r c ch hch
          exact ⟨i, Nat.lt_succ_of_lt hi, rest⟩

theorem getD_mem_of_lt {α : Type} (l : List α) (n : Nat) (d : α)
    (h : n < l.length) : l.getD n d ∈ l := by
  rw [List.getD_eq_getElem l d h]
  exact List.getElem_mem h

theorem assembleResult_grid_letter (template : FGrid) (width height : Nat)
    (slots : List Slot) (asg : List (Option Wd)) (play : Play) (r c : Nat)
    (ch : Char) (hr : r < height) (hc : c < width)
    (hl : (assembleWrite template slots asg).1 r c = ACell.letter ch) :
    (((assembleResult template width height slots asg play).grid.getD r []).getD
      c none) = some ch := by
  simp only [assembleResult]
  rw [getD_map_range, if_pos hr]
  rw [getD_map_range, if_pos hc]
  rw [hl]

theorem assembleResult_consistent (template : FGrid) (width height : Nat)
    (slots : List Slot) (asg : List (Option Wd)) (play : Play)
    (hb : slotsInBounds slots width height)
    (hlen : asgLengthsOk slots asg)
    (hcons : asgConsistent slots asg) :
    resultConsistent (assembleResult template width height slots asg play) := by
  intro pw hpw i hi
  have hpw2 : pw ∈ scanNumbers
      (fun (p : PlacedSlot) cell num =>
        (⟨p.word, [], cell.1, cell.2, p.direction, num⟩ : PlacedWord))
      (buildStarts (fun (p : PlacedSlot) => ((p.row : Int), (p.col : Int)))
        (fun p => p.direction) (assembleWrite template slots asg).2)
      width height := hpw
  obtain ⟨k, e, p, num, hkv, hor, hpweq⟩ := scanNumbers_words _ _ _ _ pw hpw2
  subst hpweq
  have hkey : (((p.row : Int), (p.col : Int)) : Int × Int) = k := by
    have hinv := buildStarts_entry_inv
      (fun (p : PlacedSlot) => ((p.row : Int), (p.col : Int)))
      (fun p => p.direction) (assembleWrite template slots asg).2 (k, e) hkv
    rcases hor with h | h
    · exact hinv.1 p h
    · exact hinv.2.1 p h
  have hp : p ∈ (assembleWrite template slots asg).2 :=
    buildStarts_words _ _ _ (k, e) hkv p hor
  have hspec := assembleWrite_spec template slots asg hcons slots.length le_rfl
  have hp2 : p ∈ ((List.range slots.length).foldl (writeSlotStep slots asg)
      ((fun r c => if template r c then ACell.empty else ACell.black), [])).2 := hp
  obtain ⟨i0, hi0, hasg, hrow, hcol, hdir⟩ := hspec.1 p hp2
  have hwl : p.word.length = (slots.getD i0 default).length :=
    hlen i0 hi0 p.word hasg
  have hi2 : i < (slots.getD i0 default).length := by
    have hx : i < p.word.length := hi
    omega
  have hbnd := hb (slots.getD i0 default)
    (getD_mem_of_lt slots i0 default hi0) i hi2
  have hcell : cellOf k.1 k.2 p.direction i =
      (((slotCell (slots.getD i0 default) i).1 : Int),
       ((slotCell (slots.getD i0 default) i).2 : Int)) := by
    rw [← hkey]
    cases hds : (slots.getD i0 default).direction <;>
      simp [cellOf, slotCell, hrow, hcol, hdir, hds, Prod.ext_iff]
  have hletter : (assembleWrite template slots asg).1
      (slotCell (slots.getD i0 default) i).1
      (slotCell (slots.getD i0 default) i).2 =
      ACell.letter (jsGet p.word i) := hspec.2.1 i0 hi0 p.word hasg i hi2
  refine ⟨?_, ?_, ?_, ?_, ?_⟩
  · show 0 ≤ (cellOf k.1 k.2 p.direction i).1
    rw [hcell]
    show (0 : Int) ≤ ((slotCell (slots.getD i0 default) i).1 : Int)
    exact Int.natCast_nonneg _
  · show (cellOf k.1 k.2 p.direction i).1 < (height : Int)
    rw [hcell]
    show ((slotCell (slots.getD i0 default) i).1 : Int) < (height : Int)
    exact_mod_cast hbnd.1
  · show 0 ≤ (cellOf k.1 k.2 p.direction i).2
    rw [hcell]
    show (0 : Int) ≤ ((slotCell (slots.getD i0 default) i).2 : Int)
    exact Int.natCast_nonneg _
  · show (cellOf k.1 k.2 p.direction i).2 < (width : Int)
    rw [hcell]
    show ((slotCell (slots.getD i0 default) i).2 : Int) < (width : Int)
    exact_mod_cast hbnd.2
  · show ((assembleResult template width height slots asg play).grid.getD
      (cellOf k.1 k.2 p.direction i).1.toNat []).getD
      (cellOf k.1 k.2 p.direction i).2.toNat none = some (jsGet p.word i)
    rw [hcell]
    show ((assembleResult template width height slots asg play).grid.getD
      (slotCell (slots.getD i0 default) i).1 []).getD
      (slotCell (slots.getD i0 default) i).2 none = some (jsGet p.word i)
    exact assembleResult_grid_letter template width height slots asg play _ _ _
      hbnd.1 hbnd.2 hletter

/-- C2: every result of either engine is grid/word consistent — for every
placed word of the result and every offset into it, the covered cell lies
inside `[0,width) × [0,height)` and the grid letter there equals the word's
letter — given that the classic engine's placed words sit on its working
grid and that the fill-in engine's slots are in bounds with a
length-matching, crossing-consistent assignment. -/
theorem c2_grid_word_consistency
    (g : CGrid) (gridSize : Nat) (placed : List GridWord) (play : Play)
    (template : FGrid) (width height : Nat) (slots : List Slot)
    (asg : List (Option Wd)) (play2 : Play)
    (hplaced : ∀ w ∈ placed, wordOnGrid g gridSize w)
    (hb : slotsInBounds slots width height)
    (hlen : asgLengthsOk slots asg)
    (hcons : asgConsistent slots asg) :
    resultConsistent (finalize g gridSize placed play) ∧
    resultConsistent (assembleResult template width height slots asg play2) :=
  ⟨finalize_consistent g gridSize placed play hplaced,
   assembleResult_consistent template width height slots asg play2 hb hlen hcons⟩

theorem c2_witness :
    ((∀ w ∈ [(⟨"CAT".toList, [], 2, 1, Direction.across⟩ : GridWord)],
        wordOnGrid exGrid6 5 w) ∧
     slotsInBounds crossSlots 3 3 ∧
     asgLengthsOk crossSlots [some "CAT".toList, some "BAT".toList] ∧
     asgConsistent crossSlots [some "CAT".toList, some "BAT".toList]) ∧
    (resultConsistent (finalize exGrid6 5
        [⟨"CAT".toList, [], 2, 1, Direction.across⟩] play0) ∧
     resultConsistent (assembleResult crossT 3 3 crossSlots
        [some "CAT".toList, some "BAT".toList] play0)) := by
  have hlenp : asgLengthsOk crossSlots [some "CAT".toList, some "BAT".toList] := by
    have hl : crossSlots.length = 2 := by decide
    intro i hi w hw
    rw [hl] at hi
    interval_cases i <;> (injection hw with h; subst h; decide)
  have hconp : asgConsistent crossSlots [some "CAT".toList, some "BAT".toList] := by
    have hl : crossSlots.length = 2 := by decide
    intro i hi j hj wi wj hwi hwj
    rw [hl] at hi hj
    interval_cases i <;> interval_cases j <;>
      (injection hwi with h1; injection hwj with h2; subst h1; subst h2; decide)
  have hwog : ∀ w ∈ [(⟨"CAT".toList, [], 2, 1, Direction.across⟩ : GridWord)],
      wordOnGrid exGrid6 5 w := by
    unfold wordOnGrid
    decide
  have hbp : slotsInBounds crossSlots 3 3 := by
    unfold slotsInBounds
    decide
  refine ⟨⟨hwog, hbp, hlenp, hconp⟩, ?_⟩
  exact c2_grid_word_consistency exGrid6 5
    [⟨"CAT".toList, [], 2, 1, Direction.across⟩] play0 crossT 3 3 crossSlots
    [some "CAT".toList, some "BAT".toList] play0 hwog hbp hlenp hconp

theorem greedyStep_preserves (slots : List Slot) (wordsByLen : Nat → List Wd)
    (i : Nat) (w : Wd) (acc : List (Option Wd) × List Wd × Bool) (p : Nat × Nat)
    (h : acc.1.getD i none = some w) :
    (greedyStep slots wordsByLen acc p).1.getD i none = some w := by
  unfold greedyStep
  by_cases h1 : (acc.1.getD p.1 none).isSome = true
  · rw [if_pos h1]
    exact h
  · rw [if_neg h1]
    cases hf : findGreedyWord (wordsByLen (slots.getD p.1 default).length) acc.2.1
        (buildPattern (slots.getD p.1 default) acc.1)
        (slots.getD p.1 default).length with
    | none =>
      simp only [hf]
      exact h
    | some word =>
      simp only [hf]
      have hne : i ≠ p.1 := by
        intro he
        rw [← he, h] at h1
        exact h1 rfl
      rw [getD_set_ne _ _ _ _ _ hne]
      exact h

theorem greedyPass_preserves (slots : List Slot) (wordsByLen : Nat → List Wd)
    (result0 : List (Option Wd)) (used0 : List Wd) (i : Nat) (w : Wd)
    (h : result0.getD i none = some w) :
    (greedyPass slots wordsByLen result0 used0).1.getD i none = some w := by
  unfold greedyPass
  refine @foldl_invariant _ _
    (fun acc : List (Option Wd) × List Wd × Bool => acc.1.getD i none = some w)
    (greedyStep slots wordsByLen) _ (result0, used0, false) h ?_
  intro acc p _ hP
  exact greedyStep_preserves slots wordsByLen i w acc p hP

theorem greedyLoop_preserves (slots : List Slot) (wordsByLen : Nat → List Wd)
    (i : Nat) (w : Wd) :
    ∀ fuel result used, result.getD i none = some w →
      (greedyLoop slots wordsByLen fuel result used).getD i none = some w := by
  intro fuel
  induction fuel with
  | zero =>
    intro result used h
    exact h
  | succ fuel ih =>
    intro result used h
    show (if (greedyPass slots wordsByLen result used).2.2 = true then
        greedyLoop slots wordsByLen fuel (greedyPass slots wordsByLen result used).1
          (greedyPass slots wordsByLen result used).2.1
      else (greedyPass slots wordsByLen result used).1).getD i none = some w
    by_cases hb2 : (greedyPass slots wordsByLen result used).2.2 = true
    · rw [if_pos hb2]
      exact ih _ _ (greedyPass_preserves slots wordsByLen result used i w h)
    · rw [if_neg hb2]
      exact greedyPass_preserves slots wordsByLen result used i w h

theorem greedyPatch_preserves (slots : List Slot) (asg : List (Option Wd))
    (wordsByLen : Nat → List Wd) : greedyPreserves slots asg wordsByLen := by
  intro i w h
  exact greedyLoop_preserves slots wordsByLen i w (asg.length + 1) asg _ h

theorem assembleWrite_letter_covered (template : FGrid) (slots : List Slot)
    (asg : List (Option Wd)) :
    ∀ n, ∀ r c ch,
      ((List.range n).foldl (writeSlotStep slots asg)
        ((fun r c => if template r c then ACell.empty else ACell.black), [])).1 r c =
        ACell.letter ch →
      ∃ i < n, ∃ w, asg.getD i none = some w ∧
        ∃ j < (slots.getD i default).length,
          slotCell (slots.getD i default) j = (r, c) ∧ ch = jsGet w j := by
  intro n
  induction n with
  | zero =>
    intro r c ch h
    have h2 : (if template r c then ACell.empty else ACell.black) =
        ACell.letter ch := h
    split at h2 <;> simp at h2
  | succ n ih =>
    intro r c ch hch
    rw [List.range_succ, List.foldl_append, List.foldl_cons, List.foldl_nil] at hch
    cases hasg : asg.getD n none with
    | none =>
      simp only [writeSlotStep, hasg] at hch
      obtain ⟨i, hi, rest⟩ := ih r c ch hch
      exact ⟨i, Nat.lt_succ_of_lt hi, rest⟩
    | some w0 =>
      simp only [writeSlotStep, hasg] at hch
      have hwc := writeCells_spec (slots.getD n default) w0
        (((List.range n).foldl (writeSlotStep slots asg)
          ((fun r c => if template r c then ACell.empty else ACell.black), [])).1)
        (slots.getD n default).length
      by_cases hcov : ∃ j2 < (slots.getD n default).length,
          slotCell (slots.getD n default) j2 = (r, c)
      · obtain ⟨j2, hj2, hceq⟩ := hcov
        have hval := hwc.1 j2 hj2
        rw [hceq] at hval
        have h3 : ACell.letter ch = ACell.letter (jsGet w0 j2) :=
          hch.symm.trans hval
        injection h3 with h4
        exact ⟨n, Nat.lt_succ_self n, w0, hasg, j2, hj2, hceq, h4⟩
      · push_neg at hcov
        rw [hwc.2 r c hcov] at hch
        obtain ⟨i, hi, rest⟩ := ih r c ch hch
        exact ⟨i, Nat.lt_succ_of_lt hi, rest⟩

theorem assembleResult_grid_cell (template : FGrid) (width height : Nat)
    (slots : List Slot) (asg : List (Option Wd)) (play : Play) (r c : Nat)
    (hr : r < height) (hc : c < width) :
    ((assembleResult template width height slots asg play).grid.getD r []).getD
      c none =
      (match (assembleWrite template slots asg).1 r c with
       | ACell.letter ch => some ch
       | _ => none) := by
  simp only [assembleResult]
  rw [getD_map_range, if_pos hr]
  rw [getD_map_range, if_pos hc]

/-- C9: the fill-in assembly never leaves an empty white square — every
cell of an `assembleResult` grid is either black (`null`) or a letter of an
assigned slot word covering that cell, unfilled slots having been converted
to black — and `greedyPatch` is total (a plain function here) and keeps the
word of every slot that is already assigned in its input. -/
theorem c9_no_empty_white (template : FGrid) (width height : Nat)
    (slots : List Slot) (asg : List (Option Wd)) (play : Play)
    (wordsByLen : Nat → List Wd) :
    noEmptyWhite slots asg (assembleResult template width height slots asg play) ∧
    greedyPreserves slots asg wordsByLen := by
  constructor
  · intro r hr c hc
    have hr2 : r < height := hr
    have hc2 : c < width := hc
    have hcv := assembleResult_grid_cell template width height slots asg play
      r c hr2 hc2
    cases hval : (assembleWrite template slots asg).1 r c with
    | black =>
      left
      rw [hcv, hval]
    | empty =>
      left
      rw [hcv, hval]
    | letter ch =>
      right
      obtain ⟨i, hi, w, hasg, j, hj, hcell, hch⟩ :=
        assembleWrite_letter_covered template slots asg slots.length r c ch hval
      refine ⟨i, hi, w, hasg, j, hj, hcell, ?_⟩
      rw [hcv, hval, hch]
  · exact greedyPatch_preserves slots asg wordsByLen

theorem domainsEq_refl (st : SolverState) : domainsEq st st :=
  ⟨rfl, fun _ _ => Iff.rfl⟩

theorem domainsEq_trans {a b c : SolverState} (h1 : domainsEq a b)
    (h2 : domainsEq b c) : domainsEq a c :=
  ⟨h1.1.trans h2.1, fun i w => (h1.2 i w).trans (h2.2 i w)⟩

theorem mem_setAdd (u : List Wd) (w x : Wd) :
    x ∈ setAdd u w ↔ x ∈ u ∨ x = w := by
  unfold setAdd
  by_cases h : w ∈ u
  · rw [if_pos h]
    constructor
    · exact Or.inl
    · rintro (hx | hx)
      · exact hx
      · rw [hx]; exact h
  · rw [if_neg h]
    simp

theorem mem_foldl_setAdd (l : List Wd) :
    ∀ (u : List Wd) (x : Wd), x ∈ l.foldl setAdd u ↔ x ∈ u ∨ x ∈ l := by
  induction l with
  | nil => intro u x; simp
  | cons a tl ih =>
    intro u x
    rw [List.foldl_cons]
    rw [ih (setAdd u a) x, mem_setAdd]
    simp only [List.mem_cons]
    tauto

theorem getD_default_of_ge {γ : Type} (l : List γ) (i : Nat) (d : γ)
    (h : l.length ≤ i) : l.getD i d = d := by
  simp [List.getD, List.getElem?_eq_none h]

theorem getD_lt_of_ne_nil {γ : Type} (l : List (List γ)) (i : Nat)
    (h : l.getD i [] ≠ []) : i < l.length := by
  by_contra hge
  exact h (getD_default_of_ge l i [] (by omega))

theorem restoreDomains_length (pruned : List Pruned) (st : SolverState) :
    (restoreDomains pruned st).domains.length = st.domains.length := by
  unfold restoreDomains
  refine @foldl_invariant _ _
    (fun s : SolverState => s.domains.length = st.domains.length) _ pruned st rfl ?_
  intro s p _ hP
  calc (s.domains.set p.otherSlotIdx
      (p.removed.foldl setAdd (s.domains.getD p.otherSlotIdx []))).length
      = s.domains.length := List.length_set ..
    _ = st.domains.length := hP

theorem restoreDomains_mem (pruned : List Pruned) :
    ∀ (st : SolverState), (∀ p ∈ pruned, p.otherSlotIdx < st.domains.length) →
    ∀ i w, w ∈ (restoreDomains pruned st).domains.getD i [] ↔
      w ∈ st.domains.getD i [] ∨ ∃ p ∈ pruned, p.otherSlotIdx = i ∧ w ∈ p.removed := by
  induction pruned with
  | nil =>
    intro st _ i w
    simp [restoreDomains]
  | cons p rest ih =>
    intro st hb i w
    have hplen : p.otherSlotIdx < st.domains.length := hb p (by simp)
    have hstep : restoreDomains (p :: rest) st = restoreDomains rest
        { st with domains := st.domains.set p.otherSlotIdx (p.removed.foldl setAdd (st.domains.getD p.otherSlotIdx [])) } := by
      unfold restoreDomains
      rw [List.foldl_cons]
    rw [hstep]
    rw [ih _ (fun q hq => by
      have := hb q (by simp [hq])
      calc q.otherSlotIdx < st.domains.length := this
        _ = _ := (List.length_set ..).symm) i w]
    by_cases hi : i = p.otherSlotIdx
    · subst hi
      show w ∈ (st.domains.set p.otherSlotIdx
          (p.removed.foldl setAdd
            (st.domains.getD p.otherSlotIdx []))).getD p.otherSlotIdx [] ∨ _ ↔ _
      rw [getD_set_self _ _ _ _ hplen, mem_foldl_setAdd]
      constructor
      · rintro ((h | h) | h)
        · exact Or.inl h
        · exact Or.inr ⟨p, by simp, rfl, h⟩
        · obtain ⟨q, hq, hqi, hqw⟩ := h
          exact Or.inr ⟨q, by simp [hq], hqi, hqw⟩
      · rintro (h | h)
        · exact Or.inl (Or.inl h)
        · obtain ⟨q, hq, hqi, hqw⟩ := h
          rcases List.mem_cons.mp hq with hq1 | hq1
          · subst hq1
            exact Or.inl (Or.inr hqw)
          · exact Or.inr ⟨q, hq1, hqi, hqw⟩
    · show w ∈ (st.domains.set p.otherSlotIdx
          (p.removed.foldl setAdd (st.domains.getD p.otherSlotIdx []))).getD i [] ∨ _ ↔ _
      rw [getD_set_ne _ _ _ _ _ hi]
      constructor
      · rintro (h | h)
        · exact Or.inl h
        · obtain ⟨q, hq, hqi, hqw⟩ := h
          exact Or.inr ⟨q, by simp [hq], hqi, hqw⟩
      · rintro (h | h)
        · exact Or.inl h
        · obtain ⟨q, hq, hqi, hqw⟩ := h
          rcases List.mem_cons.mp hq with hq1 | hq1
          · subst hq1
            exact absurd hqi.symm hi
          · exact Or.inr ⟨q, hq1, hqi, hqw⟩

theorem fcStep_spec (word : Wd) (st : SolverState)
    (acc : List Pruned × SolverState) (cr : Crossing)
    (hPa : acc.2.assignments = st.assignments)
    (hPl : acc.2.domains.length = st.domains.length)
    (hPb : ∀ p ∈ acc.1, p.otherSlotIdx < st.domains.length)
    (hPm : ∀ i w2, w2 ∈ st.domains.getD i [] ↔
      w2 ∈ acc.2.domains.getD i [] ∨
      ∃ p ∈ acc.1, p.otherSlotIdx = i ∧ w2 ∈ p.removed) :
    (fcStep word acc cr).2.assignments = st.assignments ∧
    (fcStep word acc cr).2.domains.length = st.domains.length ∧
    (∀ p ∈ (fcStep word acc cr).1, p.otherSlotIdx < st.domains.length) ∧
    (∀ i w2, w2 ∈ st.domains.getD i [] ↔
      w2 ∈ (fcStep word acc cr).2.domains.getD i [] ∨
      ∃ p ∈ (fcStep word acc cr).1, p.otherSlotIdx = i ∧ w2 ∈ p.removed) := by
  unfold fcStep
  by_cases ha : (acc.2.assignments.getD cr.otherSlotIdx none).isSome = true
  · rw [if_pos ha]
    exact ⟨hPa, hPl, hPb, hPm⟩
  · rw [if_neg ha]
    simp only []
    have hpart : ∀ w2, w2 ∈ acc.2.domains.getD cr.otherSlotIdx [] ↔
        w2 ∈ (acc.2.domains.getD cr.otherSlotIdx []).filter
          (fun w => decide (jsGet w cr.indexInOtherSlot = jsGet word cr.indexInSlot)) ∨
        w2 ∈ (acc.2.domains.getD cr.otherSlotIdx []).filter
          (fun w => decide (jsGet w cr.indexInOtherSlot ≠ jsGet word cr.indexInSlot)) := by
      intro w2
      by_cases heq : jsGet w2 cr.indexInOtherSlot = jsGet word cr.indexInSlot <;>
        simp [List.mem_filter, heq]
    have hsetmem : ∀ i w2,
        w2 ∈ (acc.2.domains.set cr.otherSlotIdx
          ((acc.2.domains.getD cr.otherSlotIdx []).filter
            (fun w => decide (jsGet w cr.indexInOtherSlot = jsGet word cr.indexInSlot)))).getD
          i [] ↔
        (if i = cr.otherSlotIdx then
          w2 ∈ (acc.2.domains.getD cr.otherSlotIdx []).filter
            (fun w => decide (jsGet w cr.indexInOtherSlot = jsGet word cr.indexInSlot))
        else w2 ∈ acc.2.domains.getD i []) := by
      intro i w2
      by_cases hi : i = cr.otherSlotIdx
      · rw [if_pos hi, hi]
        by_cases hlen : cr.otherSlotIdx < acc.2.domains.length
        · rw [getD_set_self _ _ _ _ hlen]
        · rw [List.set_eq_of_length_le (by omega)]
          rw [getD_default_of_ge _ _ _ (by omega)]
          simp
      · rw [if_neg hi, getD_set_ne _ _ _ _ _ hi]
    by_cases hrem : 0 < ((acc.2.domains.getD cr.otherSlotIdx []).filter
        (fun w => decide (jsGet w cr.indexInOtherSlot ≠ jsGet word cr.indexInSlot))).length
    · rw [if_pos hrem]
      have hin : cr.otherSlotIdx < st.domains.length := by
        rw [← hPl]
        apply getD_lt_of_ne_nil
        intro hnil
        rw [hnil] at hrem
        simp at hrem
      refine ⟨hPa, ?_, ?_, ?_⟩
      · rw [List.length_set]
        exact hPl
      · intro p hp
        rcases List.mem_append.mp hp with h | h
        · exact hPb p h
        · simp only [List.mem_singleton] at h
          subst h
          exact hin
      · intro i w2
        rw [hPm i w2, hsetmem i w2]
        by_cases hi : i = cr.otherSlotIdx
        · subst hi
          rw [if_pos rfl, hpart w2]
          constructor
          · rintro ((h | h) | h)
            · exact Or.inl h
            · exact Or.inr ⟨⟨cr.otherSlotIdx, (acc.2.domains.getD cr.otherSlotIdx []).filter
                (fun w => decide (jsGet w cr.indexInOtherSlot ≠ jsGet word cr.indexInSlot))⟩,
                List.mem_append_right _ (by simp), rfl, h⟩
            · obtain ⟨q, hq, hqi, hqw⟩ := h
              exact Or.inr ⟨q, List.mem_append_left _ hq, hqi, hqw⟩
          · rintro (h | h)
            · exact Or.inl (Or.inl h)
            · obtain ⟨q, hq, hqi, hqw⟩ := h
              rcases List.mem_append.mp hq with hq1 | hq1
              · exact Or.inr ⟨q, hq1, hqi, hqw⟩
              · simp only [List.mem_singleton] at hq1
                subst hq1
                exact Or.inl (Or.inr hqw)
        · rw [if_neg hi]
          constructor
          · rintro (h | h)
            · exact Or.inl h
            · obtain ⟨q, hq, hqi, hqw⟩ := h
              exact Or.inr ⟨q, List.mem_append_left _ hq, hqi, hqw⟩
          · rintro (h | h)
            · exact Or.inl h
            · obtain ⟨q, hq, hqi, hqw⟩ := h
              rcases List.mem_append.mp hq with hq1 | hq1
              · exact Or.inr ⟨q, hq1, hqi, hqw⟩
              · simp only [List.mem_singleton] at hq1
                subst hq1
                exact absurd hqi.symm hi
    · rw [if_neg hrem]
      have hremnil : ((acc.2.domains.getD cr.otherSlotIdx []).filter
          (fun w => decide (jsGet w cr.indexInOtherSlot ≠ jsGet word cr.indexInSlot))) = [] := by
        have hz : ((acc.2.domains.getD cr.otherSlotIdx []).filter
            (fun w => decide (jsGet w cr.indexInOtherSlot ≠ jsGet word cr.indexInSlot))).length
            = 0 := by omega
        exact List.length_eq_zero.mp hz
      refine ⟨hPa, ?_, hPb, ?_⟩
      · rw [List.length_set]
        exact hPl
      · intro i w2
        rw [hPm i w2, hsetmem i w2]
        by_cases hi : i = cr.otherSlotIdx
        · subst hi
          rw [if_pos rfl]
          have hDN : w2 ∈ acc.2.domains.getD cr.otherSlotIdx [] ↔
              w2 ∈ (acc.2.domains.getD cr.otherSlotIdx []).filter
                (fun w => decide (jsGet w cr.indexInOtherSlot = jsGet word cr.indexInSlot)) := by
            rw [hpart w2, hremnil]
            simp
          rw [hDN]
        · rw [if_neg hi]

theorem forwardCheck_spec (slotIdx : Nat) (word : Wd) (slots : List Slot)
    (st : SolverState) :
    (forwardCheck slotIdx word slots st).2.assignments = st.assignments ∧
    (forwardCheck slotIdx word slots st).2.domains.length = st.domains.length ∧
    (∀ p ∈ (forwardCheck slotIdx word slots st).1,
      p.otherSlotIdx < st.domains.length) ∧
    (∀ i w2, w2 ∈ st.domains.getD i [] ↔
      w2 ∈ (forwardCheck slotIdx word slots st).2.domains.getD i [] ∨
      ∃ p ∈ (forwardCheck slotIdx word slots st).1,
        p.otherSlotIdx = i ∧ w2 ∈ p.removed) := by
  unfold forwardCheck
  refine @foldl_invariant _ _
    (fun acc : List Pruned × SolverState =>
      acc.2.assignments = st.assignments ∧
      acc.2.domains.length = st.domains.length ∧
      (∀ p ∈ acc.1, p.otherSlotIdx < st.domains.length) ∧
      (∀ i w2, w2 ∈ st.domains.getD i [] ↔
        w2 ∈ acc.2.domains.getD i [] ∨
        ∃ p ∈ acc.1, p.otherSlotIdx = i ∧ w2 ∈ p.removed))
    (fcStep word) ((slots.getD slotIdx default).crossings) ([], st)
    ⟨rfl, rfl, by simp, fun i w2 => by simp⟩ ?_
  intro acc cr _ hP
  exact fcStep_spec word st acc cr hP.1 hP.2.1 hP.2.2.1 hP.2.2.2

theorem restore_roundtrip (slotIdx : Nat) (word : Wd) (slots : List Slot)
    (st : SolverState) (stAfter : SolverState)
    (hdom : stAfter.domains = (forwardCheck slotIdx word slots st).2.domains) :
    domainsEq (restoreDomains (forwardCheck slotIdx word slots st).1 stAfter) st := by
  obtain ⟨hFa, hFl, hFb, hFm⟩ := forwardCheck_spec slotIdx word slots st
  have hb2 : ∀ p ∈ (forwardCheck slotIdx word slots st).1,
      p.otherSlotIdx < stAfter.domains.length := by
    intro p hp
    rw [hdom, hFl]
    exact hFb p hp
  constructor
  · rw [restoreDomains_length, hdom, hFl]
  · intro i w
    rw [restoreDomains_mem _ stAfter hb2 i w, hdom]
    exact (hFm i w).symm

theorem domainsEq_of_eq {a b : SolverState} (h : a.domains = b.domains) :
    domainsEq a b :=
  ⟨by rw [h], fun i w => by rw [h]⟩

theorem restore_after (slotIdx : Nat) (word : Wd) (slots : List Slot)
    (st : SolverState) (s : SolverState)
    (hs : domainsEq s (forwardCheck slotIdx word slots st).2) :
    domainsEq (restoreDomains (forwardCheck slotIdx word slots st).1 s) st := by
  obtain ⟨hFa, hFl, hFb, hFm⟩ := forwardCheck_spec slotIdx word slots st
  have hb2 : ∀ p ∈ (forwardCheck slotIdx word slots st).1,
      p.otherSlotIdx < s.domains.length := by
    intro p hp
    have h1 := hFb p hp
    have h2 := hs.1
    omega
  constructor
  · rw [restoreDomains_length, hs.1, hFl]
  · intro i w
    rw [restoreDomains_mem _ s hb2 i w, hFm i w, hs.2 i w]

theorem solveLoop_restores (slots : List Slot) (maxB : Nat) (fuel : Nat)
    (hsolve : ∀ st used bt best depth rng,
      (solveF slots maxB fuel st used bt best depth rng).found = false →
      domainsEq (solveF slots maxB fuel st used bt best depth rng).st st) :
    ∀ (words : List Wd) (idx : Nat) (st : SolverState) (used : List Wd) (bt : Nat)
      (best : BestPartial) (depth : Nat) (rng : Rng),
      (solveLoopF slots maxB fuel idx words st used bt best depth rng).found = false →
      domainsEq (solveLoopF slots maxB fuel idx words st used bt best depth rng).st st := by
  intro words
  induction words with
  | nil =>
    intro idx st used bt best depth rng _
    simp only [solveLoopF]
    exact domainsEq_refl st
  | cons word rest ih =>
    intro idx st used bt best depth rng hfound
    simp only [solveLoopF] at hfound ⊢
    split at hfound
    · rename_i hw
      rw [if_pos hw]
      split at hfound
      · rename_i hcap
        rw [if_pos hcap]
        exact domainsEq_trans (restore_after _ _ _ _ _ (domainsEq_of_eq rfl))
          (domainsEq_of_eq rfl)
      · rename_i hcap
        rw [if_neg hcap]
        exact domainsEq_trans (ih _ _ _ _ _ _ _ hfound)
          (domainsEq_trans (restore_after _ _ _ _ _ (domainsEq_of_eq rfl))
            (domainsEq_of_eq rfl))
    · rename_i hw
      rw [if_neg hw]
      split at hfound
      · rename_i hof
        rw [hfound] at hof
        exact Bool.noConfusion hof
      · rename_i hof
        rw [if_neg hof]
        have hof2 := Bool.eq_false_iff.mpr hof
        have hsd := hsolve _ _ _ _ _ _ hof2
        split at hfound
        · rename_i hcap
          rw [if_pos hcap]
          exact domainsEq_trans
            (restore_after _ _ _ _ _
              (domainsEq_trans (domainsEq_of_eq rfl) hsd))
            (domainsEq_of_eq rfl)
        · rename_i hcap
          rw [if_neg hcap]
          exact domainsEq_trans (ih _ _ _ _ _ _ _ hfound)
            (domainsEq_trans
              (restore_after _ _ _ _ _
                (domainsEq_trans (domainsEq_of_eq rfl) hsd))
              (domainsEq_of_eq rfl))

theorem solveF_restores (slots : List Slot) (maxB : Nat) :
    ∀ fuel st used bt best depth rng,
      (solveF slots maxB fuel st used bt best depth rng).found = false →
      domainsEq (solveF slots maxB fuel st used bt best depth rng).st st := by
  intro fuel
  induction fuel with
  | zero =>
    intro st used bt best depth rng _
    simp only [solveF]
    exact domainsEq_refl st
  | succ fuel ih =>
    intro st used bt best depth rng hfound
    have hloop := solveLoop_restores slots maxB fuel ih
    simp only [solveF] at hfound ⊢
    cases hsel : selectSlot st slots with
    | none =>
      simp [hsel] at hfound
    | some idx =>
      simp only [hsel] at hfound ⊢
      exact hloop _ _ _ _ _ _ _ _ hfound

/-- C4: domains are restored exactly on backtrack. Undoing a candidate —
running `restoreDomains` on the forward-check prune log, whatever the
assignment array then holds — yields domains with exactly the same word
membership as immediately before the candidate was tried; and globally,
every failing solver run (including one aborted at the backtrack cap)
returns with domain membership identical to its entry state, at every
recursion level. -/
theorem c4_domain_restoration (slots : List Slot) (maxBacktracks : Nat)
    (idx : Nat) (word : Wd) (st : SolverState) (asg2 : List (Option Wd))
    (fuel : Nat) (st0 : SolverState) (used : List Wd) (bt : Nat)
    (best : BestPartial) (depth : Nat) (rng : Rng)
    (hfail : (solveF slots maxBacktracks fuel st0 used bt best depth rng).found
      = false) :
    domainsEq (restoreDomains (forwardCheck idx word slots st).1
      ⟨asg2, (forwardCheck idx word slots st).2.domains⟩) st ∧
    domainsEq (solveF slots maxBacktracks fuel st0 used bt best depth rng).st st0 := by
  constructor
  · exact restore_roundtrip idx word slots st
      ⟨asg2, (forwardCheck idx word slots st).2.domains⟩ rfl
  · exact solveF_restores slots maxBacktracks fuel st0 used bt best depth rng hfail

theorem c4_witness :
    (solveF exSlots1 FILLIN_MAX_BACKTRACKS 2 exState1 [] 0 ⟨[], 0⟩ 0 rng0).found
      = false ∧
    (domainsEq (restoreDomains (forwardCheck 0 ("ANA".toList) exSlots1 exState1).1
        ⟨[], (forwardCheck 0 ("ANA".toList) exSlots1 exState1).2.domains⟩) exState1 ∧
     domainsEq (solveF exSlots1 FILLIN_MAX_BACKTRACKS 2 exState1 [] 0 ⟨[], 0⟩
        0 rng0).st exState1) := by
  have hfail : (solveF exSlots1 FILLIN_MAX_BACKTRACKS 2 exState1 [] 0 ⟨[], 0⟩
      0 rng0).found = false := by
    have hsel : selectSlot exState1 exSlots1 = some 0 := by decide
    have hc : (getOrderedCandidates 0 exSlots1 exState1 [] rng0).1 = [] := by decide
    simp only [solveF, hsel, hc, solveLoopF]
  exact ⟨hfail, c4_domain_restoration exSlots1 FILLIN_MAX_BACKTRACKS 0
    ("ANA".toList) exState1 [] 2 exState1 [] 0 ⟨[], 0⟩ 0 rng0 hfail⟩

theorem mapWords_upsert_le {α : Type} (key : α → Int × Int) (dirOf : α → Direction)
    (w : α) (f : α → Wd) :
    ∀ m : List ((Int × Int) × StartsEntry α),
      ((mapWords (startsUpsert key dirOf w m) f : List Wd) : Multiset Wd) ≤
        f w ::ₘ ((mapWords m f : List Wd) : Multiset Wd) := by
  intro m
  induction m with
  | nil =>
    cases hd : dirOf w <;> simp [startsUpsert, hd, mapWords, entryWords]
  | cons hd0 rest ih =>
    rcases hd0 with ⟨k, e⟩
    unfold startsUpsert
    by_cases hk : k = key w
    · rw [if_pos hk]
      have hentry : ((entryWords (match dirOf w with
          | Direction.across => { e with across := some w }
          | Direction.down => { e with down := some w }) f : List Wd) : Multiset Wd) ≤
          f w ::ₘ ((entryWords e f : List Wd) : Multiset Wd) := by
        cases hd : dirOf w
        · simp only [hd]
          show f w ::ₘ (((match e.down with
              | some w2 => [f w2] | none => []) : List Wd) : Multiset Wd) ≤
            f w ::ₘ ((entryWords e f : List Wd) : Multiset Wd)
          refine Multiset.cons_le_cons _ ?_
          show (((match e.down with
              | some w2 => [f w2] | none => []) : List Wd) : Multiset Wd) ≤
            (((match e.across with
              | some w2 => [f w2] | none => []) : List Wd) : Multiset Wd) +
            (((match e.down with
              | some w2 => [f w2] | none => []) : List Wd) : Multiset Wd)
          exact Multiset.le_add_left _ _
        · simp only [hd]
          show (((match e.across with
              | some w2 => [f w2] | none => []) : List Wd) : Multiset Wd) + {f w} ≤
            f w ::ₘ ((entryWords e f : List Wd) : Multiset Wd)
          show (((match e.across with
              | some w2 => [f w2] | none => []) : List Wd) : Multiset Wd) + {f w} ≤
            {f w} + ((((match e.across with
              | some w2 => [f w2] | none => []) : List Wd) : Multiset Wd) +
             (((match e.down with
              | some w2 => [f w2] | none => []) : List Wd) : Multiset Wd))
          rw [add_comm _ ({f w} : Multiset Wd)]
          exact add_le_add_left (Multiset.le_add_right _ _) _
      show ((entryWords (match dirOf w with
          | Direction.across => { e with across := some w }
          | Direction.down => { e with down := some w }) f : List Wd) : Multiset Wd) +
        ((mapWords rest f : List Wd) : Multiset Wd) ≤
        f w ::ₘ (((entryWords e f : List Wd) : Multiset Wd) +
          ((mapWords rest f : List Wd) : Multiset Wd))
      refine le_trans (add_le_add_right hentry _) ?_
      exact le_of_eq (by simp [Multiset.cons_add])
    · rw [if_neg hk]
      show ((entryWords e f : List Wd) : Multiset Wd) +
        ((mapWords (startsUpsert key dirOf w rest) f : List Wd) : Multiset Wd) ≤
        f w ::ₘ (((entryWords e f : List Wd) : Multiset Wd) +
          ((mapWords rest f : List Wd) : Multiset Wd))
      refine le_trans (add_le_add_left ih _) ?_
      exact le_of_eq (by simp [Multiset.add_cons, Multiset.cons_add])

theorem mapWords_buildStarts_le {α : Type} (key : α → Int × Int)
    (dirOf : α → Direction) (f : α → Wd) :
    ∀ (ws : List α) (m0 : List ((Int × Int) × StartsEntry α)),
      ((mapWords (ws.foldl (fun m w => startsUpsert key dirOf w m) m0) f :
        List Wd) : Multiset Wd) ≤
        ((mapWords m0 f : List Wd) : Multiset Wd) +
          ((ws.map f : List Wd) : Multiset Wd) := by
  intro ws
  induction ws with
  | nil =>
    intro m0
    simp
  | cons w tl ih =>
    intro m0
    rw [List.foldl_cons]
    refine le_trans (ih (startsUpsert key dirOf w m0)) ?_
    refine le_trans (add_le_add_right (mapWords_upsert_le key dirOf w f m0) _) ?_
    refine le_of_eq ?_
    simp only [Multiset.cons_add, Multiset.add_cons]
    exact Quot.sound List.perm_middle.symm

theorem mapWords_buildStarts_nodup {α : Type} (key : α → Int × Int)
    (dirOf : α → Direction) (f : α → Wd) (ws : List α)
    (h : (ws.map f).Nodup) :
    (mapWords (buildStarts key dirOf ws) f).Nodup := by
  have hle := mapWords_buildStarts_le key dirOf f ws []
  have h2 : ((mapWords (buildStarts key dirOf ws) f : List Wd) : Multiset Wd) ≤
      ((ws.map f : List Wd) : Multiset Wd) := by
    refine le_trans hle (le_of_eq ?_)
    simp [mapWords]
  exact Multiset.coe_nodup.mp (Multiset.nodup_of_le h2 (Multiset.coe_nodup.mpr h))

theorem mapWords_disjoint {α : Type} (m : List ((Int × Int) × StartsEntry α))
    (f : α → Wd) (h : (mapWords m f).Nodup) :
    (∀ kv ∈ m, (entryWords kv.2 f).Nodup) ∧
    (∀ kv1 ∈ m, ∀ kv2 ∈ m, kv1.1 ≠ kv2.1 →
      ∀ w ∈ entryWords kv1.2 f, w ∉ entryWords kv2.2 f) := by
  unfold mapWords at h
  rw [List.nodup_flatten] at h
  constructor
  · intro kv hkv
    exact h.1 _ (List.mem_map.mpr ⟨kv, hkv, rfl⟩)
  · intro kv1 h1 kv2 h2 hne w hw1 hw2
    obtain ⟨i, hi, hkvi⟩ := List.mem_iff_getElem.mp h1
    obtain ⟨j, hj, hkvj⟩ := List.mem_iff_getElem.mp h2
    have hij : i ≠ j := by
      intro he
      subst he
      rw [hkvi] at hkvj
      exact hne (by rw [hkvj])
    have hpair := List.pairwise_iff_getElem.mp h.2
    rcases Nat.lt_or_ge i j with hlt | hge
    · have hd := hpair i j (by simpa) (by simpa) hlt
      rw [List.getElem_map, List.getElem_map] at hd
      rw [hkvi, hkvj] at hd
      exact hd hw1 hw2
    · have hlt2 : j < i := by omega
      have hd := hpair j i (by simpa) (by simpa) hlt2
      rw [List.getElem_map, List.getElem_map] at hd
      rw [hkvi, hkvj] at hd
      exact hd hw2 hw1

theorem scanFold_nodup {α : Type} (mk : α → Int × Int → Nat → PlacedWord)
    (m : List ((Int × Int) × StartsEntry α)) (wordOf : α → Wd)
    (hmk : ∀ w k num, (mk w k num).word = wordOf w)
    (hintra : ∀ kv ∈ m, (entryWords kv.2 wordOf).Nodup)
    (hinter : ∀ kv1 ∈ m, ∀ kv2 ∈ m, kv1.1 ≠ kv2.1 →
      ∀ w ∈ entryWords kv1.2 wordOf, w ∉ entryWords kv2.2 wordOf) :
    ∀ cs : List (Nat × Nat),
      List.Pairwise (fun a b : Nat × Nat =>
        (((a.1 : Int), (a.2 : Int)) : Int × Int) ≠ ((b.1 : Int), (b.2 : Int))) cs →
      ∀ (ws : List PlacedWord) (num : Nat),
        ((ws.map (fun pw => pw.word)).Nodup) →
        (∀ rc ∈ cs, ∀ e, findStart m ((rc.1 : Int), (rc.2 : Int)) = some e →
          ∀ w ∈ entryWords e wordOf, w ∉ ws.map (fun pw => pw.word)) →
        (((cs.foldl (numberStep mk m) (ws, num)).1.map (fun pw => pw.word)).Nodup) := by
  intro cs
  induction cs with
  | nil =>
    intro _ ws num h1 _
    exact h1
  | cons rc tl ih =>
    intro hpair ws num hnd hfresh
    rw [List.foldl_cons]
    have hpa := List.pairwise_cons.mp hpair
    cases hf : findStart m ((rc.1 : Int), (rc.2 : Int)) with
    | none =>
      have heq : numberStep mk m (ws, num) rc = (ws, num) := by
        unfold numberStep
        rw [hf]
      rw [heq]
      exact ih hpa.2 ws num hnd (fun rc2 h2 => hfresh rc2 (by simp [h2]))
    | some e =>
      have hkv : ((((rc.1 : Int), (rc.2 : Int)) : Int × Int), e) ∈ m :=
        findStart_mem m _ e hf
      have hwords : (numberStep mk m (ws, num) rc).1.map (fun pw => pw.word) =
          ws.map (fun pw => pw.word) ++ entryWords e wordOf := by
        unfold numberStep
        rw [hf]
        cases ha : e.across <;> cases hd : e.down <;>
          simp [ha, hd, entryWords, hmk]
      have hnd2 : ((numberStep mk m (ws, num) rc).1.map
          (fun pw => pw.word)).Nodup := by
        rw [hwords]
        refine List.Nodup.append hnd (hintra _ hkv) ?_
        intro a ha hae
        exact hfresh rc (by simp) e hf a hae ha
      have hfresh2 : ∀ rc2 ∈ tl, ∀ e2,
          findStart m ((rc2.1 : Int), (rc2.2 : Int)) = some e2 →
          ∀ w ∈ entryWords e2 wordOf,
            w ∉ (numberStep mk m (ws, num) rc).1.map (fun pw => pw.word) := by
        intro rc2 h2 e2 hf2 w hw
        rw [hwords]
        intro hmem
        rcases List.mem_append.mp hmem with hm | hm
        · exact hfresh rc2 (by simp [h2]) e2 hf2 w hw hm
        · have hkv2 : ((((rc2.1 : Int), (rc2.2 : Int)) : Int × Int), e2) ∈ m :=
            findStart_mem m _ e2 hf2
          have hkne : ((((rc2.1 : Int), (rc2.2 : Int)) : Int × Int)) ≠
              ((rc.1 : Int), (rc.2 : Int)) := by
            have hx := hpa.1 rc2 h2
            exact fun hy => hx hy.symm
          exact hinter _ hkv2 _ hkv hkne w hw hm
      exact ih hpa.2 (numberStep mk m (ws, num) rc).1
        (numberStep mk m (ws, num) rc).2 hnd2 hfresh2

theorem scanNumbers_nodup {α : Type} (key : α → Int × Int) (dirOf : α → Direction)
    (ws : List α) (mk : α → Int × Int → Nat → PlacedWord) (width height : Nat)
    (wordOf : α → Wd)
    (hmk : ∀ w k num, (mk w k num).word = wordOf w)
    (hnd : (ws.map wordOf).Nodup) :
    ((scanNumbers mk (buildStarts key dirOf ws) width height).map
      (fun pw => pw.word)).Nodup := by
  have hflat := mapWords_buildStarts_nodup key dirOf wordOf ws hnd
  obtain ⟨hintra, hinter⟩ := mapWords_disjoint _ wordOf hflat
  unfold scanNumbers
  have hpne : List.Pairwise (fun a b : Nat × Nat =>
      (((a.1 : Int), (a.2 : Int)) : Int × Int) ≠ ((b.1 : Int), (b.2 : Int)))
      (rmCells width height) := by
    refine List.Pairwise.imp ?_ (rmCells_pairwise width height)
    intro a b hab
    exact rmLt_ne hab
  refine scanFold_nodup mk _ wordOf hmk hintra hinter (rmCells width height) hpne
    [] 1 (by simp) ?_
  intro rc _ e _ w _ hmem
  simp at hmem

theorem finalize_words_nodup (g : CGrid) (gridSize : Nat) (placed : List GridWord)
    (play : Play) (h : (placed.map (fun w => w.word)).Nodup) :
    wordsNodup (finalize g gridSize placed play) := by
  unfold wordsNodup
  show ((scanNumbers
      (fun w _cell num =>
        (⟨w.word, w.definition, w.row, w.col, w.direction, num⟩ : PlacedWord))
      (buildStarts (fun (w : GridWord) => (w.row, w.col)) (fun w => w.direction)
        (placed.map (fun w => { w with
          row := w.row - ((trimGrid g gridSize).offsetRow : Int),
          col := w.col - ((trimGrid g gridSize).offsetCol : Int) })))
      ((trimGrid g gridSize).trimmedGrid.headD []).length
      (trimGrid g gridSize).trimmedGrid.length).map (fun pw => pw.word)).Nodup
  refine scanNumbers_nodup _ _ _ _ _ _ (fun w : GridWord => w.word)
    (fun w k num => rfl) ?_
  rw [List.map_map]
  exact h

theorem assembleWrite_nodup (template : FGrid) (slots : List Slot)
    (asg : List (Option Wd)) (h : asgDistinct asg) :
    ∀ n,
      (∀ p ∈ ((List.range n).foldl (writeSlotStep slots asg)
        ((fun r c => if template r c then ACell.empty else ACell.black), [])).2,
        ∃ i < n, asg.getD i none = some p.word) ∧
      ((((List.range n).foldl (writeSlotStep slots asg)
        ((fun r c => if template r c then ACell.empty else ACell.black), [])).2.map
          (fun p => p.word)).Nodup) := by
  intro n
  induction n with
  | zero =>
    constructor
    · intro p hp
      simp at hp
    · simp
  | succ n ih =>
    rw [List.range_succ, List.foldl_append, List.foldl_cons, List.foldl_nil]
    cases hasg : asg.getD n none with
    | none =>
      simp only [writeSlotStep, hasg]
      refine ⟨?_, ih.2⟩
      intro p hp
      obtain ⟨i, hi, hw⟩ := ih.1 p hp
      exact ⟨i, Nat.lt_succ_of_lt hi, hw⟩
    | some w0 =>
      simp only [writeSlotStep, hasg]
      constructor
      · intro p hp
        rcases List.mem_append.mp hp with hm | hm
        · obtain ⟨i, hi, hw⟩ := ih.1 p hm
          exact ⟨i, Nat.lt_succ_of_lt hi, hw⟩
        · simp only [List.mem_singleton] at hm
          subst hm
          exact ⟨n, Nat.lt_succ_self n, hasg⟩
      · rw [List.map_append]
        refine List.Nodup.append ih.2 (by simp) ?_
        intro a ha hae
        simp only [List.map_cons, List.map_nil, List.mem_singleton] at hae
        obtain ⟨p, hp, hpa⟩ := List.mem_map.mp ha
        obtain ⟨i, hi, hw⟩ := ih.1 p hp
        rw [hpa, hae] at hw
        exact h i n w0 w0 (by omega) hw hasg rfl

theorem assembleResult_words_nodup (template : FGrid) (width height : Nat)
    (slots : List Slot) (asg : List (Option Wd)) (play : Play)
    (h : asgDistinct asg) :
    wordsNodup (assembleResult template width height slots asg play) := by
  unfold wordsNodup
  show ((scanNumbers
      (fun p cell num => (⟨p.word, [], cell.1, cell.2, p.direction, num⟩ : PlacedWord))
      (buildStarts (fun (p : PlacedSlot) => ((p.row : Int), (p.col : Int)))
        (fun p => p.direction) (assembleWrite template slots asg).2)
      width height).map (fun pw => pw.word)).Nodup
  refine scanNumbers_nodup _ _ _ _ _ _ (fun p => p.word) (fun w k num => rfl) ?_
  exact (assembleWrite_nodup template slots asg h slots.length).2

theorem getD_some_mem (l : List (Option Wd)) (i : Nat) (w : Wd)
    (h : l.getD i none = some w) : some w ∈ l := by
  by_cases hl : i < l.length
  · rw [List.getD_eq_getElem l none hl] at h
    rw [← h]
    exact List.getElem_mem hl
  · rw [getD_default_of_ge l i none (by omega)] at h
    cases h

theorem mem_usedInit (l : List (Option Wd)) :
    ∀ (u : List Wd) (w : Wd), (some w ∈ l ∨ w ∈ u) →
      w ∈ l.foldl (fun u a => match a with | some w => setAdd u w | none => u) u := by
  induction l with
  | nil =>
    intro u w hw
    rcases hw with hw | hw
    · cases hw
    · exact hw
  | cons a tl ih =>
    intro u w hw
    rw [List.foldl_cons]
    cases a with
    | none =>
      rcases hw with hw | hw
      · rcases List.mem_cons.mp hw with hw1 | hw1
        · cases hw1
        · exact ih u w (Or.inl hw1)
      · exact ih u w (Or.inr hw)
    | some w2 =>
      rcases hw with hw | hw
      · rcases List.mem_cons.mp hw with hw1 | hw1
        · injection hw1 with hw2
          exact ih (setAdd u w2) w (Or.inr ((mem_setAdd u w2 w).mpr (Or.inr hw2)))
        · exact ih (setAdd u w2) w (Or.inl hw1)
      · exact ih (setAdd u w2) w (Or.inr ((mem_setAdd u w2 w).mpr (Or.inl hw)))

theorem greedyStep_distinct (slots : List Slot) (wordsByLen : Nat → List Wd)
    (acc : List (Option Wd) × List Wd × Bool) (p : Nat × Nat)
    (h1 : asgDistinct acc.1)
    (h2 : ∀ i w, acc.1.getD i none = some w → w ∈ acc.2.1) :
    asgDistinct (greedyStep slots wordsByLen acc p).1 ∧
    (∀ i w, (greedyStep slots wordsByLen acc p).1.getD i none = some w →
      w ∈ (greedyStep slots wordsByLen acc p).2.1) := by
  unfold greedyStep
  by_cases hs : (acc.1.getD p.1 none).isSome = true
  · rw [if_pos hs]
    exact ⟨h1, h2⟩
  · rw [if_neg hs]
    cases hf : findGreedyWord (wordsByLen (slots.getD p.1 default).length) acc.2.1
        (buildPattern (slots.getD p.1 default) acc.1)
        (slots.getD p.1 default).length with
    | none =>
      simp only [hf]
      exact ⟨h1, h2⟩
    | some word =>
      simp only [hf]
      have hnotused : word ∉ acc.2.1 := by
        have hp := List.find?_some hf
        simp only [Bool.and_eq_true, decide_eq_true_eq] at hp
        exact hp.1
      have hgetset : ∀ i, (acc.1.set p.1 (some word)).getD i none =
          if i = p.1 then (if p.1 < acc.1.length then some word else none)
          else acc.1.getD i none := by
        intro i
        by_cases hip : i = p.1
        · subst hip
          rw [if_pos rfl]
          by_cases hlen : p.1 < acc.1.length
          · rw [if_pos hlen, getD_set_self _ _ _ _ hlen]
          · rw [if_neg hlen, List.set_eq_of_length_le (by omega),
              getD_default_of_ge _ _ _ (by omega)]
        · rw [if_neg hip, getD_set_ne _ _ _ _ _ hip]
      constructor
      · intro i j wi wj hne hi hj
        rw [hgetset i] at hi
        rw [hgetset j] at hj
        by_cases hip : i = p.1
        · rw [if_pos hip] at hi
          have hjp : ¬ j = p.1 := by omega
          rw [if_neg hjp] at hj
          split at hi
          · injection hi with hi2
            subst hi2
            intro he
            rw [he] at hnotused
            exact hnotused (h2 j wj hj)
          · cases hi
        · rw [if_neg hip] at hi
          by_cases hjp : j = p.1
          · rw [if_pos hjp] at hj
            split at hj
            · injection hj with hj2
              subst hj2
              intro he
              rw [← he] at hnotused
              exact hnotused (h2 i wi hi)
            · cases hj
          · rw [if_neg hjp] at hj
            exact h1 i j wi wj hne hi hj
      · intro i w hw
        rw [hgetset i] at hw
        by_cases hip : i = p.1
        · rw [if_pos hip] at hw
          split at hw
          · injection hw with hw2
            subst hw2
            exact (mem_setAdd _ _ _).mpr (Or.inr rfl)
          · cases hw
        · rw [if_neg hip] at hw
          exact (mem_setAdd _ _ _).mpr (Or.inl (h2 i w hw))

theorem greedyPass_distinct (slots : List Slot) (wordsByLen : Nat → List Wd)
    (result0 : List (Option Wd)) (used0 : List Wd)
    (h1 : asgDistinct result0)
    (h2 : ∀ i w, result0.getD i none = some w → w ∈ used0) :
    asgDistinct (greedyPass slots wordsByLen result0 used0).1 ∧
    (∀ i w, (greedyPass slots wordsByLen result0 used0).1.getD i none = some w →
      w ∈ (greedyPass slots wordsByLen result0 used0).2.1) := by
  unfold greedyPass
  refine @foldl_invariant _ _
    (fun acc : List (Option Wd) × List Wd × Bool =>
      asgDistinct acc.1 ∧ ∀ i w, acc.1.getD i none = some w → w ∈ acc.2.1)
    (greedyStep slots wordsByLen) _ (result0, used0, false) ⟨h1, h2⟩ ?_
  intro acc p _ hP
  exact greedyStep_distinct slots wordsByLen acc p hP.1 hP.2

theorem greedyLoop_distinct (slots : List Slot) (wordsByLen : Nat → List Wd) :
    ∀ fuel result used, asgDistinct result →
      (∀ i w, result.getD i none = some w → w ∈ used) →
      asgDistinct (greedyLoop slots wordsByLen fuel result used) := by
  intro fuel
  induction fuel with
  | zero =>
    intro result used h1 _
    exact h1
  | succ fuel ih =>
    intro result used h1 h2
    obtain ⟨ha, hb⟩ := greedyPass_distinct slots wordsByLen result used h1 h2
    show asgDistinct (if (greedyPass slots wordsByLen result used).2.2 = true then
        greedyLoop slots wordsByLen fuel (greedyPass slots wordsByLen result used).1
          (greedyPass slots wordsByLen result used).2.1
      else (greedyPass slots wordsByLen result used).1)
    by_cases hc : (greedyPass slots wordsByLen result used).2.2 = true
    · rw [if_pos hc]
      exact ih _ _ ha hb
    · rw [if_neg hc]
      exact ha

theorem greedyPatch_distinct (slots : List Slot) (asg : List (Option Wd))
    (wordsByLen : Nat → List Wd) (h : asgDistinct asg) :
    asgDistinct (greedyPatch slots asg wordsByLen) := by
  refine greedyLoop_distinct slots wordsByLen (asg.length + 1) asg _ h ?_
  intro i w hw
  exact mem_usedInit asg [] w (Or.inl (getD_some_mem asg i w hw))

theorem insertByDesc_perm {β : Type} [LE β]
    [DecidableRel (fun a b : β => a ≤ b)] (key : α → β) (x : α) :
    ∀ l : List α, List.Perm (insertByDesc key x l) (x :: l) := by
  intro l
  induction l with
  | nil => exact List.Perm.refl _
  | cons y ys ih =>
    unfold insertByDesc
    by_cases hk : key y ≤ key x
    · rw [if_pos hk]
    · rw [if_neg hk]
      exact (ih.cons y).trans (List.Perm.swap x y ys)

theorem sortByDesc_perm {β : Type} [LE β]
    [DecidableRel (fun a b : β => a ≤ b)] (key : α → β) :
    ∀ l : List α, List.Perm (sortByDesc key l) l := by
  intro l
  induction l with
  | nil => exact List.Perm.refl _
  | cons x xs ih =>
    unfold sortByDesc
    exact (insertByDesc_perm key x _).trans (ih.cons x)

theorem processFold_nodup (tryPlace : PlaceSt → WordEntry → PlaceSt × Bool)
    (htry : ∀ st e, ((tryPlace st e).2 = true ∧
        (tryPlace st e).1.2.map (fun g => g.word) =
          st.2.map (fun g => g.word) ++ [e.word]) ∨
      ((tryPlace st e).2 = false ∧ (tryPlace st e).1 = st)) :
    ∀ (entries : List WordEntry) (st : PlaceSt) (q : List WordEntry),
      (st.2.map (fun g => g.word)).Nodup →
      (q.map (fun e => e.word)).Nodup →
      (∀ w ∈ q.map (fun e => e.word), w ∉ st.2.map (fun g => g.word)) →
      ((entries.map (fun e => e.word)).Nodup) →
      (∀ w ∈ entries.map (fun e => e.word), w ∉ st.2.map (fun g => g.word)) →
      (∀ w ∈ entries.map (fun e => e.word), w ∉ q.map (fun e => e.word)) →
      (((entries.foldl (fun acc e =>
          let out := tryPlace acc.1 e
          (out.1, if out.2 then acc.2 else acc.2 ++ [e])) (st, q)).1.2.map
            (fun g => g.word)).Nodup) ∧
      (((entries.foldl (fun acc e =>
          let out := tryPlace acc.1 e
          (out.1, if out.2 then acc.2 else acc.2 ++ [e])) (st, q)).2.map
            (fun e => e.word)).Nodup) ∧
      (∀ w ∈ ((entries.foldl (fun acc e =>
          let out := tryPlace acc.1 e
          (out.1, if out.2 then acc.2 else acc.2 ++ [e])) (st, q)).2.map
            (fun e => e.word)),
        w ∉ ((entries.foldl (fun acc e =>
          let out := tryPlace acc.1 e
          (out.1, if out.2 then acc.2 else acc.2 ++ [e])) (st, q)).1.2.map
            (fun g => g.word))) := by
  intro entries
  induction entries with
  | nil =>
    intro st q h1 h2 h3 _ _ _
    exact ⟨h1, h2, h3⟩
  | cons e tl ih =>
    intro st q h1 h2 h3 h4 h5 h6
    rw [List.foldl_cons]
    have he5 : e.word ∉ st.2.map (fun g => g.word) := h5 e.word (by simp)
    have he6 : e.word ∉ q.map (fun e2 => e2.word) := h6 e.word (by simp)
    have htl4 : (tl.map (fun e2 => e2.word)).Nodup := (List.nodup_cons.mp (by
      simpa using h4)).2
    have hetl : e.word ∉ tl.map (fun e2 => e2.word) := (List.nodup_cons.mp (by
      simpa using h4)).1
    rcases htry st e with ⟨hb, hw⟩ | ⟨hb, hst⟩
    · have hstep : (let out := tryPlace (st, q).1 e
        (out.1, if out.2 = true then (st, q).2 else (st, q).2 ++ [e])) =
          ((tryPlace st e).1, q) := by
        simp [hb]
      rw [hstep]
      refine ih (tryPlace st e).1 q ?_ h2 ?_ htl4 ?_ ?_
      · rw [hw]
        refine List.Nodup.append h1 (by simp) ?_
        intro a ha hae
        simp only [List.mem_singleton] at hae
        subst hae
        exact he5 ha
      · intro w hwq
        rw [hw]
        intro hmem
        rcases List.mem_append.mp hmem with hm | hm
        · exact h3 w hwq hm
        · simp only [List.mem_singleton] at hm
          subst hm
          exact he6 hwq
      · intro w hwtl
        rw [hw]
        intro hmem
        rcases List.mem_append.mp hmem with hm | hm
        · exact h5 w (by simp [hwtl]) hm
        · simp only [List.mem_singleton] at hm
          subst hm
          exact hetl hwtl
      · intro w hwtl
        exact h6 w (by simp [hwtl])
    · have hstep : (let out := tryPlace (st, q).1 e
        (out.1, if out.2 = true then (st, q).2 else (st, q).2 ++ [e])) =
          (st, q ++ [e]) := by
        simp [hb, hst]
      rw [hstep]
      refine ih st (q ++ [e]) h1 ?_ ?_ htl4 ?_ ?_
      · rw [List.map_append]
        refine List.Nodup.append h2 (by simp) ?_
        intro a ha hae
        simp only [List.map_cons, List.map_nil, List.mem_singleton] at hae
        subst hae
        exact he6 ha
      · intro w hwq
        rw [List.map_append] at hwq
        rcases List.mem_append.mp hwq with hm | hm
        · exact h3 w hm
        · simp only [List.map_cons, List.map_nil, List.mem_singleton] at hm
          subst hm
          exact he5
      · intro w hwtl
        exact h5 w (by simp [hwtl])
      · intro w hwtl
        rw [List.map_append]
        intro hmem
        rcases List.mem_append.mp hmem with hm | hm
        · exact h6 w (by simp [hwtl]) hm
        · simp only [List.map_cons, List.map_nil, List.mem_singleton] at hm
          subst hm
          exact hetl hwtl

theorem processPass_nodup (tryPlace : PlaceSt → WordEntry → PlaceSt × Bool)
    (htry : ∀ st e, ((tryPlace st e).2 = true ∧
        (tryPlace st e).1.2.map (fun g => g.word) =
          st.2.map (fun g => g.word) ++ [e.word]) ∨
      ((tryPlace st e).2 = false ∧ (tryPlace st e).1 = st))
    (entries : List WordEntry) (st : PlaceSt)
    (h1 : (st.2.map (fun g => g.word)).Nodup)
    (h2 : (entries.map (fun e => e.word)).Nodup)
    (h3 : ∀ w ∈ entries.map (fun e => e.word), w ∉ st.2.map (fun g => g.word)) :
    (((processPass tryPlace entries st).1.2.map (fun g => g.word)).Nodup) ∧
    (((processPass tryPlace entries st).2.map (fun e => e.word)).Nodup) ∧
    (∀ w ∈ (processPass tryPlace entries st).2.map (fun e => e.word),
      w ∉ (processPass tryPlace entries st).1.2.map (fun g => g.word)) := by
  unfold processPass
  exact processFold_nodup tryPlace htry entries st [] h1 (by simp) (by simp) h2 h3
    (by simp)

theorem retryPasses_nodup (tryPlace : PlaceSt → WordEntry → PlaceSt × Bool)
    (htry : ∀ st e, ((tryPlace st e).2 = true ∧
        (tryPlace st e).1.2.map (fun g => g.word) =
          st.2.map (fun g => g.word) ++ [e.word]) ∨
      ((tryPlace st e).2 = false ∧ (tryPlace st e).1 = st)) :
    ∀ (fuel : Nat) (st : PlaceSt) (unplaced : List WordEntry),
      (st.2.map (fun g => g.word)).Nodup →
      (unplaced.map (fun e => e.word)).Nodup →
      (∀ w ∈ unplaced.map (fun e => e.word), w ∉ st.2.map (fun g => g.word)) →
      (((retryPasses tryPlace fuel st unplaced).1.2.map (fun g => g.word)).Nodup) := by
  intro fuel
  induction fuel with
  | zero =>
    intro st unplaced h1 _ _
    exact h1
  | succ n ih =>
    intro st unplaced h1 h2 h3
    obtain ⟨ha, hb, hc⟩ := processPass_nodup tryPlace htry unplaced st h1 h2 h3
    show (((if (processPass tryPlace unplaced st).2.length = 0 then
        processPass tryPlace unplaced st
      else retryPasses tryPlace n (processPass tryPlace unplaced st).1
        (processPass tryPlace unplaced st).2).1.2.map (fun g => g.word)).Nodup)
    by_cases hz : (processPass tryPlace unplaced st).2.length = 0
    · rw [if_pos hz]
      exact ha
    · rw [if_neg hz]
      exact ih _ _ ha hb hc

theorem originalTry_spec (log : LogFn) (play : Play) (dict : List Wd) :
    ∀ st e, ((originalTry log play dict st e).2 = true ∧
        (originalTry log play dict st e).1.2.map (fun g => g.word) =
          st.2.map (fun g => g.word) ++ [e.word]) ∨
      ((originalTry log play dict st e).2 = false ∧
        (originalTry log play dict st e).1 = st) := by
  intro st e
  unfold originalTry
  cases hs : sortByDesc (fun c : Placement => c.score)
      (findPlacements log play st.1 GRID_ORIGINAL st.2 e.word dict) with
  | nil =>
    refine Or.inr ⟨?_, ?_⟩ <;> simp [hs]
  | cons best tl2 =>
    refine Or.inl ⟨?_, ?_⟩ <;> simp [hs, commitPlacement]

theorem generateOriginal_nodup (allWords : List WordEntry) (play : Play)
    (log : LogFn) (words : List WordEntry) (h : entriesDistinct words) :
    optWordsNodup (generateOriginal allWords play log words) := by
  unfold generateOriginal
  cases hs : sortByDesc (fun e : WordEntry => e.word.length) words with
  | nil =>
    simp only [hs]
    exact trivial
  | cons first rest =>
    simp only [hs]
    have hperm := sortByDesc_perm (fun e : WordEntry => e.word.length) words
    rw [hs] at hperm
    have h2 : (words.map (fun e => e.word)).Nodup := h
    have hnd : ((first :: rest).map (fun e => e.word)).Nodup :=
      ((hperm.map (fun e => e.word)).nodup_iff).mpr h2
    have hfw : first.word ∉ rest.map (fun e => e.word) :=
      (List.nodup_cons.mp (by simpa using hnd)).1
    have hrest : (rest.map (fun e => e.word)).Nodup :=
      (List.nodup_cons.mp (by simpa using hnd)).2
    have hseed : ((seedState GRID_ORIGINAL first).2.map (fun g => g.word)).Nodup := by
      simp [seedState]
    have hdisj : ∀ w ∈ rest.map (fun e => e.word),
        w ∉ (seedState GRID_ORIGINAL first).2.map (fun g => g.word) := by
      intro w hw
      simp only [seedState, List.map_cons, List.map_nil, List.mem_singleton]
      intro he
      rw [he] at hw
      exact hfw hw
    have hspec := originalTry_spec log play (allWords.map (fun e => e.word))
    obtain ⟨ha, hb, hc⟩ := processPass_nodup _ hspec
      rest (seedState GRID_ORIGINAL first) hseed hrest hdisj
    refine finalize_words_nodup _ _ _ _ ?_
    exact retryPasses_nodup _ hspec 3 _ _ ha hb hc

/-! Claim C3: template invariants of the fill-in engine. -/

theorem mem_swapL {α : Type} (l : List α) (i j : Nat) (x : α) :
    x ∈ swapL l i j ↔ x ∈ l := by
  unfold swapL
  cases hi : l.get? i with
  | none => exact Iff.rfl
  | some a =>
    cases hj : l.get? j with
    | none => exact Iff.rfl
    | some b =>
      rw [List.get?_eq_getElem?] at hi hj
      obtain ⟨hil, hia⟩ := List.getElem?_eq_some_iff.mp hi
      obtain ⟨hjl, hjb⟩ := List.getElem?_eq_some_iff.mp hj
      constructor
      · intro hx
        obtain ⟨k, hk⟩ := List.mem_iff_getElem?.mp hx
        rw [List.getElem?_set] at hk
        by_cases hjk : j = k
        · rw [if_pos hjk] at hk
          rw [List.length_set] at hk
          rw [if_pos (hjk ▸ hjl)] at hk
          cases hk
          exact hia ▸ List.getElem_mem hil
        · rw [if_neg hjk, List.getElem?_set] at hk
          by_cases hik : i = k
          · rw [if_pos hik] at hk
            rw [if_pos (hik ▸ hil)] at hk
            cases hk
            exact hjb ▸ List.getElem_mem hjl
          · rw [if_neg hik] at hk
            obtain ⟨hkl, hkx⟩ := List.getElem?_eq_some_iff.mp hk
            exact hkx ▸ List.getElem_mem hkl
      · intro hx
        obtain ⟨k, hkl, hkx⟩ := List.mem_iff_getElem.mp hx
        by_cases hki : k = i
        · refine List.mem_iff_getElem?.mpr ⟨j, ?_⟩
          rw [List.getElem?_set, if_pos rfl, List.length_set, if_pos hjl]
          subst hki
          rw [← hkx, hia]
        · by_cases hkj : k = j
          · have hji : ¬ (j = i) := fun h => hki (hkj.trans h)
            refine List.mem_iff_getElem?.mpr ⟨i, ?_⟩
            rw [List.getElem?_set, if_neg hji, List.getElem?_set, if_pos rfl,
              if_pos hil]
            subst hkj
            rw [← hkx, hjb]
          · refine List.mem_iff_getElem?.mpr ⟨k, ?_⟩
            rw [List.getElem?_set, if_neg (fun h => hkj h.symm),
              List.getElem?_set, if_neg (fun h => hki h.symm)]
            exact List.getElem?_eq_some_iff.mpr ⟨hkl, hkx⟩

theorem mem_fyAux {α : Type} (x : α) :
    ∀ (n : Nat) (l : List α) (g : Rng), x ∈ (fyAux l g n).1 ↔ x ∈ l := by
  intro n
  induction n with
  | zero => intro l g; exact Iff.rfl
  | succ i ih =>
    intro l g
    exact Iff.trans
      (ih (swapL l (i + 1) (g.next (i + 2)).1) (g.next (i + 2)).2)
      (mem_swapL l (i + 1) (g.next (i + 2)).1 x)

theorem mem_fyShuffle {α : Type} (l : List α) (g : Rng) (x : α) :
    x ∈ (fyShuffle l g).1 ↔ x ∈ l := by
  unfold fyShuffle
  cases hl : l.length with
  | zero => exact Iff.rfl
  | succ n => exact mem_fyAux x n l g

/-- Once the short-run flag of the scan is set, it stays set. -/
theorem shortFlag_mono (f : Nat → Bool) (n : Nat) :
    ∀ (l : List Nat) (st : Nat × Bool), st.2 = true →
      (l.foldl (shortStep f n) st).2 = true := by
  intro l
  induction l with
  | nil => intro st h; exact h
  | cons j js ih =>
    intro st h
    rw [List.foldl_cons]
    refine ih _ ?_
    unfold shortStep
    by_cases hc : (decide (j < n) && f j) = true
    · rw [if_pos hc]; exact h
    · rw [if_neg hc]; simp [h]

/-- If the flag is up after scanning a prefix of positions, the whole line
scan reports a short run. -/
theorem lineHasShort_of_prefix (f : Nat → Bool) (n j : Nat) (hj : j ≤ n)
    (hflag : ((List.range (j + 1)).foldl (shortStep f n) (0, false)).2 = true) :
    lineHasShort f n = true := by
  unfold lineHasShort
  have hsplit : List.range (n + 1) =
      List.range (j + 1) ++ (List.range (n - j)).map (fun x => (j + 1) + x) := by
    have h1 : n + 1 = (j + 1) + (n - j) := by omega
    rw [h1, List.range_add]
  rw [hsplit, List.foldl_append]
  exact shortFlag_mono f n _ _ hflag

/-- The run counter is zero right after a non-white position. -/
theorem shortStep_close (f : Nat → Bool) (n : Nat) (st : Nat × Bool) (j : Nat)
    (h : ¬ (j < n ∧ f j = true)) : (shortStep f n st j).1 = 0 := by
  unfold shortStep
  rw [if_neg (by simpa using fun h1 h2 => h ⟨h1, h2⟩)]

/-- A line whose scan stays quiet has no maximal white run of length one or
two: every run start extends at least two more cells. -/
theorem no_short_run_of_lineHasShort (f : Nat → Bool) (n : Nat)
    (hline : lineHasShort f n = false) (c : Nat) (hc : c < n)
    (hfc : f c = true) (hstart : c = 0 ∨ f (c - 1) = false) :
    c + 2 < n ∧ f (c + 1) = true ∧ f (c + 2) = true := by
  -- the state entering position c is (0, flag) with the flag still down
  have hrun0 : ((List.range c).foldl (shortStep f n) (0, false)).1 = 0 := by
    cases hstart with
    | inl h0 => subst h0; rfl
    | inr hprev =>
      cases hc0 : c with
      | zero => rfl
      | succ c0 =>
        rw [List.range_succ, List.foldl_append, List.foldl_cons, List.foldl_nil]
        refine shortStep_close f n _ c0 ?_
        rintro ⟨_, hw⟩
        rw [hc0] at hprev
        simp at hprev
        rw [hprev] at hw
        cases hw
  have hflag0 : ((List.range c).foldl (shortStep f n) (0, false)).2 = false := by
    by_contra htrue
    have h1 : ((List.range c).foldl (shortStep f n) (0, false)).2 = true := by
      simpa using htrue
    have h2 : lineHasShort f n = true := by
      cases hcc : c with
      | zero => rw [hcc] at h1; simp at h1
      | succ c0 =>
        refine lineHasShort_of_prefix f n c0 (by omega) ?_
        rw [← hcc]
        exact h1
    rw [h2] at hline
    cases hline
  -- state after position c is (1, false)
  have hstc : (List.range (c + 1)).foldl (shortStep f n) (0, false) = (1, false) := by
    rw [List.range_succ, List.foldl_append, List.foldl_cons, List.foldl_nil]
    have he : (List.range c).foldl (shortStep f n) (0, false) =
        (0, false) := by
      have := hrun0
      have h2 := hflag0
      exact Prod.ext this h2
    rw [he]
    unfold shortStep
    rw [if_pos (by simp [hc, hfc])]
  -- position c+1 must exist and be white
  have h1lt : c + 1 < n ∧ f (c + 1) = true := by
    by_contra hbad
    have hflag : ((List.range (c + 2)).foldl (shortStep f n) (0, false)).2 = true := by
      rw [List.range_succ, List.foldl_append, hstc, List.foldl_cons, List.foldl_nil]
      unfold shortStep
      rw [if_neg (by
        intro hw
        rw [Bool.and_eq_true, decide_eq_true_iff] at hw
        exact hbad ⟨hw.1, hw.2⟩)]
      simp
    have := lineHasShort_of_prefix f n (c + 1) (by omega) hflag
    rw [this] at hline
    cases hline
  -- state after position c+1 is (2, false)
  have hstc1 : (List.range (c + 2)).foldl (shortStep f n) (0, false) = (2, false) := by
    rw [List.range_succ, List.foldl_append, hstc, List.foldl_cons, List.foldl_nil]
    unfold shortStep
    rw [if_pos (by simp [h1lt.1, h1lt.2])]
  -- position c+2 must exist and be white
  have h2lt : c + 2 < n ∧ f (c + 2) = true := by
    by_contra hbad
    have hflag : ((List.range (c + 3)).foldl (shortStep f n) (0, false)).2 = true := by
      rw [List.range_succ, List.foldl_append, hstc1, List.foldl_cons, List.foldl_nil]
      unfold shortStep
      rw [if_neg (by
        intro hw
        rw [Bool.and_eq_true, decide_eq_true_iff] at hw
        exact hbad ⟨hw.1, hw.2⟩)]
      simp
    have := lineHasShort_of_prefix f n (c + 2) (by omega) hflag
    rw [this] at hline
    cases hline
  exact ⟨h2lt.1, h1lt.2, h2lt.2⟩

/-- The engine's short-slot scan is sound for the spec's no-short-run
property. -/
theorem specNoShortRuns_of_hasInvalidSlots (g : FGrid) (width height : Nat)
    (h : hasInvalidSlots g width height = false) :
    specNoShortRuns g width height := by
  unfold hasInvalidSlots at h
  rw [Bool.or_eq_false_iff] at h
  obtain ⟨hh, hv⟩ := h
  rw [List.any_eq_false] at hh hv
  constructor
  · intro r hr c hc hw hstart
    exact no_short_run_of_lineHasShort _ width
      (by simpa using hh r (List.mem_range.mpr hr)) c hc hw hstart
  · intro c hcw r hr hw hstart
    exact no_short_run_of_lineHasShort _ height
      (by simpa using hv c (List.mem_range.mpr hcw)) r hr hw hstart


/-- Every run found on one line fits inside the line. -/
theorem lineRuns_bound (f : Nat → Bool) (n : Nat) :
    ∀ sl ∈ lineRuns f n, sl.1 + sl.2 ≤ n := by
  unfold lineRuns
  refine (foldl_invariant
    (P := fun (st : Option Nat × List (Nat × Nat)) =>
      (∀ sl ∈ st.2, sl.1 + sl.2 ≤ n) ∧ (∀ s, st.1 = some s → s < n))
    _ (List.range (n + 1)) (none, []) (by simp) ?_).1
  intro b a ha hb
  have han : a ≤ n := by
    have := List.mem_range.mp ha
    omega
  cases hb1 : b.1 with
  | none =>
    by_cases hw : (decide (a < n) && f a) = true
    · simp only [hb1, hw]
      refine ⟨hb.1, ?_⟩
      intro s hs
      cases hs
      rw [Bool.and_eq_true] at hw
      simpa using hw.1
    · rw [Bool.not_eq_true] at hw
      simp only [hb1, hw]
      exact ⟨hb.1, by simp⟩
  | some s =>
    have hsn : s < n := hb.2 s hb1
    by_cases hw : (decide (a < n) && f a) = true
    · simp only [hb1, hw]
      exact ⟨hb.1, fun s2 hs2 => by cases hs2; exact hsn⟩
    · rw [Bool.not_eq_true] at hw
      simp only [hb1, hw]
      refine ⟨?_, by simp⟩
      intro sl hsl
      rw [List.mem_append] at hsl
      cases hsl with
      | inl h1 => exact hb.1 sl h1
      | inr h2 =>
        rw [List.mem_singleton] at h2
        subst h2
        simp only []
        omega

/-- Every run found on the grid lies on a valid line and inside it. -/
theorem findRuns_bound (g : FGrid) (width height : Nat) (d : LineDir) :
    ∀ run ∈ findRuns g width height d,
      run.line < (match d with | .row => height | .col => width) ∧
      run.start + run.length ≤ (match d with | .row => width | .col => height) := by
  unfold findRuns
  refine foldl_invariant
    (P := fun acc : List Run => ∀ run ∈ acc,
      run.line < (match d with | .row => height | .col => width) ∧
      run.start + run.length ≤ (match d with | .row => width | .col => height))
    _ _ [] (by simp) ?_
  intro b i hi hb run hrun
  rw [List.mem_append] at hrun
  cases hrun with
  | inl h1 => exact hb run h1
  | inr h2 =>
    rw [List.mem_map] at h2
    obtain ⟨sl, hsl, he⟩ := h2
    subst he
    refine ⟨by simpa using List.mem_range.mp hi, ?_⟩
    exact lineRuns_bound _ _ sl hsl

/-- `placeBlackPair` keeps 180-degree symmetry when called in bounds. -/
theorem placeBlackPair_symm (g : FGrid) (r c width height : Nat)
    (hr : r < height) (hc : c < width) (hs : specSymmetric g width height) :
    specSymmetric (placeBlackPair g r c width height).1 width height := by
  simp only [placeBlackPair]
  split
  · exact hs
  · split
    · exact hs
    · split
      · -- symmetric centre cell: a single fsetCell
        rename_i hsame
        rw [Bool.and_eq_true, decide_eq_true_iff, decide_eq_true_iff] at hsame
        obtain ⟨hr1, hc1⟩ := hsame
        split
        · exact hs
        · intro a ha b hb
          simp only [fsetCell]
          by_cases he : a = r ∧ b = c
          · rw [if_pos he, if_pos (by omega)]
          · rw [if_neg he, if_neg (by rintro ⟨h1, h2⟩; exact he ⟨by omega, by omega⟩)]
            exact hs a ha b hb
      · -- distinct pair of cells
        rename_i hsame
        rw [Bool.not_eq_true, Bool.and_eq_false_iff] at hsame
        have hor : ¬ r = height - 1 - r ∨ ¬ c = width - 1 - c := by
          cases hsame with
          | inl h1 => exact Or.inl (by simpa using h1)
          | inr h2 => exact Or.inr (by simpa using h2)
        split
        · exact hs
        · intro a ha b hb
          simp only [fsetCell]
          by_cases e1 : a = height - 1 - r ∧ b = width - 1 - c
          · rw [if_pos e1,
              if_neg (by rintro ⟨h1, h2⟩; rcases hor with h | h <;> [exact h (by omega); exact h (by omega)]),
              if_pos (by omega)]
          · by_cases e2 : a = r ∧ b = c
            · rw [if_neg e1, if_pos e2, if_pos (by omega)]
            · rw [if_neg e1, if_neg e2,
                if_neg (by rintro ⟨h1, h2⟩; exact e2 ⟨by omega, by omega⟩),
                if_neg (by rintro ⟨h1, h2⟩; exact e1 ⟨by omega, by omega⟩)]
              exact hs a ha b hb

/-- Any output grid of `placeBlackPair` is the input or passed both
validity checks. -/
theorem placeBlackPair_valid (g : FGrid) (r c width height : Nat) :
    (placeBlackPair g r c width height).1 = g ∨
    (hasInvalidSlots (placeBlackPair g r c width height).1 width height = false ∧
     isConnected (placeBlackPair g r c width height).1 width height = true) := by
  simp only [placeBlackPair]
  split
  · exact Or.inl rfl
  · split
    · exact Or.inl rfl
    · split
      · split
        · exact Or.inl rfl
        · rename_i hcond
          rw [Bool.not_eq_true, Bool.or_eq_false_iff] at hcond
          refine Or.inr ⟨hcond.1, ?_⟩
          have h2 := hcond.2
          simpa using h2
      · split
        · exact Or.inl rfl
        · rename_i hcond
          rw [Bool.not_eq_true, Bool.or_eq_false_iff] at hcond
          refine Or.inr ⟨hcond.1, ?_⟩
          have h2 := hcond.2
          simpa using h2

/-- Membership in the white-cell scan. -/
theorem mem_whiteCells (g : FGrid) (width height : Nat) (p : Nat × Nat) :
    p ∈ whiteCells g width height ↔
      p.1 < height ∧ p.2 < width ∧ g p.1 p.2 = true := by
  unfold whiteCells
  rw [List.mem_flatten]
  constructor
  · rintro ⟨row, hrow, hp⟩
    rw [List.mem_map] at hrow
    obtain ⟨r, hr, he⟩ := hrow
    subst he
    rw [List.mem_filterMap] at hp
    obtain ⟨c, hc, hcp⟩ := hp
    by_cases hw : g r c = true
    · rw [if_pos hw] at hcp
      cases hcp
      exact ⟨List.mem_range.mp hr, List.mem_range.mp hc, hw⟩
    · rw [if_neg hw] at hcp
      cases hcp
  · rintro ⟨h1, h2, h3⟩
    refine ⟨(List.range width).filterMap
      (fun c => if g p.1 c then some (p.1, c) else none), ?_, ?_⟩
    · rw [List.mem_map]
      exact ⟨p.1, List.mem_range.mpr h1, rfl⟩
    · rw [List.mem_filterMap]
      refine ⟨p.2, List.mem_range.mpr h2, ?_⟩
      rw [if_pos h3]

/-- The white-cell scan lists pairwise distinct cells. -/
theorem whiteCells_nodup (g : FGrid) (width height : Nat) :
    (whiteCells g width height).Nodup := by
  unfold whiteCells
  rw [List.nodup_flatten]
  constructor
  · intro row hrow
    rw [List.mem_map] at hrow
    obtain ⟨r, hr, he⟩ := hrow
    subst he
    refine List.Nodup.filterMap ?_ (List.nodup_range width)
    intro a b x hax hbx
    by_cases hwa : g r a = true
    · rw [if_pos hwa] at hax
      by_cases hwb : g r b = true
      · rw [if_pos hwb] at hbx
        cases hax
        cases hbx
        rfl
      · rw [if_neg hwb] at hbx; cases hbx
    · rw [if_neg hwa] at hax; cases hax
  · rw [List.pairwise_map]
    refine List.Pairwise.imp ?_ (List.pairwise_lt_range _)
    intro r1 r2 hlt x hx1 hx2
    have e1 : x.1 = r1 := by
      rw [List.mem_filterMap] at hx1
      obtain ⟨c, _, hc⟩ := hx1
      by_cases hw : g r1 c = true
      · rw [if_pos hw] at hc; cases hc; rfl
      · rw [if_neg hw] at hc; cases hc
    have e2 : x.1 = r2 := by
      rw [List.mem_filterMap] at hx2
      obtain ⟨c, _, hc⟩ := hx2
      by_cases hw : g r2 c = true
      · rw [if_pos hw] at hc; cases hc; rfl
      · rw [if_neg hw] at hc; cases hc
    omega

/-- The 4-neighbour relation is symmetric. -/
theorem adjW_symm (g : FGrid) (width height : Nat) :
    Symmetric (adjW g width height) := by
  rintro p q ⟨h1, h2, h3, h4, h5, h6, hd⟩
  refine ⟨h3, h4, h1, h2, h6, h5, ?_⟩
  rcases hd with ⟨ha, hb⟩ | ⟨ha, hb⟩ | ⟨ha, hb⟩ | ⟨ha, hb⟩
  · exact Or.inr (Or.inl ⟨ha, hb.symm⟩)
  · exact Or.inl ⟨ha, hb.symm⟩
  · exact Or.inr (Or.inr (Or.inr ⟨ha, hb.symm⟩))
  · exact Or.inr (Or.inr (Or.inl ⟨ha, hb.symm⟩))

/-- Every listed neighbour is adjacent in the spec relation. -/
theorem adjW_of_neighborsOf (g : FGrid) (width height : Nat) (p q : Nat × Nat)
    (hp : p.1 < height ∧ p.2 < width ∧ g p.1 p.2 = true)
    (hq : q ∈ neighborsOf g width height p) : adjW g width height p q := by
  unfold neighborsOf at hq
  rw [List.mem_filterMap] at hq
  obtain ⟨d, hd, he⟩ := hq
  simp only [List.mem_cons, List.mem_singleton, List.not_mem_nil, or_false] at hd
  rcases hd with rfl | rfl | rfl | rfl
  · have he2 : (if 0 ≤ (p.1 : Int) + (-1) ∧ (p.1 : Int) + (-1) < (height : Int) ∧
        0 ≤ (p.2 : Int) + 0 ∧ (p.2 : Int) + 0 < (width : Int) ∧
        g ((p.1 : Int) + (-1)).toNat ((p.2 : Int) + 0).toNat then
        some (((p.1 : Int) + (-1)).toNat, ((p.2 : Int) + 0).toNat) else none) = some q := he
    split at he2
    · rename_i hcond
      cases he2
      obtain ⟨c1, c2, c3, c4, c5⟩ := hcond
      refine ⟨hp.1, hp.2.1, by omega, by omega, hp.2.2, c5, ?_⟩
      right; left
      constructor <;> omega
    · cases he2
  · have he2 : (if 0 ≤ (p.1 : Int) + 1 ∧ (p.1 : Int) + 1 < (height : Int) ∧
        0 ≤ (p.2 : Int) + 0 ∧ (p.2 : Int) + 0 < (width : Int) ∧
        g ((p.1 : Int) + 1).toNat ((p.2 : Int) + 0).toNat then
        some (((p.1 : Int) + 1).toNat, ((p.2 : Int) + 0).toNat) else none) = some q := he
    split at he2
    · rename_i hcond
      cases he2
      obtain ⟨c1, c2, c3, c4, c5⟩ := hcond
      refine ⟨hp.1, hp.2.1, by omega, by omega, hp.2.2, c5, ?_⟩
      left
      constructor <;> omega
    · cases he2
  · have he2 : (if 0 ≤ (p.1 : Int) + 0 ∧ (p.1 : Int) + 0 < (height : Int) ∧
        0 ≤ (p.2 : Int) + (-1) ∧ (p.2 : Int) + (-1) < (width : Int) ∧
        g ((p.1 : Int) + 0).toNat ((p.2 : Int) + (-1)).toNat then
        some (((p.1 : Int) + 0).toNat, ((p.2 : Int) + (-1)).toNat) else none) = some q := he
    split at he2
    · rename_i hcond
      cases he2
      obtain ⟨c1, c2, c3, c4, c5⟩ := hcond
      refine ⟨hp.1, hp.2.1, by omega, by omega, hp.2.2, c5, ?_⟩
      right; right; right
      constructor <;> omega
    · cases he2
  · have he2 : (if 0 ≤ (p.1 : Int) + 0 ∧ (p.1 : Int) + 0 < (height : Int) ∧
        0 ≤ (p.2 : Int) + 1 ∧ (p.2 : Int) + 1 < (width : Int) ∧
        g ((p.1 : Int) + 0).toNat ((p.2 : Int) + 1).toNat then
        some (((p.1 : Int) + 0).toNat, ((p.2 : Int) + 1).toNat) else none) = some q := he
    split at he2
    · rename_i hcond
      cases he2
      obtain ⟨c1, c2, c3, c4, c5⟩ := hcond
      refine ⟨hp.1, hp.2.1, by omega, by omega, hp.2.2, c5, ?_⟩
      right; right; left
      constructor <;> omega
    · cases he2

/-- Invariant of the BFS loop: visited cells are white, in bounds,
pairwise distinct and reachable from the seed; pops plus pending queue
entries account exactly for the visited cells. -/
theorem bfsLoop_inv (g : FGrid) (width height : Nat) (s : Nat × Nat) :
    ∀ (fuel : Nat) (queue visited : List (Nat × Nat)) (count : Nat),
      (∀ p ∈ visited, p.1 < height ∧ p.2 < width ∧ g p.1 p.2 = true ∧
        Relation.ReflTransGen (adjW g width height) s p) →
      visited.Nodup →
      (∀ p ∈ queue, p ∈ visited) →
      count + queue.length = visited.length →
      (∀ p ∈ (bfsLoop g width height fuel queue visited count).2.1,
          p.1 < height ∧ p.2 < width ∧ g p.1 p.2 = true ∧
          Relation.ReflTransGen (adjW g width height) s p) ∧
      (bfsLoop g width height fuel queue visited count).2.1.Nodup ∧
      (bfsLoop g width height fuel queue visited count).1 +
        (bfsLoop g width height fuel queue visited count).2.2.length =
        (bfsLoop g width height fuel queue visited count).2.1.length := by
  intro fuel
  induction fuel with
  | zero =>
    intro queue visited count h1 h2 h3 h4
    exact ⟨h1, h2, h4⟩
  | succ n ih =>
    intro queue visited count h1 h2 h3 h4
    cases queue with
    | nil =>
      refine ⟨h1, h2, ?_⟩
      simp only [bfsLoop]
      simpa using h4
    | cons p rest =>
      have hpv : p ∈ visited := h3 p (by simp)
      have hpfacts := h1 p hpv
      have hfold := foldl_invariant
        (P := fun st : List (Nat × Nat) × List (Nat × Nat) =>
          (∀ x ∈ st.1, x.1 < height ∧ x.2 < width ∧ g x.1 x.2 = true ∧
            Relation.ReflTransGen (adjW g width height) s x) ∧
          st.1.Nodup ∧ (∀ x ∈ st.2, x ∈ st.1) ∧
          (count + 1) + st.2.length = st.1.length)
        (fun (st : List (Nat × Nat) × List (Nat × Nat)) q =>
          if q ∈ st.1 then st else (st.1 ++ [q], st.2 ++ [q]))
        (neighborsOf g width height p) (visited, rest)
        ⟨h1, h2, fun x hx => h3 x (by simp [hx]), by
          have h4b := h4
          simp only [List.length_cons] at h4b
          show count + 1 + rest.length = visited.length
          omega⟩
        ?_
      · have hgoal := ih _ _ _ hfold.1 hfold.2.1 hfold.2.2.1 hfold.2.2.2
        exact hgoal
      · intro b q hqn hbP
        have hred : ((fun (st : List (Nat × Nat) × List (Nat × Nat)) q =>
            if q ∈ st.1 then st else (st.1 ++ [q], st.2 ++ [q])) b q) =
            if q ∈ b.1 then b else (b.1 ++ [q], b.2 ++ [q]) := rfl
        rw [hred]
        by_cases hmem : q ∈ b.1
        · rw [if_pos hmem]
          exact hbP
        · rw [if_neg hmem]
          have hadj : adjW g width height p q :=
            adjW_of_neighborsOf g width height p q
              ⟨hpfacts.1, hpfacts.2.1, hpfacts.2.2.1⟩ hqn
          have hqfacts : q.1 < height ∧ q.2 < width ∧ g q.1 q.2 = true ∧
              Relation.ReflTransGen (adjW g width height) s q := by
            refine ⟨hadj.2.2.1, hadj.2.2.2.1, hadj.2.2.2.2.2.1, ?_⟩
            exact Relation.ReflTransGen.tail hpfacts.2.2.2 hadj
          refine ⟨?_, ?_, ?_, ?_⟩
          · intro x hx
            rw [List.mem_append] at hx
            cases hx with
            | inl h => exact hbP.1 x h
            | inr h =>
              rw [List.mem_singleton] at h
              subst h
              exact hqfacts
          · rw [List.nodup_append]
            exact ⟨hbP.2.1, List.nodup_singleton _, by simpa using hmem⟩
          · intro x hx
            rw [List.mem_append] at hx
            rw [List.mem_append]
            cases hx with
            | inl h => exact Or.inl (hbP.2.2.1 x h)
            | inr h => exact Or.inr h
          · rw [List.length_append, List.length_append]
            have := hbP.2.2.2
            simp only [List.length_singleton]
            omega

/-- The BFS count check is sound: a full count means every white cell was
visited, hence reachable from the scan seed, so the white region is one
component. -/
theorem specConnected_of_isConnected (g : FGrid) (width height : Nat)
    (h : isConnected g width height = true) : specConnected g width height := by
  intro p q hp1 hp2 hpw hq1 hq2 hqw
  have hpmem : p ∈ whiteCells g width height :=
    (mem_whiteCells g width height p).mpr ⟨hp1, hp2, hpw⟩
  have hqmem : q ∈ whiteCells g width height :=
    (mem_whiteCells g width height q).mpr ⟨hq1, hq2, hqw⟩
  cases hw : whiteCells g width height with
  | nil =>
    rw [hw] at hpmem
    cases hpmem
  | cons start rest =>
    unfold isConnected at h
    rw [hw] at h
    rw [beq_iff_eq] at h
    have hstart : start ∈ whiteCells g width height := by
      rw [hw]
      exact List.mem_cons_self _ _
    obtain ⟨hs1, hs2, hs3⟩ := (mem_whiteCells g width height start).mp hstart
    have hinv := bfsLoop_inv g width height start (width * height + 1)
      [start] [start] 0
      (fun x hx => by
        rw [List.mem_singleton] at hx
        subst hx
        exact ⟨hs1, hs2, hs3, Relation.ReflTransGen.refl⟩)
      (List.nodup_singleton _) (fun x hx => hx) (by simp)
    obtain ⟨hvis, hnd, hlen⟩ := hinv
    have hsub : ∀ x ∈ (bfsLoop g width height (width * height + 1)
        [start] [start] 0).2.1, x ∈ whiteCells g width height := by
      intro x hx
      exact (mem_whiteCells g width height x).mpr
        ⟨(hvis x hx).1, (hvis x hx).2.1, (hvis x hx).2.2.1⟩
    have hle : ((bfsLoop g width height (width * height + 1)
        [start] [start] 0).2.1 : Multiset (Nat × Nat)) ≤
        (whiteCells g width height : Multiset (Nat × Nat)) := by
      refine Multiset.le_iff_count.mpr ?_
      intro a
      by_cases ha : a ∈ (bfsLoop g width height (width * height + 1)
          [start] [start] 0).2.1
      · have h1a : Multiset.count a ((bfsLoop g width height (width * height + 1)
            [start] [start] 0).2.1 : Multiset (Nat × Nat)) = 1 :=
          Multiset.count_eq_one_of_mem (by simpa using hnd) (by simpa using ha)
        have h2a : 1 ≤ Multiset.count a
            (whiteCells g width height : Multiset (Nat × Nat)) :=
          Multiset.one_le_count_iff_mem.mpr (by simpa using hsub a ha)
        omega
      · rw [Multiset.count_eq_zero_of_not_mem (by simpa using ha)]
        omega
    have hcard : Multiset.card (whiteCells g width height : Multiset (Nat × Nat)) ≤
        Multiset.card ((bfsLoop g width height (width * height + 1)
          [start] [start] 0).2.1 : Multiset (Nat × Nat)) := by
      simp only [Multiset.coe_card]
      rw [hw]
      omega
    have heq := Multiset.eq_of_le_of_card_le hle hcard
    have hreach : ∀ x ∈ whiteCells g width height,
        Relation.ReflTransGen (adjW g width height) start x := by
      intro x hx
      have hx2 : x ∈ (bfsLoop g width height (width * height + 1)
          [start] [start] 0).2.1 := by
        rw [← Multiset.mem_coe, heq, Multiset.mem_coe]
        exact hx
      exact (hvis x hx2).2.2.2
    exact Relation.ReflTransGen.trans
      ((Relation.ReflTransGen.symmetric (adjW_symm g width height)) (hreach p hpmem))
      (hreach q hqmem)

/-- The untouched all-white grid has no short runs once both dimensions
are at least three. -/
theorem allwhite_noShort (width height : Nat) (hw3 : 3 ≤ width) (hh3 : 3 ≤ height) :
    specNoShortRuns (makeWhiteGrid width height) width height := by
  constructor
  · intro r hr c hc hwt hstart
    have hc0 : c = 0 := by
      rcases hstart with h | h
      · exact h
      · cases h
    subst hc0
    exact ⟨by omega, rfl, rfl⟩
  · intro c hc r hr hwt hstart
    have hr0 : r = 0 := by
      rcases hstart with h | h
      · exact h
      · cases h
    subst hr0
    exact ⟨by omega, rfl, rfl⟩

/-- The all-white grid is connected: walk to the origin along the row,
then up the column. -/
theorem allwhite_connected (width height : Nat) :
    specConnected (makeWhiteGrid width height) width height := by
  have hrow : ∀ r, r < height → ∀ c, c < width →
      Relation.ReflTransGen (adjW (makeWhiteGrid width height) width height)
        (r, c) (r, 0) := by
    intro r hr c
    induction c with
    | zero => intro _; exact Relation.ReflTransGen.refl
    | succ k ih =>
      intro hk
      refine Relation.ReflTransGen.head ?_ (ih (by omega))
      refine ⟨hr, by simpa using hk, hr, by omega, rfl, rfl, ?_⟩
      right; right; right
      exact ⟨rfl, rfl⟩
  have hcol : ∀ r, r < height → 0 < width →
      Relation.ReflTransGen (adjW (makeWhiteGrid width height) width height)
        (r, 0) (0, 0) := by
    intro r
    induction r with
    | zero => intro _ _; exact Relation.ReflTransGen.refl
    | succ k ih =>
      intro hk hw0
      refine Relation.ReflTransGen.head ?_ (ih (by omega) hw0)
      refine ⟨by simpa using hk, hw0, by omega, hw0, rfl, rfl, ?_⟩
      right; left
      exact ⟨rfl, rfl⟩
  intro p q hp1 hp2 hpw hq1 hq2 hqw
  have h1 := Relation.ReflTransGen.trans (hrow p.1 hp1 p.2 hp2)
    (hcol p.1 hp1 (by omega))
  have h2 := Relation.ReflTransGen.trans (hrow q.1 hq1 q.2 hq2)
    (hcol q.1 hq1 (by omega))
  exact Relation.ReflTransGen.trans h1
    ((Relation.ReflTransGen.symmetric
      (adjW_symm (makeWhiteGrid width height) width height)) h2)

/-- Interior scatter candidates are strictly inside the grid. -/
theorem mem_interiorWhites (g : FGrid) (width height : Nat) (p : Nat × Nat)
    (hp : p ∈ interiorWhites g width height) : p.1 < height ∧ p.2 < width := by
  unfold interiorWhites at hp
  rw [List.mem_flatten] at hp
  obtain ⟨row, hrow, hpr⟩ := hp
  rw [List.mem_map] at hrow
  obtain ⟨r, hr, he⟩ := hrow
  subst he
  rw [List.mem_map] at hr
  obtain ⟨k, hk, he2⟩ := hr
  subst he2
  rw [List.mem_filterMap] at hpr
  obtain ⟨c, hc, hcp⟩ := hpr
  rw [List.mem_map] at hc
  obtain ⟨k2, hk2, he3⟩ := hc
  subst he3
  by_cases hwht : g (k + 1) (k2 + 1) = true
  · rw [if_pos hwht] at hcp
    cases hcp
    have h1 := List.mem_range.mp hk
    have h2 := List.mem_range.mp hk2
    constructor <;> [omega; omega]
  · rw [if_neg hwht] at hcp
    cases hcp

/-- `placeBlackPair` preserves the reachable-state invariant. -/
theorem placeBlackPair_reach (g : FGrid) (r c width height : Nat)
    (hr : r < height) (hc : c < width) (h : templateReach width height g) :
    templateReach width height (placeBlackPair g r c width height).1 := by
  refine ⟨placeBlackPair_symm g r c width height hr hc h.1, ?_⟩
  cases placeBlackPair_valid g r c width height with
  | inl he => rw [he]; exact h.2
  | inr hv => exact Or.inr hv

/-- Trying break positions in order preserves the invariant. -/
theorem tryBreakPositions_reach (width height : Nat) (mk : Nat → Nat × Nat) :
    ∀ (ps : List Nat) (g : FGrid),
      (∀ p ∈ ps, (mk p).1 < height ∧ (mk p).2 < width) →
      templateReach width height g →
      templateReach width height (tryBreakPositions g width height mk ps).1 := by
  intro ps
  induction ps with
  | nil => intro g _ h; exact h
  | cons p rest ih =>
    intro g hmk h
    show templateReach width height
      (if (placeBlackPair g (mk p).1 (mk p).2 width height).2 = true
        then ((placeBlackPair g (mk p).1 (mk p).2 width height).1, true)
        else tryBreakPositions g width height mk rest).1
    have hb := hmk p (by simp)
    split
    · exact placeBlackPair_reach g (mk p).1 (mk p).2 width height hb.1 hb.2 h
    · exact ih g (fun x hx => hmk x (by simp [hx])) h

/-- Breaking one run preserves the invariant. -/
theorem breakRun_reach (g : FGrid) (width height : Nat) (rng : Rng) (run : Run)
    (mk : Nat → Nat × Nat)
    (hmk : ∀ p, run.start + MIN_SLOT_LENGTH ≤ p →
      p + MIN_SLOT_LENGTH + 1 ≤ run.start + run.length →
      (mk p).1 < height ∧ (mk p).2 < width)
    (h : templateReach width height g) :
    templateReach width height (breakRun g width height rng run mk).1 := by
  simp only [breakRun]
  split
  · exact h
  · split
    · exact h
    · rename_i hlong hpos
      refine tryBreakPositions_reach width height mk _ g ?_ h
      intro p hp
      rw [mem_fyShuffle] at hp
      rw [List.mem_map] at hp
      obtain ⟨k, hk, he⟩ := hp
      subst he
      have hkr := List.mem_range.mp hk
      refine hmk _ (by omega) (by omega)

/-- Breaking a run list preserves the invariant. -/
theorem breakRuns_reach (width height : Nat) (mkOf : Run → Nat → Nat × Nat)
    (runs : List Run) (st : FGrid × Bool × Rng)
    (hmk : ∀ run ∈ runs, ∀ p, run.start + MIN_SLOT_LENGTH ≤ p →
      p + MIN_SLOT_LENGTH + 1 ≤ run.start + run.length →
      (mkOf run p).1 < height ∧ (mkOf run p).2 < width)
    (h : templateReach width height st.1) :
    templateReach width height (breakRuns width height mkOf runs st).1 := by
  unfold breakRuns
  refine foldl_invariant
    (P := fun st0 : FGrid × Bool × Rng => templateReach width height st0.1)
    _ runs st h ?_
  intro b run hrun hb
  exact breakRun_reach b.1 width height b.2.2 run (mkOf run) (hmk run hrun) hb

/-- One template pass preserves the invariant. -/
theorem templatePass_reach (width height : Nat) (g : FGrid) (rng : Rng)
    (h : templateReach width height g) :
    templateReach width height (templatePass width height g rng).1 := by
  simp only [templatePass]
  refine breakRuns_reach width height _ _ _ ?_ ?_
  · intro run hrun p hp1 hp2
    have hb := findRuns_bound _ width height .col run hrun
    simp only [] at hb
    constructor <;> omega
  · refine breakRuns_reach width height _ _ _ ?_ h
    intro run hrun p hp1 hp2
    have hb := findRuns_bound g width height .row run hrun
    simp only [] at hb
    constructor <;> omega

/-- Phase 1 preserves the invariant. -/
theorem templatePhase1_reach (width height : Nat) :
    ∀ (n : Nat) (g : FGrid) (rng : Rng),
      templateReach width height g →
      templateReach width height (templatePhase1 width height n g rng).1 := by
  intro n
  induction n with
  | zero => intro g rng h; exact h
  | succ k ih =>
    intro g rng h
    have hpass := templatePass_reach width height g rng h
    show templateReach width height
      (if (templatePass width height g rng).2.1 = true
        then templatePhase1 width height k (templatePass width height g rng).1
          (templatePass width height g rng).2.2
        else ((templatePass width height g rng).1,
          (templatePass width height g rng).2.2)).1
    split
    · exact ih _ _ hpass
    · exact hpass

/-- The scatter phase preserves the invariant. -/
theorem scatterFold_reach (width height budget : Nat) (cands : List (Nat × Nat))
    (g : FGrid) (hc : ∀ rc ∈ cands, rc.1 < height ∧ rc.2 < width)
    (h : templateReach width height g) :
    templateReach width height (scatterFold width height budget cands g) := by
  unfold scatterFold
  refine foldl_invariant
    (P := fun st : FGrid × Nat => templateReach width height st.1)
    _ cands (g, 0) h ?_
  intro b rc hrc hb
  have hbnd := hc rc hrc
  simp only [scatterStep]
  split
  · exact hb
  · split
    · exact hb
    · split
      · exact placeBlackPair_reach b.1 rc.1 rc.2 width height hbnd.1 hbnd.2 hb
      · exact placeBlackPair_reach b.1 rc.1 rc.2 width height hbnd.1 hbnd.2 hb

/-- Every grid returned by the template generator is a reachable state. -/
theorem generateTemplate_reach (width height : Nat) (rng : Rng) :
    templateReach width height (generateTemplate width height rng).1 := by
  have hbase : templateReach width height (makeWhiteGrid width height) :=
    ⟨fun r _ c _ => rfl, Or.inl rfl⟩
  have hph1 := templatePhase1_reach width height 20 (makeWhiteGrid width height)
    rng hbase
  simp only [generateTemplate]
  split
  · refine scatterFold_reach width height _ _ _ ?_ hph1
    intro rc hrc
    rw [mem_fyShuffle] at hrc
    exact mem_interiorWhites _ width height rc hrc
  · exact hph1

/-- C3 (corrected): for every width and height of at least three, every
boolean template returned by `generateTemplate` is 180-degree rotationally
symmetric, has no maximal white run of length one or two, and has a single
4-connected white region; for smaller dimensions the no-short-run invariant
fails (see the counterexample). -/
theorem c3_template_invariants (width height : Nat) (rng : Rng)
    (hw3 : 3 ≤ width) (hh3 : 3 ≤ height) :
    templateInv (generateTemplate width height rng).1 width height := by
  obtain ⟨hsym, hd⟩ := generateTemplate_reach width height rng
  refine ⟨hsym, ?_, ?_⟩
  · cases hd with
    | inl he => rw [he]; exact allwhite_noShort width height hw3 hh3
    | inr hv => exact specNoShortRuns_of_hasInvalidSlots _ _ _ hv.1
  · cases hd with
    | inl he => rw [he]; exact allwhite_connected width height
    | inr hv => exact specConnected_of_isConnected _ _ _ hv.2

/-- The 2 by 2 template stays all white, so its maximal white runs have
length exactly two, violating the no-short-run invariant of the claim. -/
theorem c3_counterexample : ¬ templateInv (generateTemplate 2 2 rng0).1 2 2 := by
  intro h
  have h00 : (generateTemplate 2 2 rng0).1 0 0 = true := by decide
  have hbad := (h.2.1.1 0 (by omega) 0 (by omega) h00 (Or.inl rfl)).1
  omega

/-- Witness: at the smallest covered size the amended theorem applies. -/
theorem c3_witness :
    (3 ≤ 3 ∧ 3 ≤ 3) ∧ templateInv (generateTemplate 3 3 rng0).1 3 3 :=
  ⟨⟨by decide, by decide⟩, c3_template_invariants 3 3 rng0 (by decide) (by decide)⟩


/-- The compact step either commits the entry's word or leaves the state. -/
theorem compactTry_spec (log : LogFn) (play : Play) (dict : List Wd) :
    ∀ st e, ((compactTry log play dict st e).2 = true ∧
        (compactTry log play dict st e).1.2.map (fun g => g.word) =
          st.2.map (fun g => g.word) ++ [e.word]) ∨
      ((compactTry log play dict st e).2 = false ∧
        (compactTry log play dict st e).1 = st) := by
  intro st e
  simp only [compactTry]
  split
  · exact Or.inr ⟨rfl, rfl⟩
  · split
    · exact Or.inr ⟨rfl, rfl⟩
    · refine Or.inl ⟨rfl, ?_⟩
      simp [commitPlacement]

/-- The dense grow step either commits the entry's word or leaves the
state. -/
theorem denseGrowTry_spec (log : LogFn) (play : Play) (dict : List Wd) :
    ∀ st e, ((denseGrowTry log play dict st e).2 = true ∧
        (denseGrowTry log play dict st e).1.2.map (fun g => g.word) =
          st.2.map (fun g => g.word) ++ [e.word]) ∨
      ((denseGrowTry log play dict st e).2 = false ∧
        (denseGrowTry log play dict st e).1 = st) := by
  intro st e
  simp only [denseGrowTry]
  split
  · exact Or.inr ⟨rfl, rfl⟩
  · split
    · exact Or.inr ⟨rfl, rfl⟩
    · refine Or.inl ⟨rfl, ?_⟩
      simp [commitPlacement]

/-- The shared retry step of the fitted and smart strategies either
commits the entry's word or leaves the state. -/
theorem retryTry30_spec (log : LogFn) (play : Play) (dict : List Wd) :
    ∀ st e, ((retryTry30 log play dict st e).2 = true ∧
        (retryTry30 log play dict st e).1.2.map (fun g => g.word) =
          st.2.map (fun g => g.word) ++ [e.word]) ∨
      ((retryTry30 log play dict st e).2 = false ∧
        (retryTry30 log play dict st e).1 = st) := by
  intro st e
  simp only [retryTry30]
  split
  · exact Or.inr ⟨rfl, rfl⟩
  · split
    · exact Or.inr ⟨rfl, rfl⟩
    · refine Or.inl ⟨rfl, ?_⟩
      simp [commitPlacement]

/-- The fitted main step either commits the entry's word or leaves the
state. -/
theorem fittedTryMain_spec (log : LogFn) (play : Play) (dict : List Wd) :
    ∀ st e, ((fittedTryMain log play dict st e).2 = true ∧
        (fittedTryMain log play dict st e).1.2.map (fun g => g.word) =
          st.2.map (fun g => g.word) ++ [e.word]) ∨
      ((fittedTryMain log play dict st e).2 = false ∧
        (fittedTryMain log play dict st e).1 = st) := by
  intro st e
  simp only [fittedTryMain]
  split
  · exact Or.inr ⟨rfl, rfl⟩
  · split
    · exact Or.inr ⟨rfl, rfl⟩
    · refine Or.inl ⟨rfl, ?_⟩
      simp [commitPlacement]

/-- The smart main step either commits the entry's word or leaves the
state. -/
theorem smartTryMain_spec (log : LogFn) (play : Play) (dict : List Wd) :
    ∀ st e, ((smartTryMain log play dict st e).2 = true ∧
        (smartTryMain log play dict st e).1.2.map (fun g => g.word) =
          st.2.map (fun g => g.word) ++ [e.word]) ∨
      ((smartTryMain log play dict st e).2 = false ∧
        (smartTryMain log play dict st e).1 = st) := by
  intro st e
  simp only [smartTryMain]
  split
  · exact Or.inr ⟨rfl, rfl⟩
  · split
    · exact Or.inr ⟨rfl, rfl⟩
    · refine Or.inl ⟨rfl, ?_⟩
      simp [commitPlacement]

/-- The dense seed step either commits the entry's word or leaves the
state. -/
theorem denseSeedTry_spec (log : LogFn) (play : Play) (dict : List Wd) :
    ∀ st e, ((denseSeedTry log play dict st e).2.map (fun g => g.word) =
        st.2.map (fun g => g.word) ++ [e.word]) ∨
      denseSeedTry log play dict st e = st := by
  intro st e
  simp only [denseSeedTry]
  split
  · exact Or.inr rfl
  · split
    · exact Or.inr rfl
    · refine Or.inl ?_
      simp [commitPlacement]

/-- The dense final step either commits the entry's word or leaves the
state. -/
theorem denseFinalTry_spec (log : LogFn) (play : Play) (dict : List Wd) :
    ∀ st e, ((denseFinalTry log play dict st e).2.map (fun g => g.word) =
        st.2.map (fun g => g.word) ++ [e.word]) ∨
      denseFinalTry log play dict st e = st := by
  intro st e
  simp only [denseFinalTry]
  split
  · exact Or.inr rfl
  · split
    · exact Or.inr rfl
    · refine Or.inl ?_
      simp [commitPlacement]

/-- Word-distinctness invariant of a plain placement fold (steps without a
placed flag): the placed words stay distinct and every new word comes from
the processed entries. -/
theorem plainFold_nodup (step : PlaceSt → WordEntry → PlaceSt)
    (hstep : ∀ st e, ((step st e).2.map (fun g => g.word) =
        st.2.map (fun g => g.word) ++ [e.word]) ∨ step st e = st) :
    ∀ (entries : List WordEntry) (st : PlaceSt),
      (st.2.map (fun g => g.word)).Nodup →
      ((entries.map (fun e => e.word)).Nodup) →
      (∀ w ∈ entries.map (fun e => e.word), w ∉ st.2.map (fun g => g.word)) →
      (((entries.foldl step st).2.map (fun g => g.word)).Nodup) ∧
      (∀ w ∈ (entries.foldl step st).2.map (fun g => g.word),
        w ∈ st.2.map (fun g => g.word) ∨ w ∈ entries.map (fun e => e.word)) := by
  intro entries
  induction entries with
  | nil =>
    intro st h1 _ _
    exact ⟨h1, fun w hw => Or.inl hw⟩
  | cons e tl ih =>
    intro st h1 h2 h3
    rw [List.foldl_cons]
    have he3 : e.word ∉ st.2.map (fun g => g.word) := h3 e.word (by simp)
    have htl2 : (tl.map (fun e2 => e2.word)).Nodup := (List.nodup_cons.mp (by
      simpa using h2)).2
    have hetl : e.word ∉ tl.map (fun e2 => e2.word) := (List.nodup_cons.mp (by
      simpa using h2)).1
    rcases hstep st e with hw | hid
    · have h1b : ((step st e).2.map (fun g => g.word)).Nodup := by
        rw [hw]
        refine List.Nodup.append h1 (by simp) ?_
        intro a ha hae
        simp only [List.mem_singleton] at hae
        subst hae
        exact he3 ha
      have h3b : ∀ w ∈ tl.map (fun e2 => e2.word),
          w ∉ (step st e).2.map (fun g => g.word) := by
        intro w hwtl
        rw [hw]
        intro hmem
        rcases List.mem_append.mp hmem with hm | hm
        · exact h3 w (by simp [hwtl]) hm
        · simp only [List.mem_singleton] at hm
          subst hm
          exact hetl hwtl
      obtain ⟨ha, hb⟩ := ih (step st e) h1b htl2 h3b
      refine ⟨ha, ?_⟩
      intro w hwmem
      rcases hb w hwmem with hm | hm
      · rw [hw] at hm
        rcases List.mem_append.mp hm with hm2 | hm2
        · exact Or.inl hm2
        · simp only [List.mem_singleton] at hm2
          subst hm2
          exact Or.inr (by simp)
      · exact Or.inr (by simp [hm])
    · rw [hid]
      obtain ⟨ha, hb⟩ := ih st h1 htl2 (fun w hwtl => h3 w (by simp [hwtl]))
      refine ⟨ha, ?_⟩
      intro w hwmem
      rcases hb w hwmem with hm | hm
      · exact Or.inl hm
      · exact Or.inr (by simp [hm])

/-- The compact strategy never places a word twice when the input words
are pairwise distinct. -/
theorem generateCompact_nodup (allWords : List WordEntry) (play : Play)
    (log : LogFn) (words : List WordEntry) (h : entriesDistinct words) :
    optWordsNodup (generateCompact allWords play log words) := by
  unfold generateCompact
  cases hs : sortByDesc (fun e : WordEntry => e.word.length) words with
  | nil =>
    simp only [hs]
    exact trivial
  | cons first rest =>
    simp only [hs]
    have hperm := sortByDesc_perm (fun e : WordEntry => e.word.length) words
    rw [hs] at hperm
    have h2 : (words.map (fun e => e.word)).Nodup := h
    have hnd : ((first :: rest).map (fun e => e.word)).Nodup :=
      ((hperm.map (fun e => e.word)).nodup_iff).mpr h2
    have hfw : first.word ∉ rest.map (fun e => e.word) :=
      (List.nodup_cons.mp (by simpa using hnd)).1
    have hrest : (rest.map (fun e => e.word)).Nodup :=
      (List.nodup_cons.mp (by simpa using hnd)).2
    have hseed : ((seedState GRID_COMPACT first).2.map (fun g => g.word)).Nodup := by
      simp [seedState]
    have hdisj : ∀ w ∈ rest.map (fun e => e.word),
        w ∉ (seedState GRID_COMPACT first).2.map (fun g => g.word) := by
      intro w hw
      simp only [seedState, List.map_cons, List.map_nil, List.mem_singleton]
      intro he
      rw [he] at hw
      exact hfw hw
    have hspec := compactTry_spec log play (allWords.map (fun e => e.word))
    obtain ⟨ha, hb, hc⟩ := processPass_nodup _ hspec
      rest (seedState GRID_COMPACT first) hseed hrest hdisj
    refine finalize_words_nodup _ _ _ _ ?_
    exact retryPasses_nodup _ hspec 2 _ _ ha hb hc

/-- Exchanging the head with the element replaced at position `k` is a
permutation. -/
theorem cons_set_perm {α : Type} :
    ∀ (xs : List α) (k : Nat) (b a : α), xs.get? k = some b →
      List.Perm (b :: xs.set k a) (a :: xs) := by
  intro xs
  induction xs with
  | nil =>
    intro k b a hb
    simp at hb
  | cons y ys ih =>
    intro k b a hb
    cases k with
    | zero =>
      rw [List.get?_cons_zero] at hb
      injection hb with hb
      subst hb
      exact List.Perm.swap a y ys
    | succ m =>
      rw [List.get?_cons_succ] at hb
      show List.Perm (b :: y :: ys.set m a) (a :: y :: ys)
      exact ((List.Perm.swap y b (ys.set m a)).trans
        ((ih m b a hb).cons y)).trans (List.Perm.swap a y ys)

/-- Writing each of two read elements at the other's position is a
permutation. -/
theorem set_swap_perm {α : Type} :
    ∀ (l : List α) (i j : Nat) (a b : α), l.get? i = some a →
      l.get? j = some b → List.Perm ((l.set i b).set j a) l := by
  intro l
  induction l with
  | nil =>
    intro i j a b hi
    simp at hi
  | cons x xs ih =>
    intro i j a b hi hj
    cases i with
    | zero =>
      rw [List.get?_cons_zero] at hi
      injection hi with hi
      subst hi
      cases j with
      | zero =>
        rw [List.get?_cons_zero] at hj
        injection hj with hj
        subst hj
        exact List.Perm.refl _
      | succ k =>
        rw [List.get?_cons_succ] at hj
        exact cons_set_perm xs k b x hj
    | succ m =>
      rw [List.get?_cons_succ] at hi
      cases j with
      | zero =>
        rw [List.get?_cons_zero] at hj
        injection hj with hj
        subst hj
        exact cons_set_perm xs m a x hi
      | succ k =>
        rw [List.get?_cons_succ] at hj
        exact (ih m k a b hi hj).cons x

/-- A swap is a permutation. -/
theorem swapL_perm {α : Type} (l : List α) (i j : Nat) :
    List.Perm (swapL l i j) l := by
  unfold swapL
  cases hi : l.get? i with
  | none => exact List.Perm.refl l
  | some a =>
    cases hj : l.get? j with
    | none => exact List.Perm.refl l
    | some b => exact set_swap_perm l i j a b hi hj

/-- The Fisher–Yates passes permute the list. -/
theorem fyAux_perm {α : Type} :
    ∀ (n : Nat) (l : List α) (g : Rng), List.Perm (fyAux l g n).1 l := by
  intro n
  induction n with
  | zero => intro l g; exact List.Perm.refl l
  | succ i ih =>
    intro l g
    exact (ih (swapL l (i + 1) (g.next (i + 2)).1) (g.next (i + 2)).2).trans
      (swapL_perm l (i + 1) (g.next (i + 2)).1)

/-- The Fisher–Yates shuffle permutes the list. -/
theorem fyShuffle_perm {α : Type} (l : List α) (g : Rng) :
    List.Perm (fyShuffle l g).1 l := by
  unfold fyShuffle
  cases hl : l.length with
  | zero => exact List.Perm.refl l
  | succ n => exact fyAux_perm n l g

/-- The key-attaching fold of the smart ordering preserves the element
sequence. -/
theorem keyedFold_map_fst (play : Play) :
    ∀ (l : List WordEntry) (st : List (WordEntry × JQ) × Rng),
      ((l.foldl (fun (st : List (WordEntry × JQ) × Rng) e =>
        let d := st.2.next 50
        (st.1 ++ [(e, (e.word.length : JQ) * 100 + (play e.word : JQ) * (1 / 1000) +
          (d.1 : JQ))], d.2)) st).1).map (fun p => p.1) =
      st.1.map (fun p => p.1) ++ l := by
  intro l
  induction l with
  | nil =>
    intro st
    simp
  | cons e tl ih =>
    intro st
    rw [List.foldl_cons]
    have hstep : (let d := st.2.next 50
        (st.1 ++ [(e, (e.word.length : JQ) * 100 + (play e.word : JQ) * (1 / 1000) +
          (d.1 : JQ))], d.2)) =
        (st.1 ++ [(e, (e.word.length : JQ) * 100 + (play e.word : JQ) * (1 / 1000) +
          ((st.2.next 50).1 : JQ))], (st.2.next 50).2) := rfl
    rw [hstep, ih]
    simp

/-- The smart word ordering is a permutation of the input words. -/
theorem smartOrder_perm (play : Play) (words : List WordEntry) (rng : Rng) :
    List.Perm (smartOrder play words rng).1 words := by
  simp only [smartOrder]
  have hperm := (sortByDesc_perm (fun p : WordEntry × JQ => p.2)
    (((fyShuffle words rng).1).foldl (fun (st : List (WordEntry × JQ) × Rng) e =>
      let d := st.2.next 50
      (st.1 ++ [(e, (e.word.length : JQ) * 100 + (play e.word : JQ) * (1 / 1000) +
        (d.1 : JQ))], d.2)) ([], (fyShuffle words rng).2)).1).map
    (fun p : WordEntry × JQ => p.1)
  rw [keyedFold_map_fst] at hperm
  simp only [List.map_nil, List.nil_append] at hperm
  exact hperm.trans (fyShuffle_perm words rng)

/-- Reading each position of a list with a default reproduces the list. -/
theorem range_map_getD {α : Type} (l : List α) (d : α) :
    (List.range l.length).map (fun i => l.getD i d) = l := by
  refine List.ext_getElem (by simp) ?_
  intro i h1 h2
  rw [List.getElem_map, List.getElem_range, List.getD_eq_getElem l d
    (by simpa using h2)]

/-- Any mapped prefix of a sorted list is drawn from the mapped list. -/
theorem take_sorted_map_le {α β γ : Type} [LE γ]
    [DecidableRel (fun a b : γ => a ≤ b)] (key : β → γ) (f : β → α)
    (l : List β) (k : Nat) :
    ((((sortByDesc key l).take k).map f : List α) : Multiset α) ≤
      ((l.map f : List α) : Multiset α) := by
  have h1 : List.Sublist ((sortByDesc key l).take k) (sortByDesc key l) :=
    List.take_sublist k _
  have h2 : List.Sublist (((sortByDesc key l).take k).map f)
      ((sortByDesc key l).map f) := h1.map f
  refine le_trans (Multiset.coe_le.mpr h2.subperm) (le_of_eq ?_)
  exact Quot.sound ((sortByDesc_perm key l).map f)

/-- The dense seed selection draws its entries from the word list. -/
theorem selectSeedWords_le (words : List WordEntry) (k : Nat) :
    ((selectSeedWords words k : List WordEntry) : Multiset WordEntry) ≤
      (words : Multiset WordEntry) := by
  unfold selectSeedWords
  refine le_trans (take_sorted_map_le _ _ _ _) (le_of_eq (congrArg _ ?_))
  rw [List.map_map]
  exact range_map_getD words ⟨[], []⟩

/-- Every collected filler candidate avoids the placed words. -/
theorem fillerCandsAux_mem (placedWords : List Wd) (pattern : List (Option Char))
    (len : Nat) (g : CGrid) (gridSize : Nat) (row col : Int)
    (direction : Direction) (dict : List Wd) :
    ∀ (ws acc : List WordEntry), (∀ x ∈ acc, x.word ∉ placedWords) →
      ∀ x ∈ fillerCandsAux placedWords pattern len g gridSize row col direction
        dict ws acc, x.word ∉ placedWords := by
  intro ws
  induction ws with
  | nil =>
    intro acc hacc x hx
    exact hacc x hx
  | cons w rest ih =>
    intro acc hacc x hx
    simp only [fillerCandsAux] at hx
    split at hx
    · rename_i hcond
      rw [Bool.and_eq_true, Bool.and_eq_true, Bool.and_eq_true] at hcond
      have hwp : w.word ∉ placedWords := by
        have := hcond.1.1.2
        simpa using this
      have hacc2 : ∀ y ∈ acc ++ [w], y.word ∉ placedWords := by
        intro y hy
        rcases List.mem_append.mp hy with hm | hm
        · exact hacc y hm
        · simp only [List.mem_singleton] at hm
          subst hm
          exact hwp
      split at hx
      · exact hacc2 x hx
      · exact ih (acc ++ [w]) hacc2 x hx
    · exact ih acc hacc x hx

/-- A found best filler avoids the placed words. -/
theorem findBestFiller_spec (play : Play) (allWords : List WordEntry)
    (placedWords : List Wd) (pattern : List (Option Char)) (len : Nat)
    (g : CGrid) (gridSize : Nat) (row col : Int) (direction : Direction)
    (dict : List Wd) (w : WordEntry)
    (h : findBestFiller play allWords placedWords pattern len g gridSize row col
      direction dict = some w) : w.word ∉ placedWords := by
  simp only [findBestFiller] at h
  cases hs : sortByDesc (fun w2 : WordEntry => play w2.word)
      (fillerCandsAux placedWords pattern len g gridSize row col direction dict
        allWords []) with
  | nil =>
    rw [hs] at h
    cases h
  | cons best tl =>
    rw [hs] at h
    injection h with h
    rw [← h]
    have hmem : best ∈ sortByDesc (fun w2 : WordEntry => play w2.word)
        (fillerCandsAux placedWords pattern len g gridSize row col direction dict
          allWords []) := by
      rw [hs]
      exact List.mem_cons_self _ _
    have hmem2 := (sortByDesc_perm (fun w2 : WordEntry => play w2.word) _).mem_iff.mp hmem
    exact fillerCandsAux_mem placedWords pattern len g gridSize row col direction
      dict allWords [] (by simp) best hmem2

/-- A filler found by the length loop avoids the placed words. -/
theorem gapTryLens_spec (play : Play) (accept : WordEntry → Bool)
    (fillerWords : List WordEntry) (st : PlaceSt) (gridSize : Nat) (r c : Int)
    (direction : Direction) (dict : List Wd) (pattern : List (Option Char)) :
    ∀ (lens : List Nat) (w : WordEntry),
      gapTryLens play accept fillerWords st gridSize r c direction dict pattern
        lens = some w →
      w.word ∉ st.2.map (fun p => p.word) := by
  intro lens
  induction lens with
  | nil =>
    intro w hw
    cases hw
  | cons len rest ih =>
    intro w hw
    simp only [gapTryLens] at hw
    repeat' split at hw
    all_goals first
      | exact ih w hw
      | (injection hw with hw2
         subst hw2
         exact findBestFiller_spec play fillerWords _ pattern len st.1 gridSize
           r c direction dict _ (by assumption))

/-- One gap-fill cell keeps the placed words pairwise distinct. -/
theorem gapFillCell_nodup (play : Play) (accept : WordEntry → Bool)
    (fillerWords : List WordEntry) (gridSize : Nat) (direction : Direction)
    (bounds : BBox) (dict : List Wd) (st : PlaceSt) (rc : Nat × Nat)
    (h : (st.2.map (fun p => p.word)).Nodup) :
    (((gapFillCell play accept fillerWords gridSize direction bounds dict st
      rc).2).map (fun p => p.word)).Nodup := by
  simp only [gapFillCell]
  repeat' split
  all_goals first
    | exact h
    | (rw [List.map_append]
       refine List.Nodup.append h (by simp) ?_
       intro a ha hae
       simp only [List.map_cons, List.map_nil, List.mem_singleton] at hae
       subst hae
       exact gapTryLens_spec play accept fillerWords st gridSize _ _ direction
         dict _ _ _ (by assumption) ha)

/-- The gap-fill scan keeps the placed words pairwise distinct. -/
theorem gapFold_nodup (play : Play) (accept : WordEntry → Bool)
    (fillerWords : List WordEntry) (gridSize : Nat) (direction : Direction)
    (bounds : BBox) (dict : List Wd) (cells : List (Nat × Nat)) (st : PlaceSt)
    (h : (st.2.map (fun p => p.word)).Nodup) :
    (((cells.foldl (gapFillCell play accept fillerWords gridSize direction bounds
      dict) st).2).map (fun p => p.word)).Nodup :=
  foldl_invariant (P := fun st2 : PlaceSt => (st2.2.map (fun p => p.word)).Nodup)
    _ cells st h
    (fun b a _ hb =>
      gapFillCell_nodup play accept fillerWords gridSize direction bounds dict
        b a hb)

/-- The dense strategy never places a word twice when the input words are
pairwise distinct. -/
theorem generateDense_nodup (allWords : List WordEntry) (play : Play)
    (log : LogFn) (words : List WordEntry) (h : entriesDistinct words) :
    optWordsNodup (generateDense allWords play log words) := by
  unfold generateDense
  cases hs : sortByDesc (fun e : WordEntry => e.word.length)
      (selectSeedWords words 6) with
  | nil =>
    simp only [hs]
    exact trivial
  | cons first restSeeds =>
    simp only [hs]
    have hwordsN : (words.map (fun e => e.word)).Nodup := h
    have hseedle := selectSeedWords_le words 6
    have hseedwordsle : (((selectSeedWords words 6).map (fun e => e.word) :
        List Wd) : Multiset Wd) ≤ ((words.map (fun e => e.word) : List Wd) :
        Multiset Wd) := by
      have := Multiset.map_le_map (f := fun e : WordEntry => e.word) hseedle
      simpa using this
    have hseedN : ((selectSeedWords words 6).map (fun e => e.word)).Nodup := by
      have := Multiset.nodup_of_le hseedwordsle (by simpa using hwordsN)
      simpa using this
    have hperm := sortByDesc_perm (fun e : WordEntry => e.word.length)
      (selectSeedWords words 6)
    rw [hs] at hperm
    have hnd : ((first :: restSeeds).map (fun e => e.word)).Nodup :=
      ((hperm.map (fun e => e.word)).nodup_iff).mpr hseedN
    have hfw : first.word ∉ restSeeds.map (fun e => e.word) :=
      (List.nodup_cons.mp (by simpa using hnd)).1
    have hrestN : (restSeeds.map (fun e => e.word)).Nodup :=
      (List.nodup_cons.mp (by simpa using hnd)).2
    have hseed : ((seedState GRID_DENSE first).2.map (fun g => g.word)).Nodup := by
      simp [seedState]
    have hdisj : ∀ w ∈ restSeeds.map (fun e => e.word),
        w ∉ (seedState GRID_DENSE first).2.map (fun g => g.word) := by
      intro w hw
      simp only [seedState, List.map_cons, List.map_nil, List.mem_singleton]
      intro he
      rw [he] at hw
      exact hfw hw
    have hspecSeed := denseSeedTry_spec log play (allWords.map (fun e => e.word))
    have hspecGrow := denseGrowTry_spec log play (allWords.map (fun e => e.word))
    have hspecFinal := denseFinalTry_spec log play (allWords.map (fun e => e.word))
    obtain ⟨h1n0, h1cov0⟩ := plainFold_nodup _ hspecSeed restSeeds
      (seedState GRID_DENSE first) hseed hrestN hdisj
    have h1n : ((restSeeds.foldl
        (denseSeedTry log play (allWords.map (fun e => e.word)))
        (seedState GRID_DENSE first)).2.map (fun g => g.word)).Nodup := h1n0
    have h1cov : ∀ w ∈ (restSeeds.foldl
        (denseSeedTry log play (allWords.map (fun e => e.word)))
        (seedState GRID_DENSE first)).2.map (fun g => g.word),
        w ∈ (seedState GRID_DENSE first).2.map (fun g => g.word) ∨
          w ∈ restSeeds.map (fun e => e.word) := h1cov0
    clear h1n0 h1cov0
    -- words placed after the seed phase come from the seed entries
    have hseedcov : ∀ w ∈ (restSeeds.foldl
        (denseSeedTry log play (allWords.map (fun e => e.word)))
        (seedState GRID_DENSE first)).2.map (fun g => g.word),
        ∃ s ∈ selectSeedWords words 6, s.word = w := by
      intro w hw
      rcases h1cov w hw with hm | hm
      · simp only [seedState, List.map_cons, List.map_nil,
          List.mem_singleton] at hm
        subst hm
        refine ⟨first, ?_, rfl⟩
        exact hperm.mem_iff.mp (List.mem_cons_self _ _)
      · rw [List.mem_map] at hm
        obtain ⟨s, hsmem, he⟩ := hm
        exact ⟨s, hperm.mem_iff.mp (by simp [hsmem]), he⟩
    -- the remaining words are distinct and disjoint from the seed-phase words
    have hremN : ((words.filter (fun w => decide (w ∉ selectSeedWords words 6))).map
        (fun e => e.word)).Nodup := by
      have hsub : List.Sublist ((words.filter
          (fun w => decide (w ∉ selectSeedWords words 6))).map (fun e => e.word))
          (words.map (fun e => e.word)) := (List.filter_sublist _).map _
      have := Multiset.nodup_of_le (Multiset.coe_le.mpr hsub.subperm)
        (by simpa using hwordsN)
      simpa using this
    have hsortperm := sortByDesc_perm (fun e : WordEntry => e.word.length)
      (words.filter (fun w => decide (w ∉ selectSeedWords words 6)))
    have hsortN : ((sortByDesc (fun e : WordEntry => e.word.length)
        (words.filter (fun w => decide (w ∉ selectSeedWords words 6)))).map
          (fun e => e.word)).Nodup :=
      ((hsortperm.map (fun e => e.word)).nodup_iff).mpr hremN
    have hsortdisj : ∀ w ∈ (sortByDesc (fun e : WordEntry => e.word.length)
        (words.filter (fun w => decide (w ∉ selectSeedWords words 6)))).map
          (fun e => e.word),
        w ∉ (restSeeds.foldl
          (denseSeedTry log play (allWords.map (fun e => e.word)))
          (seedState GRID_DENSE first)).2.map (fun g => g.word) := by
      intro w hw hplaced
      rw [List.mem_map] at hw
      obtain ⟨e, hemem, hew⟩ := hw
      have hememrem := hsortperm.mem_iff.mp hemem
      obtain ⟨hewords, hedec⟩ := List.mem_filter.mp hememrem
      have henotseed : e ∉ selectSeedWords words 6 := by simpa using hedec
      obtain ⟨s2, hsmem, hsw⟩ := hseedcov w hplaced
      have hswords : s2 ∈ words := by
        have := Multiset.mem_of_le hseedle (by simpa using hsmem)
        simpa using this
      have : e = s2 := List.inj_on_of_nodup_map hwordsN hewords hswords
        (by rw [hew, hsw])
      rw [this] at henotseed
      exact henotseed hsmem
    obtain ⟨ga, gb, gc⟩ := processPass_nodup _ hspecGrow _ _ h1n hsortN hsortdisj
    refine finalize_words_nodup _ _ _ _ ?_
    exact (plainFold_nodup _ hspecFinal _ _ ga gb gc).1

/-- The fitted strategy never places a word twice when the input words are
pairwise distinct. -/
theorem generateFitted_nodup (allWords : List WordEntry) (play : Play)
    (log : LogFn) (words : List WordEntry) (h : entriesDistinct words) :
    optWordsNodup (generateFitted allWords play log words) := by
  unfold generateFitted
  cases hs : sortByDesc (fun e : WordEntry => e.word.length) words with
  | nil =>
    simp only [hs]
    exact trivial
  | cons first rest =>
    simp only [hs]
    have hperm := sortByDesc_perm (fun e : WordEntry => e.word.length) words
    rw [hs] at hperm
    have h2 : (words.map (fun e => e.word)).Nodup := h
    have hnd : ((first :: rest).map (fun e => e.word)).Nodup :=
      ((hperm.map (fun e => e.word)).nodup_iff).mpr h2
    have hfw : first.word ∉ rest.map (fun e => e.word) :=
      (List.nodup_cons.mp (by simpa using hnd)).1
    have hrest : (rest.map (fun e => e.word)).Nodup :=
      (List.nodup_cons.mp (by simpa using hnd)).2
    have hseed : ((seedState GRID_FITTED first).2.map (fun g => g.word)).Nodup := by
      simp [seedState]
    have hdisj : ∀ w ∈ rest.map (fun e => e.word),
        w ∉ (seedState GRID_FITTED first).2.map (fun g => g.word) := by
      intro w hw
      simp only [seedState, List.map_cons, List.map_nil, List.mem_singleton]
      intro he
      rw [he] at hw
      exact hfw hw
    have hmain := fittedTryMain_spec log play (allWords.map (fun e => e.word))
    have hretry := retryTry30_spec log play (allWords.map (fun e => e.word))
    obtain ⟨ha, hb, hc⟩ := processPass_nodup _ hmain
      rest (seedState GRID_FITTED first) hseed hrest hdisj
    have hafter := retryPasses_nodup _ hretry 2 _ _ ha hb hc
    refine finalize_words_nodup _ _ _ _ ?_
    exact gapFold_nodup _ _ _ _ _ _ _ _ _
      (gapFold_nodup _ _ _ _ _ _ _ _ _ hafter)

/-- One smart attempt never places a word twice when its ordered words are
pairwise distinct. -/
theorem generateSmartAttempt_nodup (allWords : List WordEntry) (play : Play)
    (log : LogFn) (sortedWords : List WordEntry)
    (h : (sortedWords.map (fun e => e.word)).Nodup) :
    optWordsNodup (generateSmartAttempt allWords play log sortedWords) := by
  unfold generateSmartAttempt
  cases sortedWords with
  | nil => exact trivial
  | cons first rest =>
    have hfw : first.word ∉ rest.map (fun e => e.word) :=
      (List.nodup_cons.mp (by simpa using h)).1
    have hrest : (rest.map (fun e => e.word)).Nodup :=
      (List.nodup_cons.mp (by simpa using h)).2
    have hseed : ((seedState GRID_SMART first).2.map (fun g => g.word)).Nodup := by
      simp [seedState]
    have hdisj : ∀ w ∈ rest.map (fun e => e.word),
        w ∉ (seedState GRID_SMART first).2.map (fun g => g.word) := by
      intro w hw
      simp only [seedState, List.map_cons, List.map_nil, List.mem_singleton]
      intro he
      rw [he] at hw
      exact hfw hw
    have hmain := smartTryMain_spec log play (allWords.map (fun e => e.word))
    have hretry := retryTry30_spec log play (allWords.map (fun e => e.word))
    obtain ⟨ha, hb, hc⟩ := processPass_nodup _ hmain
      rest (seedState GRID_SMART first) hseed hrest hdisj
    have hafter := retryPasses_nodup _ hretry 2 _ _ ha hb hc
    refine finalize_words_nodup _ _ _ _ ?_
    exact gapFold_nodup _ _ _ _ _ _ _ _ _
      (gapFold_nodup _ _ _ _ _ _ _ _ _ hafter)

/-- The smart strategy never places a word twice when the input words are
pairwise distinct. -/
theorem generateSmart_nodup (allWords : List WordEntry) (play : Play)
    (log : LogFn) (words : List WordEntry) (rng : Rng)
    (h : entriesDistinct words) :
    optWordsNodup (generateSmart allWords play log words rng) := by
  have hwordsN : (words.map (fun e => e.word)).Nodup := h
  simp only [generateSmart]
  have hinv := foldl_invariant
    (P := fun acc : Option ((Option CrosswordData × JQ) × Rng) =>
      ∀ st, acc = some st → ∀ r, st.1.1 = some r → wordsNodup r)
    (fun (acc : Option ((Option CrosswordData × JQ) × Rng)) _ =>
      match acc with
      | none => none
      | some st =>
        let ord := smartOrder play words st.2
        match generateSmartAttempt allWords play log ord.1 with
        | none => none
        | some result =>
          let area0 := result.width * result.height
          let area := if area0 = 0 then 1 else area0
          let filled := (result.grid.map (fun row =>
            (row.filter (fun cell => cell.isSome)).length)).sum
          let density : JQ := (filled : JQ) / (area : JQ)
          let score := (result.words.length : JQ) * 1000 + density * 500 +
            log ((result.avgPlayability : JQ) + 1) * 100 - (area : JQ) * 2
          let newBest := match st.1.1 with
            | none => (some result, score)
            | some _ => if st.1.2 < score then (some result, score) else st.1
          some (newBest, ord.2))
    (List.range 5) (some ((none, 0), rng))
    (by
      intro st hst r hr
      injection hst with hst
      subst hst
      cases hr)
    ?_
  · split
    · exact trivial
    · rename_i st hfold
      split
      · rename_i r hr
        exact hinv st hfold r hr
      · show wordsNodup ⟨[[]], [], 0, 0, 0, none⟩
        simp [wordsNodup]
  · intro b a ha hb
    cases b with
    | none =>
      intro st hst
      cases hst
    | some st0 =>
      intro st hst r hr
      have hordperm := smartOrder_perm play words st0.2
      have hordN : (((smartOrder play words st0.2).1).map
          (fun e => e.word)).Nodup :=
        ((hordperm.map (fun e => e.word)).nodup_iff).mpr hwordsN
      have hatt := generateSmartAttempt_nodup allWords play log
        (smartOrder play words st0.2).1 hordN
      have hst2 : (match generateSmartAttempt allWords play log
          (smartOrder play words st0.2).1 with
        | none => (none : Option ((Option CrosswordData × JQ) × Rng))
        | some result =>
          some ((match st0.1.1 with
            | none => (some result,
                (result.words.length : JQ) * 1000 +
                  ((result.grid.map (fun row =>
                    (((row.filter (fun cell => cell.isSome)).length : Nat) : JQ))).sum /
                    (((if result.width * result.height = 0 then 1
                      else result.width * result.height) : Nat) : JQ)) * 500 +
                  log ((result.avgPlayability : JQ) + 1) * 100 -
                  (((if result.width * result.height = 0 then 1
                    else result.width * result.height) : Nat) : JQ) * 2)
            | some _ =>
              if st0.1.2 < (result.words.length : JQ) * 1000 +
                  ((result.grid.map (fun row =>
                    (((row.filter (fun cell => cell.isSome)).length : Nat) : JQ))).sum /
                    (((if result.width * result.height = 0 then 1
                      else result.width * result.height) : Nat) : JQ)) * 500 +
                  log ((result.avgPlayability : JQ) + 1) * 100 -
                  (((if result.width * result.height = 0 then 1
                    else result.width * result.height) : Nat) : JQ) * 2 then
                (some result,
                  (result.words.length : JQ) * 1000 +
                    ((result.grid.map (fun row =>
                      (((row.filter (fun cell => cell.isSome)).length : Nat) : JQ))).sum /
                      (((if result.width * result.height = 0 then 1
                        else result.width * result.height) : Nat) : JQ)) * 500 +
                    log ((result.avgPlayability : JQ) + 1) * 100 -
                    (((if result.width * result.height = 0 then 1
                      else result.width * result.height) : Nat) : JQ) * 2)
              else st0.1),
           (smartOrder play words st0.2).2)) = some st := hst
      split at hst2
      · cases hst2
      · rename_i result hattEq
        rw [hattEq] at hatt
        have hresN : wordsNodup result := hatt
        injection hst2 with hst2
        subst hst2
        cases hb0 : st0.1.1 with
        | none =>
          simp only [hb0] at hr
          have hr2 : some result = some r := hr
          injection hr2 with hr2
          subst hr2
          exact hresN
        | some old =>
          simp only [hb0] at hr
          repeat' split at hr
          all_goals first
            | (have hr2 : some result = some r := hr
               injection hr2 with hr2
               subst hr2
               exact hresN)
            | exact hb st0 rfl r hr

/-- A fold whose step fixes every list element leaves the accumulator
unchanged. -/
theorem foldl_keep {α β : Type} (f : β → α → β) (l : List α) (a : β)
    (h : ∀ x ∈ l, ∀ acc, f acc x = acc) : l.foldl f a = a := by
  induction l generalizing a with
  | nil => rfl
  | cons x xs ih =>
    rw [List.foldl_cons, h x (by simp)]
    exact ih a (fun y hy acc => h y (by simp [hy]) acc)

/-- The row-major bounding-box fold decomposes into row folds. -/
theorem rmCells_rows (g : CGrid) (w : Nat) :
    ∀ (h : Nat) (a : Nat × Nat × Nat × Nat),
      (rmCells w h).foldl (bboxStep g) a =
        (List.range h).foldl (fun acc r => bboxRowFold g w r acc) a := by
  intro h
  induction h with
  | zero => intro a; rfl
  | succ n ih =>
    intro a
    have h1 : rmCells w (n + 1) =
        rmCells w n ++ (List.range w).map (fun c => (n, c)) := by
      simp [rmCells, List.range_succ]
    rw [h1, List.foldl_append, ih, List.range_succ, List.foldl_append]
    rfl

/-- The counterexample grid is empty outside rows 38 to 40. -/
theorem gC5_none (x y : Int) (h1 : x ≠ 38) (h2 : x ≠ 39) (h3 : x ≠ 40) :
    gC5 x y = none := by
  show (if x = 38 + ((2 : Nat) : Int) ∧ y = 40 then some (jsGet ("ANA".toList) 2)
    else if x = 38 + ((1 : Nat) : Int) ∧ y = 40 then some (jsGet ("ANA".toList) 1)
    else if x = 38 + ((0 : Nat) : Int) ∧ y = 40 then some (jsGet ("ANA".toList) 0)
    else if x = 40 ∧ y = 38 + ((2 : Nat) : Int) then some (jsGet ("ANA".toList) 2)
    else if x = 40 ∧ y = 38 + ((1 : Nat) : Int) then some (jsGet ("ANA".toList) 1)
    else if x = 40 ∧ y = 38 + ((0 : Nat) : Int) then some (jsGet ("ANA".toList) 0)
    else none) = none
  have e1 : (38 : Int) + ((2 : Nat) : Int) = 40 := by norm_num
  have e2 : (38 : Int) + ((1 : Nat) : Int) = 39 := by norm_num
  have e3 : (38 : Int) + ((0 : Nat) : Int) = 38 := by norm_num
  rw [e1, e2, e3]
  simp [h1, h2, h3]

/-- A row of empty cells leaves the bounding-box accumulator unchanged. -/
theorem bboxRowFold_none (g : CGrid) (w r : Nat)
    (hnone : ∀ c : Nat, g (r : Int) (c : Int) = none)
    (a : Nat × Nat × Nat × Nat) : bboxRowFold g w r a = a := by
  refine foldl_keep _ _ _ ?_
  intro x hx acc
  obtain ⟨c, hc, he⟩ := List.mem_map.mp hx
  subst he
  simp [bboxStep, hnone]

/-- Bounding box of the counterexample grid, computed row by row. -/
theorem gC5_bbox : getBoundingBox gC5 80 = ⟨38, 40, 38, 40, 3, 3⟩ := by
  have hlow : ∀ r ∈ List.range 38, ∀ acc : Nat × Nat × Nat × Nat,
      bboxRowFold gC5 80 r acc = acc := by
    intro r hr acc
    have hr' : r < 38 := List.mem_range.mp hr
    exact bboxRowFold_none _ _ _
      (fun c => gC5_none _ _ (by omega) (by omega) (by omega)) _
  have hhigh : ∀ r ∈ (List.range 39).map (fun x => 41 + x),
      ∀ acc : Nat × Nat × Nat × Nat, bboxRowFold gC5 80 r acc = acc := by
    intro r hr acc
    obtain ⟨k, hk, he⟩ := List.mem_map.mp hr
    subst he
    exact bboxRowFold_none _ _ _
      (fun c => gC5_none _ _ (by omega) (by omega) (by omega)) _
  have h38 : bboxRowFold gC5 80 38 (80, 0, 80, 0) = (38, 38, 40, 40) := by decide
  have h39 : bboxRowFold gC5 80 39 (38, 38, 40, 40) = (38, 39, 40, 40) := by decide
  have h40 : bboxRowFold gC5 80 40 (38, 39, 40, 40) = (38, 40, 38, 40) := by decide
  have hsplit1 : List.range 80 = List.range 41 ++ (List.range 39).map (fun x => 41 + x) :=
    List.range_add 41 39
  have hsplit2 : List.range 41 = List.range 38 ++ (List.range 3).map (fun x => 38 + x) :=
    List.range_add 38 3
  have hmid : (List.range 3).map (fun x => 38 + x) = [38, 39, 40] := rfl
  have hfold : (List.range 80).foldl (fun acc r => bboxRowFold gC5 80 r acc)
      ((80 : Nat), (0 : Nat), (80 : Nat), (0 : Nat)) = (38, 40, 38, 40) := by
    rw [hsplit1, List.foldl_append, hsplit2, List.foldl_append, hmid,
      foldl_keep _ _ _ hlow]
    simp only [List.foldl_cons, List.foldl_nil]
    rw [h38, h39, h40]
    exact foldl_keep _ _ _ hhigh
  simp only [getBoundingBox, rmCells_rows, hfold]
  decide

/-- Trimmed grid of the counterexample run. -/
theorem gC5_trim : trimGrid gC5 80 =
    ⟨[[none, none, some 'A'], [none, none, some 'N'],
      [some 'A', some 'N', some 'A']], 38, 38⟩ := by
  simp only [trimGrid, gC5_bbox]
  rfl

/-- Words of the finalized counterexample result: the duplicated input
word is emitted twice. -/
theorem gC5_finalize_words :
    (finalize gC5 80 placedC5 play0).words.map (fun w => w.word) =
      ["ANA".toList, "ANA".toList] := by
  simp only [finalize, gC5_trim]
  rfl

/-- The original strategy on the duplicated input places the word twice:
its pipeline output is the finalization of the counterexample grid. -/
theorem genOrigC5_eq :
    generateOriginal [anaEntry, anaEntry] play0 log0 [anaEntry, anaEntry] =
      some (finalize gC5 80 placedC5 play0) := rfl

/-- C5 (corrected): within one result no word appears twice, under the
necessary input-side conditions the source omits — the input word strings
are pairwise distinct for all five classic strategies (a duplicated input
word is placed twice, see the counterexample), and the assignment array of
the fill-in engine holds pairwise-distinct words, which is what its
used-word filters maintain; `greedyPatch` preserves that distinctness. -/
theorem c5_no_duplicate_words
    (allWords : List WordEntry) (play : Play) (log : LogFn)
    (words : List WordEntry) (rng : Rng) (template : FGrid)
    (width height : Nat) (slots : List Slot) (asg : List (Option Wd))
    (play2 : Play) (wordsByLen : Nat → List Wd)
    (hwords : entriesDistinct words) (hasg : asgDistinct asg) :
    optWordsNodup (generateOriginal allWords play log words) ∧
    optWordsNodup (generateCompact allWords play log words) ∧
    optWordsNodup (generateDense allWords play log words) ∧
    optWordsNodup (generateFitted allWords play log words) ∧
    optWordsNodup (generateSmart allWords play log words rng) ∧
    wordsNodup (assembleResult template width height slots asg play2) ∧
    asgDistinct (greedyPatch slots asg wordsByLen) :=
  ⟨generateOriginal_nodup allWords play log words hwords,
   generateCompact_nodup allWords play log words hwords,
   generateDense_nodup allWords play log words hwords,
   generateFitted_nodup allWords play log words hwords,
   generateSmart_nodup allWords play log words rng hwords,
   assembleResult_words_nodup template width height slots asg play2 hasg,
   greedyPatch_distinct slots asg wordsByLen hasg⟩

theorem c5_counterexample :
    ¬ optWordsNodup (generateOriginal [anaEntry, anaEntry] play0 log0
      [anaEntry, anaEntry]) := by
  rw [genOrigC5_eq]
  intro h
  have h2 : ((finalize gC5 80 placedC5 play0).words.map (fun w => w.word)).Nodup := h
  rw [gC5_finalize_words] at h2
  exact absurd h2 (by decide)

theorem c5_witness :
    (entriesDistinct [anaEntry] ∧
     asgDistinct [some ("CAT".toList), some ("BAT".toList)]) ∧
    (optWordsNodup (generateOriginal [anaEntry] play0 log0 [anaEntry]) ∧
     optWordsNodup (generateCompact [anaEntry] play0 log0 [anaEntry]) ∧
     optWordsNodup (generateDense [anaEntry] play0 log0 [anaEntry]) ∧
     optWordsNodup (generateFitted [anaEntry] play0 log0 [anaEntry]) ∧
     optWordsNodup (generateSmart [anaEntry] play0 log0 [anaEntry] rng0) ∧
     wordsNodup (assembleResult crossT 3 3 crossSlots
       [some ("CAT".toList), some ("BAT".toList)] play0) ∧
     asgDistinct (greedyPatch crossSlots
       [some ("CAT".toList), some ("BAT".toList)] (fun _ => []))) := by
  have hent : entriesDistinct [anaEntry] := by
    unfold entriesDistinct
    decide
  have hasg : asgDistinct [some ("CAT".toList), some ("BAT".toList)] := by
    intro i j wi wj hne hi hj
    have hi2 : i < 2 := by
      by_contra hge
      rw [getD_default_of_ge _ _ _ (by simpa using hge)] at hi
      cases hi
    have hj2 : j < 2 := by
      by_contra hge
      rw [getD_default_of_ge _ _ _ (by simpa using hge)] at hj
      cases hj
    interval_cases i <;> interval_cases j <;>
      first
      | exact absurd rfl hne
      | (injection hi with h1
         injection hj with h2
         subst h1
         subst h2
         decide)
  refine ⟨⟨hent, hasg⟩, ?_⟩
  exact c5_no_duplicate_words [anaEntry] play0 log0 [anaEntry] rng0 crossT 3 3
    crossSlots [some ("CAT".toList), some ("BAT".toList)] play0 (fun _ => [])
    hent hasg

end Crossword
